import Mathlib

/-!
# MDC1200 packet encoder (OpenGD77 firmware, `functions/mdc1200.c`)

A shallow embedding of `mdc1200.c`: the packet encoder and the symbol transmitter.

* A byte buffer is a `List Nat` (every cell a `uint8_t`, so below 256 in a
  well-formed buffer); a pointer into it is an offset, a null pointer is
  `none`.
* A `for` loop is a left fold of its body over the list of values that its
  counter takes, the state of the fold being the variables that the body
  assigns.
* A conversion to `uint8_t` / `uint16_t` is a reduction modulo `2^8` / `2^16`.
* The array `interleaved` of `mdc1200EncodeData` is not initialised by the
  source; its content on entry is a parameter of the model. The same holds for
  `packet` of `mdc1200TransmitEOTPostId` and `bitStream` of `mdc1200TransmitPacket`.
* The collaborators of the transmitter (radio, front-end chip, amplifier, GPIO) are
  not part of the sources at hand. What the function reads from them is a record of
  inputs, what it asks them to do is recorded as a trace of calls, and the constants
  of their headers are parameters.
* `PITCounter` is a stream of readings: the `k`-th read of the counter returns
  `pit k`. A busy-wait polls at most `fuel` times; running out of polls is the fault
  `timeout`. A write behind the end of `bitStream` is the fault `bitStreamOverflow`.
-/

namespace MDC1200

/-! ## Constants of `mdc1200.h` and `mdc1200.c` -/

def MDC1200_FEC_K : Nat := 7
def MDC1200_PREAMBLE_BYTES : Nat := 7
def MDC1200_SYNC_BYTES : Nat := 5
def MDC1200_ENCODED_PAYLOAD_BYTES : Nat := MDC1200_FEC_K * 2
def MDC1200_PACKET_BYTES : Nat :=
  MDC1200_PREAMBLE_BYTES + MDC1200_SYNC_BYTES + MDC1200_ENCODED_PAYLOAD_BYTES

def mdc1200Preamble : List Nat := [0x00, 0x00, 0x00, 0x00, 0x00, 0x00, 0x00]
def mdc1200Sync : List Nat := [0x07, 0x09, 0x2A, 0x44, 0x6F]

/-- Values of a counter that runs `7, 6, ..., 0` (`for (int bit = 7; bit >= 0; bit--)`). -/
def downFrom7 : List Nat := [7, 6, 5, 4, 3, 2, 1, 0]

/-- The library call `memcpy(mem + p, src, n)`. -/
def memcpy (mem : List Nat) (p : Nat) (src : List Nat) (n : Nat) : List Nat :=
  (List.range n).foldl (fun m i => m.set (p + i) (src.getD i 0)) mem

/-! ## `mdc1200CRC16Xmodem` -/

/-- Body of the inner loop of `mdc1200CRC16Xmodem`: one shift of the register. -/
def crc16Bit (crc : Nat) (_bit : Nat) : Nat :=
  if crc &&& 0x8000 ≠ 0 then ((crc <<< 1) ^^^ 0x1021) % 65536 else (crc <<< 1) % 65536

/-- Body of the outer loop of `mdc1200CRC16Xmodem`: byte `data[i]` is folded in. -/
def crc16Byte (data : List Nat) (crc : Nat) (i : Nat) : Nat :=
  (List.range 8).foldl crc16Bit ((crc ^^^ ((data.getD i 0 % 65536) <<< 8)) % 65536)

def mdc1200CRC16Xmodem (data : List Nat) (dataLength : Nat) : Nat :=
  (List.range dataLength).foldl (crc16Byte data) 0x0000

/-! ## `mdc1200EncodeData` -/

/-- Body of the inner loop of the convolutional coder; the state is `(shiftReg, bo)`. -/
def convBit (bi : Nat) (st : Nat × Nat) (bit : Nat) : Nat × Nat :=
  let shiftReg := ((st.1 <<< 1) ||| ((bi >>> bit) &&& 1)) % 256
  let bo := (st.2 ||| (((((shiftReg >>> 6) ^^^ (shiftReg >>> 5) ^^^ (shiftReg >>> 2)
    ^^^ (shiftReg >>> 0)) &&& 1) <<< bit) % 256)) % 256
  (shiftReg, bo)

/-- Body of the outer loop of the convolutional coder; the state is `(data, shiftReg)`. -/
def convByte (p : Nat) (st : List Nat × Nat) (i : Nat) : List Nat × Nat :=
  let bi := st.1.getD (p + i) 0
  let r := (List.range 8).foldl (convBit bi) (st.2, 0)
  (st.1.set (p + MDC1200_FEC_K + i) r.2, r.1)

/-- The first loop of `mdc1200EncodeData` (rate 1/2 convolutional coding) on the
buffer `data`, `p` being the offset the function's argument points to. -/
def convStage (data : List Nat) (p : Nat) : List Nat :=
  ((List.range MDC1200_FEC_K).foldl (convByte p) (data, 0)).1

/-- Body of the inner loop that scatters the bits; the state is `(interleaved, k)`. -/
def scatterBit (b : Nat) (st : List Nat × Nat) (bit : Nat) : List Nat × Nat :=
  let k := st.2 + 16
  (st.1.set st.2 (((b >>> bit) &&& 1) % 256),
    if k ≥ MDC1200_ENCODED_PAYLOAD_BYTES * 8 then k - (MDC1200_ENCODED_PAYLOAD_BYTES * 8 - 1)
    else k)

/-- Body of the outer loop that scatters the bits. -/
def scatterByte (data : List Nat) (p : Nat) (st : List Nat × Nat) (i : Nat) :
    List Nat × Nat :=
  (List.range 8).foldl (scatterBit (data.getD (p + i) 0)) st

/-- The loop of `mdc1200EncodeData` that fills `interleaved`, whose content on
entry is `interleaved0`. -/
def scatterStage (interleaved0 : List Nat) (data : List Nat) (p : Nat) : List Nat :=
  ((List.range MDC1200_ENCODED_PAYLOAD_BYTES).foldl (scatterByte data p) (interleaved0, 0)).1

/-- Body of the inner loop that packs the bits again; the state is `(b, k)`. -/
def gatherBit (interleaved : List Nat) (st : Nat × Nat) (bit : Nat) : Nat × Nat :=
  (if interleaved.getD st.2 0 ≠ 0 then (st.1 ||| ((1 <<< bit) % 256)) % 256 else st.1,
    st.2 + 1)

/-- Body of the outer loop that packs the bits again; the state is `(data, k)`. -/
def gatherByte (interleaved : List Nat) (p : Nat) (st : List Nat × Nat) (i : Nat) :
    List Nat × Nat :=
  let r := downFrom7.foldl (gatherBit interleaved) (0, st.2)
  (st.1.set (p + i) r.1, r.2)

/-- The loop of `mdc1200EncodeData` that reads `interleaved` back into `data`. -/
def gatherStage (interleaved : List Nat) (data : List Nat) (p : Nat) : List Nat :=
  ((List.range MDC1200_ENCODED_PAYLOAD_BYTES).foldl (gatherByte interleaved p) (data, 0)).1

/-- The interleave block of `mdc1200EncodeData`. -/
def interleaveStage (interleaved0 : List Nat) (data : List Nat) (p : Nat) : List Nat :=
  gatherStage (scatterStage interleaved0 data p) data p

/-- The function `mdc1200EncodeData(data + p)`: the buffer after the call and the
returned pointer (as an offset). -/
def mdc1200EncodeData (interleaved0 : List Nat) (data : List Nat) (p : Nat) :
    List Nat × Nat :=
  (interleaveStage interleaved0 (convStage data p) p, p + MDC1200_ENCODED_PAYLOAD_BYTES)

/-! ## `mdc1200ApplyXorModulation` -/

/-- Body of the inner loop of `mdc1200ApplyXorModulation`; the state is
`(out, previousBit)`. -/
def xorModBit (inByte : Nat) (st : Nat × Nat) (bit : Nat) : Nat × Nat :=
  let newBit := ((inByte >>> bit) &&& 1) % 256
  (if newBit ≠ st.2 then (st.1 ||| ((1 <<< bit) % 256)) % 256 else st.1, newBit)

/-- The inner loop of `mdc1200ApplyXorModulation` on the byte `inByte`: the value
of `out` before the complement, and `previousBit` after the byte. -/
def xorModByte (previousBit : Nat) (inByte : Nat) : Nat × Nat :=
  downFrom7.foldl (xorModBit inByte) (0, previousBit)

/-- Body of the outer loop of `mdc1200ApplyXorModulation`; the state is
`(data, previousBit)`. -/
def xorModStep (st : List Nat × Nat) (i : Nat) : List Nat × Nat :=
  let r := xorModByte st.2 (st.1.getD i 0)
  (st.1.set i ((r.1 ^^^ 0xFF) % 256), r.2)

def mdc1200ApplyXorModulation (data : List Nat) (size : Nat) : List Nat :=
  ((List.range size).foldl xorModStep (data, 0)).1

/-! ## `mdc1200EncodeSinglePacket` -/

/-- The buffer of `mdc1200EncodeSinglePacket` when `mdc1200ApplyXorModulation` is
about to be called, and the value of `size`. -/
def encodeBeforeModulation (interleaved0 : List Nat) (data : List Nat)
    (op arg unitId : Nat) : List Nat × Nat :=
  let p := 0
  let data := memcpy data p mdc1200Preamble mdc1200Preamble.length
  let p := p + mdc1200Preamble.length
  let data := memcpy data p mdc1200Sync mdc1200Sync.length
  let p := p + mdc1200Sync.length
  let data := data.set (p + 0) op
  let data := data.set (p + 1) arg
  let data := data.set (p + 2) (((unitId >>> 8) &&& 0xFF) % 256)
  let data := data.set (p + 3) ((unitId &&& 0xFF) % 256)
  let crc := mdc1200CRC16Xmodem (data.drop p) 4
  let data := data.set (p + 4) ((crc &&& 0xFF) % 256)
  let data := data.set (p + 5) (((crc >>> 8) &&& 0xFF) % 256)
  let data := data.set (p + 6) 0x00
  let r := mdc1200EncodeData interleaved0 data p
  (r.1, r.2 - 0)

/-- The function `mdc1200EncodeSinglePacket`: the buffer after the call (`none`
for a null pointer) and the returned length. -/
def mdc1200EncodeSinglePacket (interleaved0 : List Nat) (data : Option (List Nat))
    (op arg unitId : Nat) : Option (List Nat) × Nat :=
  match data with
  | none => (none, 0)
  | some buf =>
    let r := encodeBeforeModulation interleaved0 buf op arg unitId
    (some (mdc1200ApplyXorModulation r.1 r.2), r.2)

/-! ## Collaborators of `mdc1200TransmitPacket` -/

/-- Constants of headers that are not among the sources (`trx.h`, `sound.h`,
`AT1846S.h`, `gpio.h`, the codeplug): parameters of the model. -/
structure Constants where
  RADIO_MODE_ANALOG : Nat
  CODEPLUG_CSS_NONE : Nat
  AUDIO_AMP_MODE_RF : Nat
  AT1846_VOICE_CHANNEL_TONE1 : Nat
  AT1846_VOICE_CHANNEL_MIC : Nat
  GPIO_RX_audio_mux : Nat
  Pin_RX_audio_mux : Nat

/-- What `mdc1200TransmitPacket` reads from its collaborators, all of it before its
first call that changes the hardware: the value of `trxGetMode()`, the flag
`trxTransmissionEnabled`, the value of `getAudioAmpStatus()`, `currentChannelData`
(`none` for a null pointer, else its field `txTone`) and the result of
`AT1846SReadReg2byte(0x58, ..)` (`some (high, low)` when the status is
`kStatus_Success`, else `none`). -/
structure Radio where
  trxGetMode : Nat
  trxTransmissionEnabled : Bool
  getAudioAmpStatus : Nat
  currentChannelData : Option Nat
  readReg0x58 : Option (Nat × Nat)

/-- A call that changes the hardware, with its arguments. -/
inductive HwCall where
  | trxSetTxCSS (tone : Nat)
  | AT1846SWriteReg2byte (reg high low : Nat)
  | trxSetTone1 (freq : Nat)
  | trxSelectVoiceChannel (channel : Nat)
  | enableAudioAmp (mode : Nat)
  | disableAudioAmp (mode : Nat)
  | GPIO_PinWrite (port pin value : Nat)
  deriving DecidableEq

/-- What the transmitter does, in program order: a call that changes the hardware, a
read of `PITCounter` outside a wait with the value read, or a busy-wait for the tick
`target` that ended when the counter read `now`. -/
inductive Event where
  | call (c : HwCall)
  | sample (now : Nat)
  | waited (target now : Nat)
  deriving DecidableEq

/-- The ways in which a run does not return. -/
inductive Fault where
  | timeout
  | bitStreamOverflow
  deriving DecidableEq

/-! ## `mdc1200TransmitPacket` -/

def mdc1200SymbolTicks : List Nat := [8, 8, 9]
def mdc1200ToneWriteLeadTicks : Nat := 4

def mdc1200SetBitTone (bitValue : Bool) : HwCall :=
  HwCall.trxSetTone1 (if bitValue then 1200 else 1800)

/-- The conversion `(int32_t)x` of a `uint32_t`. -/
def toInt32 (x : Nat) : Int :=
  if x % 2 ^ 32 < 2 ^ 31 then ((x % 2 ^ 32 : Nat) : Int) else ((x % 2 ^ 32 : Nat) : Int) - 2 ^ 32

/-- The difference `a - b` of two `uint32_t`. -/
def sub32 (a b : Nat) : Nat := (a % 2 ^ 32 + 2 ^ 32 - b % 2 ^ 32) % 2 ^ 32

/-- The condition `(int32_t)(PITCounter - target) < 0` of the busy-waits, `counter`
being the value read from `PITCounter`. -/
def waitCondition (counter target : Nat) : Bool :=
  decide (toInt32 (sub32 counter target) < 0)

/-- The loop `while ((int32_t)(PITCounter - target) < 0) {}` started when `k` reads of
the counter have been made, with at most `fuel` polls: the reading that ended the wait
and the number of reads made. -/
def busyWait (pit : Nat → Nat) (target : Nat) : Nat → Nat → Except Fault (Nat × Nat)
  | 0, _ => Except.error Fault.timeout
  | fuel + 1, k =>
    if waitCondition (pit k % 2 ^ 32) target then busyWait pit target fuel (k + 1)
    else Except.ok (pit k % 2 ^ 32, k + 1)

/-- Body of the inner loop that fills `bitStream`; the state is
`(bitStream, symbolIndex)`. -/
def fillBit (byte : Nat) (st : List Bool × Nat) (bit : Nat) : Except Fault (List Bool × Nat) :=
  if st.2 < MDC1200_PACKET_BYTES * 8 then
    Except.ok (st.1.set st.2 (decide (((byte >>> bit) &&& 1) ≠ 0)), st.2 + 1)
  else
    Except.error Fault.bitStreamOverflow

/-- Body of the outer loop that fills `bitStream`. -/
def fillByte (packet : List Nat) (st : List Bool × Nat) (i : Nat) :
    Except Fault (List Bool × Nat) :=
  downFrom7.foldlM (fillBit (packet.getD i 0)) st

/-- The loop of `mdc1200TransmitPacket` that fills `bitStream`, whose content on entry
is `bitStream0`. -/
def fillBitStream (packet : List Nat) (packetSize : Nat) (bitStream0 : List Bool) :
    Except Fault (List Bool × Nat) :=
  (List.range packetSize).foldlM (fillByte packet) (bitStream0, 0)

/-- Variables of the symbol loop, the number `reads` of reads of `PITCounter` made so
far, and the events of the loop so far. -/
structure LoopState where
  nextSymbolTick : Nat
  currentBit : Bool
  reads : Nat
  trace : List Event

/-- Body of the symbol loop of `mdc1200TransmitPacket`. -/
def symbolStep (pit : Nat → Nat) (fuel : Nat) (bitStream : List Bool) (totalSymbols : Nat)
    (st : LoopState) (symbolIndex : Nat) : Except Fault LoopState := do
  let toneUpdateTick := sub32 st.nextSymbolTick mdc1200ToneWriteLeadTicks
  let w1 ← busyWait pit toneUpdateTick fuel st.reads
  let trace1 := st.trace ++ [Event.waited toneUpdateTick w1.1]
  let nextBit := bitStream.getD (symbolIndex + 1) false
  let switch := decide (symbolIndex + 1 < totalSymbols) && decide (nextBit ≠ st.currentBit)
  let trace2 := if switch then trace1 ++ [Event.call (mdc1200SetBitTone nextBit)] else trace1
  let currentBit := if switch then nextBit else st.currentBit
  let w2 ← busyWait pit st.nextSymbolTick fuel w1.2
  let trace3 := trace2 ++ [Event.waited st.nextSymbolTick w2.1]
  let nextSymbolTick :=
    if symbolIndex + 1 < totalSymbols then
      (st.nextSymbolTick + mdc1200SymbolTicks.getD ((symbolIndex + 1) % 3) 0) % 2 ^ 32
    else st.nextSymbolTick
  pure { nextSymbolTick := nextSymbolTick, currentBit := currentBit, reads := w2.2,
         trace := trace3 }

/-- The function `mdc1200TransmitPacket`: the returned value, `bitStream` and the trace
of events when it returns. -/
def mdc1200TransmitPacket (K : Constants) (radio : Radio) (pit : Nat → Nat) (fuel : Nat)
    (bitStream0 : List Bool) (packet : Option (List Nat)) (packetSize : Nat) :
    Except Fault (Bool × List Bool × List Event) :=
  match packet with
  | none => pure (false, bitStream0, [])
  | some pkt =>
    if packetSize = 0 then pure (false, bitStream0, [])
    else if radio.trxGetMode ≠ K.RADIO_MODE_ANALOG ∨ radio.trxTransmissionEnabled = false then
      pure (false, bitStream0, [])
    else
      let totalSymbols := (packetSize * 8) % 2 ^ 32
      let rfAmpWasEnabled := decide ((radio.getAudioAmpStatus &&& K.AUDIO_AMP_MODE_RF) ≠ 0)
      let savedTxCss := match radio.currentChannelData with
        | some txTone => txTone
        | none => K.CODEPLUG_CSS_NONE
      if totalSymbols > MDC1200_PACKET_BYTES * 8 then pure (false, bitStream0, [])
      else do
        let filled ← fillBitStream pkt packetSize bitStream0
        let bitStream := filled.1
        let currentBit := bitStream.getD 0 false
        let arm := [Event.call (HwCall.trxSetTxCSS K.CODEPLUG_CSS_NONE),
          Event.call (HwCall.AT1846SWriteReg2byte 0x58 0xBC 0xFD),
          Event.call (mdc1200SetBitTone currentBit),
          Event.call (HwCall.trxSelectVoiceChannel K.AT1846_VOICE_CHANNEL_TONE1),
          Event.call (HwCall.enableAudioAmp K.AUDIO_AMP_MODE_RF),
          Event.call (HwCall.GPIO_PinWrite K.GPIO_RX_audio_mux K.Pin_RX_audio_mux 1)]
        let s0 := pit 0 % 2 ^ 32
        let settleTick := (s0 + mdc1200ToneWriteLeadTicks) % 2 ^ 32
        let w0 ← busyWait pit settleTick fuel 1
        let t0 := pit w0.2 % 2 ^ 32
        let start : LoopState :=
          { nextSymbolTick := (t0 + mdc1200SymbolTicks.getD 0 0) % 2 ^ 32,
            currentBit := currentBit, reads := w0.2 + 1, trace := [] }
        let final ← (List.range totalSymbols).foldlM
          (symbolStep pit fuel bitStream totalSymbols) start
        let restore := [Event.call (HwCall.trxSetTone1 0),
          Event.call (HwCall.trxSelectVoiceChannel K.AT1846_VOICE_CHANNEL_MIC),
          Event.call (HwCall.trxSetTxCSS savedTxCss),
          Event.call (match radio.readReg0x58 with
            | some saved => HwCall.AT1846SWriteReg2byte 0x58 saved.1 saved.2
            | none => HwCall.AT1846SWriteReg2byte 0x58 0xBC 0x05)] ++
          (if rfAmpWasEnabled then [] else
            [Event.call (HwCall.disableAudioAmp K.AUDIO_AMP_MODE_RF)])
        pure (true, bitStream,
          arm ++ [Event.sample s0, Event.waited settleTick w0.1, Event.sample t0] ++
            final.trace ++ restore)

/-! ## `mdc1200TransmitEOTPostId` -/

def MDC1200_OP_CODE_PTT_ID : Nat := 0x01
def MDC1200_OP_CODE_POST_ID : Nat := 0x01

/-- The function `mdc1200TransmitEOTPostId`; `packet0` is the content of the array
`packet` on entry. -/
def mdc1200TransmitEOTPostId (K : Constants) (radio : Radio) (pit : Nat → Nat) (fuel : Nat)
    (interleaved0 : List Nat) (packet0 : List Nat) (bitStream0 : List Bool) (unitId : Nat) :
    Except Fault (Bool × List Bool × List Event) :=
  let r := mdc1200EncodeSinglePacket interleaved0 (some packet0) MDC1200_OP_CODE_POST_ID 0x00
    unitId
  mdc1200TransmitPacket K radio pit fuel bitStream0 r.1 r.2

/-! ## Definitions used to state the properties -/

/-- Bit `n` of a buffer, the bits of each byte taken from bit 7 down to bit 0. -/
def bitMSB (data : List Nat) (n : Nat) : Bool := (data.getD (n / 8) 0).testBit (7 - n % 8)

/-- Bit `n` of a buffer, the bits of each byte taken from bit 0 up to bit 7. -/
def bitLSB (data : List Nat) (n : Nat) : Bool := (data.getD (n / 8) 0).testBit (n % 8)

/-- Value of `previousBit` when iteration `i` of the outer loop of
`mdc1200ApplyXorModulation` starts on the buffer `data`. -/
def prevBitAt (data : List Nat) (i : Nat) : Nat :=
  if i = 0 then 0 else data.getD (i - 1) 0 % 2

/-- Bit `m` of the shift register once `j` bits of the byte `bi` have been shifted
into the register `sr0`. -/
def regBit (sr0 bi j m : Nat) : Bool :=
  if m < j then bi.testBit (j - 1 - m) else sr0.testBit (m - j)

/-- The parity bit that the coder emits for bit `t` of the byte `bi`, the register
being `sr0` when the byte starts. -/
def tapParity (sr0 bi t : Nat) : Bool :=
  xor (xor (xor (regBit sr0 bi (t + 1) 6) (regBit sr0 bi (t + 1) 5))
    (regBit sr0 bi (t + 1) 2)) (regBit sr0 bi (t + 1) 0)

/-- The input bit `x_(n-d)` of the coder for the frame `F`: bit `(n-d) mod 8` of byte
`(n-d) div 8`, and 0 before the first bit. -/
def xBack (F : List Nat) (n d : Nat) : Bool := if d ≤ n then bitLSB F (n - d) else false

/-- The parity `x_n XOR x_(n-2) XOR x_(n-5) XOR x_(n-6)`. -/
def parityAt (F : List Nat) (n : Nat) : Bool :=
  xor (xor (xor (xBack F n 0) (xBack F n 2)) (xBack F n 5)) (xBack F n 6)

/-- The write position generated for the `n`-th bit, in the words of the
specification: start at 0, advance by 16, fold back by 111 at or beyond 112. -/
def specIndex : Nat → Nat
  | 0 => 0
  | n + 1 => if specIndex n + 16 < 112 then specIndex n + 16 else specIndex n + 16 - 111

/-- Closed form of the write position of the `n`-th bit. -/
def interleaveIndex (n : Nat) : Nat := 16 * (n % 7) + n / 7

/-- The bit number that is written to slot `m`. -/
def interleaveSource (m : Nat) : Nat := 7 * (m % 16) + m / 16

/-- The value stored for the `n`-th bit read by the scatter loop. -/
def bitVal (data : List Nat) (p n : Nat) : Nat :=
  ((data.getD (p + n / 8) 0 >>> (n % 8)) &&& 1) % 256

/-- State of the scatter loop when `n` bits have been stored. -/
def ScatterInv (interleaved0 data : List Nat) (p n : Nat) (st : List Nat × Nat) : Prop :=
  st.1.length = interleaved0.length ∧ st.2 = interleaveIndex n ∧
  ∀ m, st.1.getD m 0 =
    if m < 112 ∧ interleaveSource m < n then bitVal data p (interleaveSource m)
    else interleaved0.getD m 0

/-- The byte whose bit `j` is `f j`, for `j` from 0 to 7. -/
def byteOfBits (f : Nat → Bool) : Nat :=
  (List.range 8).foldl (fun b j => b ||| ((f j).toNat <<< j)) 0

/-- The inverse permutation of the interleaver on a payload of 14 bytes: bit `j` of
byte `i` of the result is the bit found at position `interleaveIndex (8 * i + j)` of
the payload, its bits counted from bit 7 down to bit 0 of each byte. -/
def deinterleave (payload : List Nat) : List Nat :=
  (List.range 14).map
    (fun i => byteOfBits (fun j => bitMSB payload (interleaveIndex (8 * i + j))))

/-- The seven frame bytes as `mdc1200EncodeSinglePacket` stores them. -/
def codeFrame (op arg unitId : Nat) : List Nat :=
  [op, arg, ((unitId >>> 8) &&& 0xFF) % 256, (unitId &&& 0xFF) % 256,
    (mdc1200CRC16Xmodem [op, arg, ((unitId >>> 8) &&& 0xFF) % 256, (unitId &&& 0xFF) % 256] 4
      &&& 0xFF) % 256,
    ((mdc1200CRC16Xmodem [op, arg, ((unitId >>> 8) &&& 0xFF) % 256, (unitId &&& 0xFF) % 256] 4
      >>> 8) &&& 0xFF) % 256,
    0x00]

/-- The raw frame of the specification: opcode, argument, unit id with its high byte
first, CRC of these four bytes with its low byte first, status 0. -/
def rawFrame (op arg unitId : Nat) : List Nat :=
  [op, arg, unitId >>> 8, unitId &&& 0xFF,
    mdc1200CRC16Xmodem [op, arg, unitId >>> 8, unitId &&& 0xFF] 4 &&& 0xFF,
    mdc1200CRC16Xmodem [op, arg, unitId >>> 8, unitId &&& 0xFF] 4 >>> 8,
    0x00]

/-- The parity stage `P`: the seven bytes that the convolutional loop of
`mdc1200EncodeData` appends to a frame `F` held in a buffer of its own. -/
def convParityBytes (F : List Nat) : List Nat :=
  (convStage (F ++ List.replicate MDC1200_FEC_K 0) 0).drop MDC1200_FEC_K

/-- The interleaver `I`: the interleave block of `mdc1200EncodeData` on a payload held
in a buffer of its own. -/
def interleave (payload : List Nat) : List Nat :=
  interleaveStage (List.replicate (MDC1200_ENCODED_PAYLOAD_BYTES * 8) 0) payload 0

/-- The differential coder `D`: `mdc1200ApplyXorModulation` over a whole buffer. -/
def differentialCode (packet : List Nat) : List Nat :=
  mdc1200ApplyXorModulation packet packet.length

/-- The generator `x^16 + x^12 + x^5 + 1`, bit `i` being the coefficient of `x^i`. -/
def crcPoly : Nat := 0x11021

/-- The product `q(x) * g(x)` over GF(2): `q` is given by the list of its coefficients,
the constant one first; in `g` and in the result bit `i` is the coefficient of `x^i`. -/
def polyMul : List Bool → Nat → Nat
  | [], _ => 0
  | t :: q, g => (if t then g else 0) ^^^ 2 * polyMul q g

/-- The sum of two polynomials over GF(2) given by their lists of coefficients. -/
def polyAdd : List Bool → List Bool → List Bool
  | [], q => q
  | p, [] => p
  | a :: p, b :: q => xor a b :: polyAdd p q

/-- The polynomial `data(x)` of a byte sequence: the first byte holds the highest
coefficients, and in each byte bit 7 is the highest one. -/
def messagePoly (data : List Nat) : Nat :=
  data.foldl (fun acc b => acc * 256 + b) 0

/-- The register `c` is congruent to `V` modulo the generator. -/
def CrcInv (c V : Nat) : Prop := c < 65536 ∧ ∃ q, polyMul q crcPoly ^^^ c = V

/-- The counter advances: whatever tick is waited for, and whenever the wait starts,
one of the next `fuel` reads of `PITCounter` ends the wait. -/
def WaitsFinish (pit : Nat → Nat) (fuel : Nat) : Prop :=
  ∀ k target, ∃ j, j < fuel ∧ waitCondition (pit (k + j) % 2 ^ 32) target = false

/-- Consecutive writes of the values `vals` from index `s` on. -/
def writeRun : List Bool → Nat → List Bool → List Bool
  | bs, _, [] => bs
  | bs, s, v :: vs => writeRun (bs.set s v) (s + 1) vs

/-- The bits of a byte from bit 7 down to bit 0. -/
def byteBits (byte : Nat) : List Bool :=
  [byte.testBit 7, byte.testBit 6, byte.testBit 5, byte.testBit 4, byte.testBit 3,
    byte.testBit 2, byte.testBit 1, byte.testBit 0]

/-- An event without the reading that ended a wait: what is left is the schedule. -/
def eraseReading : Event → Event
  | Event.waited target _ => Event.waited target 0
  | e => e

/-- The boundary tick of symbol `i` when symbol timing starts at the reading `t0`. -/
def boundaryTick (t0 i : Nat) : Nat := (t0 + 8 * (i + 1) + (i + 1) / 3) % 2 ^ 32

/-- The schedule of symbol `i` of `N`: the wait for the tone-update tick, the switch of
the tone to the next bit if there is a next bit and it differs, the wait for the
boundary. -/
def symbolSchedule (bit : Nat → Bool) (N t0 i : Nat) : List Event :=
  [Event.waited (sub32 (boundaryTick t0 i) 4) 0] ++
    (if i + 1 < N ∧ bit (i + 1) ≠ bit i then [Event.call (mdc1200SetBitTone (bit (i + 1)))]
      else []) ++
    [Event.waited (boundaryTick t0 i) 0]

/-- The schedule of the first `n` symbols of `N`. -/
def loopSchedule (bit : Nat → Bool) (N t0 n : Nat) : List Event :=
  (List.range n).flatMap (symbolSchedule bit N t0)

/-- Every wait recorded in a trace ended at a reading that had reached its tick. -/
def WaitsReached (tr : List Event) : Prop :=
  ∀ target now, Event.waited target now ∈ tr → waitCondition now target = false

/-- The state after one pass of the symbol loop whose two waits ended at the readings
`now1` and `now2`, `reads` reads of the counter having been made. -/
def symbolStepResult (bitStream : List Bool) (totalSymbols : Nat) (st : LoopState)
    (symbolIndex now1 now2 reads : Nat) : LoopState :=
  { nextSymbolTick :=
      if symbolIndex + 1 < totalSymbols then
        (st.nextSymbolTick + mdc1200SymbolTicks.getD ((symbolIndex + 1) % 3) 0) % 2 ^ 32
      else st.nextSymbolTick,
    currentBit :=
      if (decide (symbolIndex + 1 < totalSymbols) &&
          decide (bitStream.getD (symbolIndex + 1) false ≠ st.currentBit)) = true then
        bitStream.getD (symbolIndex + 1) false
      else st.currentBit,
    reads := reads,
    trace :=
      (if (decide (symbolIndex + 1 < totalSymbols) &&
          decide (bitStream.getD (symbolIndex + 1) false ≠ st.currentBit)) = true then
        st.trace ++ [Event.waited (sub32 st.nextSymbolTick mdc1200ToneWriteLeadTicks) now1] ++
          [Event.call (mdc1200SetBitTone (bitStream.getD (symbolIndex + 1) false))]
      else
        st.trace ++ [Event.waited (sub32 st.nextSymbolTick mdc1200ToneWriteLeadTicks) now1]) ++
      [Event.waited st.nextSymbolTick now2] }

/-- The calls of the arming phase, `b0` being the first bit of the stream. -/
def armSchedule (K : Constants) (b0 : Bool) : List Event :=
  [Event.call (HwCall.trxSetTxCSS K.CODEPLUG_CSS_NONE),
    Event.call (HwCall.AT1846SWriteReg2byte 0x58 0xBC 0xFD),
    Event.call (HwCall.trxSetTone1 (if b0 then 1200 else 1800)),
    Event.call (HwCall.trxSelectVoiceChannel K.AT1846_VOICE_CHANNEL_TONE1),
    Event.call (HwCall.enableAudioAmp K.AUDIO_AMP_MODE_RF),
    Event.call (HwCall.GPIO_PinWrite K.GPIO_RX_audio_mux K.Pin_RX_audio_mux 1)]

/-- The calls of the restore phase: tone 1 off, voice channel back to the microphone,
TX CSS back to the tone of the channel (none without channel data), register 0x58 back
to the bytes read at the start (0xBC, 0x05 if that read failed), and the RF amplifier
off again if its bit was clear at the start. -/
def restoreSchedule (K : Constants) (radio : Radio) : List Event :=
  [Event.call (HwCall.trxSetTone1 0),
    Event.call (HwCall.trxSelectVoiceChannel K.AT1846_VOICE_CHANNEL_MIC),
    Event.call (HwCall.trxSetTxCSS (radio.currentChannelData.getD K.CODEPLUG_CSS_NONE)),
    Event.call (HwCall.AT1846SWriteReg2byte 0x58 (radio.readReg0x58.getD (0xBC, 0x05)).1
      (radio.readReg0x58.getD (0xBC, 0x05)).2)] ++
    (if radio.getAudioAmpStatus &&& K.AUDIO_AMP_MODE_RF = 0 then
      [Event.call (HwCall.disableAudioAmp K.AUDIO_AMP_MODE_RF)] else [])

/-- The schedule of a whole transmission of `N` symbols: arming, the settle wait that
starts at the reading `s0`, the start of symbol timing at the reading `t0`, the
symbols, the restore phase. -/
def transmitSchedule (K : Constants) (radio : Radio) (bit : Nat → Bool) (N s0 t0 : Nat) :
    List Event :=
  armSchedule K (bit 0) ++
    [Event.sample s0, Event.waited ((s0 + 4) % 2 ^ 32) 0, Event.sample t0] ++
    loopSchedule bit N t0 N ++ restoreSchedule K radio

/-- The trace that `mdc1200TransmitPacket` returns, `currentBit` being the first bit of
the stream, `s0`, `now0`, `t0` the readings of the settle phase and `loopTrace` the
events of the symbol loop. -/
def transmitTrace (K : Constants) (radio : Radio) (currentBit : Bool) (s0 now0 t0 : Nat)
    (loopTrace : List Event) : List Event :=
  [Event.call (HwCall.trxSetTxCSS K.CODEPLUG_CSS_NONE),
    Event.call (HwCall.AT1846SWriteReg2byte 0x58 0xBC 0xFD),
    Event.call (mdc1200SetBitTone currentBit),
    Event.call (HwCall.trxSelectVoiceChannel K.AT1846_VOICE_CHANNEL_TONE1),
    Event.call (HwCall.enableAudioAmp K.AUDIO_AMP_MODE_RF),
    Event.call (HwCall.GPIO_PinWrite K.GPIO_RX_audio_mux K.Pin_RX_audio_mux 1)] ++
    [Event.sample s0, Event.waited ((s0 + mdc1200ToneWriteLeadTicks) % 2 ^ 32) now0,
      Event.sample t0] ++
    loopTrace ++
    ([Event.call (HwCall.trxSetTone1 0),
      Event.call (HwCall.trxSelectVoiceChannel K.AT1846_VOICE_CHANNEL_MIC),
      Event.call (HwCall.trxSetTxCSS (match radio.currentChannelData with
        | some txTone => txTone
        | none => K.CODEPLUG_CSS_NONE)),
      Event.call (match radio.readReg0x58 with
        | some saved => HwCall.AT1846SWriteReg2byte 0x58 saved.1 saved.2
        | none => HwCall.AT1846SWriteReg2byte 0x58 0xBC 0x05)] ++
      (if decide ((radio.getAudioAmpStatus &&& K.AUDIO_AMP_MODE_RF) ≠ 0) = true then [] else
        [Event.call (HwCall.disableAudioAmp K.AUDIO_AMP_MODE_RF)]))

/-- The hardware call of an event, if it is one. -/
def callOf : Event → Option HwCall
  | Event.call c => some c
  | _ => none

/-- The tick an event waited for, if it is a wait. -/
def waitTargetOf : Event → Option Nat
  | Event.waited target _ => some target
  | _ => none

/-- The value of a read of the counter outside a wait, if the event is one. -/
def sampleOf : Event → Option Nat
  | Event.sample now => some now
  | _ => none

/-- The hardware calls of a trace, in order. -/
def callsOf (tr : List Event) : List HwCall := tr.filterMap callOf

/-- The ticks waited for in a trace, in order. -/
def waitTargetsOf (tr : List Event) : List Nat := tr.filterMap waitTargetOf

/-- The reads of the counter outside the waits of a trace, in order. -/
def samplesOf (tr : List Event) : List Nat := tr.filterMap sampleOf

/-- Whether a call writes a GPIO pin. -/
def isPinWrite : HwCall → Bool
  | HwCall.GPIO_PinWrite _ _ _ => true
  | _ => false

/-- The level of the pin `pin` of `port` after the calls `calls`, from the level
`initial`: the value of the last write to it. -/
def pinAfter (port pin initial : Nat) (calls : List HwCall) : Nat :=
  calls.foldl (fun v c => match c with
    | HwCall.GPIO_PinWrite p q x => if p = port ∧ q = pin then x else v
    | _ => v) initial

/-- The tone switches of the first `n` symbols of `N`: for each symbol that has a next
bit that differs, one call of `mdc1200SetBitTone` with the next bit. -/
def switchCalls (bit : Nat → Bool) (N n : Nat) : List HwCall :=
  (List.range n).flatMap (fun i =>
    if i + 1 < N ∧ bit (i + 1) ≠ bit i then [mdc1200SetBitTone (bit (i + 1))] else [])

/-- The ticks waited for in the first `n` symbols: for each symbol the tone-update tick
and the boundary tick. -/
def loopWaitTargets (t0 n : Nat) : List Nat :=
  (List.range n).flatMap (fun i => [sub32 (boundaryTick t0 i) 4, boundaryTick t0 i])

/-- Constants of an example: analog mode 1, no CSS 0xFFFF, RF amplifier bit 2, tone
channel 1, microphone channel 0, mux line on port 3, pin 4. -/
def exampleConstants : Constants := Constants.mk 1 0xFFFF 2 1 0 3 4

/-- Radio of an example: analog mode, transmission enabled, amplifier off, a channel with
TX tone 670, register 0x58 read as 0xBC 0x05. -/
def exampleRadio : Radio := Radio.mk 1 true 0 (some 670) (some (0xBC, 0x05))

/-- The counter advances by at most `c` ticks between two consecutive reads. -/
def StepsAtMost (pit : Nat → Nat) (c : Nat) : Prop :=
  ∀ k, sub32 (pit (k + 1)) (pit k) ≤ c

/-- Every wait recorded in a trace ended less than `c` ticks after its tick. -/
def WaitsWithin (c : Nat) (tr : List Event) : Prop :=
  ∀ target now, Event.waited target now ∈ tr → sub32 now target + 1 ≤ c

/-- One step of the running XOR that undoes the differential coding of a byte: `z` is
the coded byte without its complement; the state is the byte recovered so far and the
bit recovered last. -/
def undoBit (z : Nat) (st : Nat × Nat) (bit : Nat) : Nat × Nat :=
  let b := ((z >>> bit) &&& 1) ^^^ st.2
  (st.1 ||| (b <<< bit), b)

/-- The byte whose coded form is `coded` when `previousBit` was the last bit before it,
and the last bit of that byte. -/
def undoByte (previousBit coded : Nat) : Nat × Nat :=
  downFrom7.foldl (undoBit ((coded ^^^ 0xFF) % 256)) (0, previousBit)

/-- The bytes whose coded form is the given list, `previousBit` being the last bit
before them. -/
def undoFrom : Nat → List Nat → List Nat
  | _, [] => []
  | previousBit, y :: ys =>
    (undoByte previousBit y).1 :: undoFrom (undoByte previousBit y).2 ys

/-- The inverse of the differential coder: complement removed, then running XOR from
the first bit on, the bit before the first one being 0. -/
def differentialDecode (coded : List Nat) : List Nat := undoFrom 0 coded

/-- The decoder: undo the differential coding, skip the twelve bytes of preamble and
sync, invert the interleave permutation, and read the opcode, the argument and the
unit id (high byte first) in the first four bytes. -/
def decodeFields (packet : List Nat) : Nat × Nat × Nat :=
  let payload := deinterleave ((differentialDecode packet).drop 12)
  (payload.getD 0 0, payload.getD 1 0, payload.getD 2 0 * 256 + payload.getD 3 0)

/-! ## Properties -/

theorem foldl_range_succ {α : Type} (f : α → Nat → α) (s : α) (n : Nat) :
    (List.range (n + 1)).foldl f s = f ((List.range n).foldl f s) n := by
  rw [List.range_succ, List.foldl_append]
  rfl

theorem getD_set (l : List Nat) (i j a : Nat) :
    (l.set i a).getD j 0 = if i = j ∧ i < l.length then a else l.getD j 0 := by
  simp only [List.getD_eq_getElem?_getD, List.getElem?_set]
  by_cases h : i = j
  · subst h
    by_cases h2 : i < l.length
    · simp [h2]
    · simp [h2]
      rw [List.getElem?_eq_none (by omega)]
      rfl
  · simp [h]

theorem ext_getD (l₁ l₂ : List Nat) (hl : l₁.length = l₂.length)
    (h : ∀ j, j < l₁.length → l₁.getD j 0 = l₂.getD j 0) : l₁ = l₂ := by
  apply List.ext_getElem hl
  intro j h1 h2
  have := h j h1
  simpa [List.getD_eq_getElem?_getD, List.getElem?_eq_getElem h1, List.getElem?_eq_getElem h2]
    using this

theorem shr_and_one (x b : Nat) : (x >>> b) &&& 1 = (x.testBit b).toNat := by
  rw [Nat.and_one_is_mod, Nat.shiftRight_eq_div_pow, Nat.testBit_to_div_mod]
  rcases Nat.mod_two_eq_zero_or_one (x / 2 ^ b) with h | h <;> simp [h]

theorem testBit_mod_256 (x j : Nat) : (x % 256).testBit j = (decide (j < 8) && x.testBit j) :=
  Nat.testBit_mod_two_pow x 8 j

theorem shr_and_one_mod_256 (x b : Nat) (hb : b < 8) :
    ((x % 256) >>> b) &&& 1 = (x >>> b) &&& 1 := by
  rw [shr_and_one, shr_and_one, testBit_mod_256]
  simp [hb]

theorem xorModByte_mod_256 (prev x : Nat) : xorModByte prev (x % 256) = xorModByte prev x := by
  simp only [xorModByte, downFrom7, List.foldl, xorModBit]
  rw [shr_and_one_mod_256 x 7 (by decide), shr_and_one_mod_256 x 6 (by decide),
    shr_and_one_mod_256 x 5 (by decide), shr_and_one_mod_256 x 4 (by decide),
    shr_and_one_mod_256 x 3 (by decide), shr_and_one_mod_256 x 2 (by decide),
    shr_and_one_mod_256 x 1 (by decide), shr_and_one_mod_256 x 0 (by decide)]

set_option maxRecDepth 100000 in
theorem xorModByte_small : ∀ x < 256, ∀ prev < 2,
    (xorModByte prev x).1 = (((prev <<< 7) ||| (x >>> 1)) ^^^ x) % 256 ∧
    (xorModByte prev x).2 = x % 2 := by
  decide

theorem xorModByte_eq (prev x : Nat) (hp : prev < 2) :
    (xorModByte prev x).1 = (((prev <<< 7) ||| ((x % 256) >>> 1)) ^^^ (x % 256)) % 256 ∧
    (xorModByte prev x).2 = x % 2 := by
  have h := xorModByte_small (x % 256) (Nat.mod_lt _ (by decide)) prev hp
  rw [xorModByte_mod_256] at h
  refine ⟨h.1, ?_⟩
  rw [h.2]
  omega

theorem prevBitAt_lt (data : List Nat) (i : Nat) : prevBitAt data i < 2 := by
  unfold prevBitAt
  split
  · decide
  · omega

theorem xorMod_loop (data : List Nat) (n : Nat) (hn : n ≤ data.length) :
    ((List.range n).foldl xorModStep (data, 0)).1.length = data.length ∧
    ((List.range n).foldl xorModStep (data, 0)).2 = prevBitAt data n ∧
    ∀ j, ((List.range n).foldl xorModStep (data, 0)).1.getD j 0 =
      if j < n then ((xorModByte (prevBitAt data j) (data.getD j 0)).1 ^^^ 0xFF) % 256
      else data.getD j 0 := by
  induction n with
  | zero => simp [prevBitAt]
  | succ n ih =>
    obtain ⟨h1, h2, h3⟩ := ih (by omega)
    rw [foldl_range_succ]
    generalize (List.range n).foldl xorModStep (data, 0) = st at h1 h2 h3
    have hn0 : st.1.getD n 0 = data.getD n 0 := by rw [h3 n]; simp
    refine ⟨?_, ?_, ?_⟩
    · simp [xorModStep, h1]
    · simp only [xorModStep]
      rw [(xorModByte_eq _ _ (h2 ▸ prevBitAt_lt data n)).2, hn0]
      simp [prevBitAt]
    · intro j
      simp only [xorModStep]
      rw [getD_set, h3 j, h2, hn0, h1]
      by_cases hj : n = j
      · subst hj
        simp
        omega
      · have : ¬ (n = j ∧ n < data.length) := fun h => hj h.1
        rw [if_neg this]
        by_cases hj2 : j < n
        · simp [hj2, Nat.lt_succ_of_lt hj2]
        · have : ¬ j < n + 1 := by omega
          simp [hj2, this]

theorem applyXor_length (data : List Nat) :
    (mdc1200ApplyXorModulation data data.length).length = data.length :=
  (xorMod_loop data data.length (Nat.le_refl _)).1

theorem applyXor_getD (data : List Nat) (j : Nat) (hj : j < data.length) :
    (mdc1200ApplyXorModulation data data.length).getD j 0 =
      ((xorModByte (prevBitAt data j) (data.getD j 0)).1 ^^^ 0xFF) % 256 := by
  have := (xorMod_loop data data.length (Nat.le_refl _)).2.2 j
  rw [if_pos hj] at this
  exact this

theorem testBit_255 (j : Nat) : Nat.testBit 255 j = decide (j < 8) :=
  Nat.testBit_two_pow_sub_one 8 j

theorem testBit_prev (p : Nat) (hp : p < 2) (j : Nat) :
    (p <<< 7).testBit j = (decide (j = 7) && decide (p = 1)) := by
  have : p = 0 ∨ p = 1 := by omega
  rcases this with h | h
  · subst h; simp
  · subst h
    have : (1 <<< 7) = 2 ^ 7 := by decide
    rw [this, Nat.testBit_two_pow]
    simp [eq_comm]

/-- Bits of the byte that `mdc1200ApplyXorModulation` stores for the input byte `x`. -/
theorem xorModByte_testBit (prev x j : Nat) (hp : prev < 2) (hj : j < 8) :
    (((xorModByte prev x).1 ^^^ 0xFF) % 256).testBit j =
      !(xor (x.testBit j) (if j = 7 then decide (prev = 1) else x.testBit (j + 1))) := by
  rw [(xorModByte_eq prev x hp).1]
  simp only [testBit_mod_256, Nat.testBit_xor, Nat.testBit_or, Nat.testBit_shiftRight,
    testBit_prev prev hp, testBit_255, hj, decide_True, Bool.true_and]
  by_cases h7 : j = 7
  · subst h7
    simp
    cases x.testBit 7 <;> cases decide (prev = 1) <;> rfl
  · have h8 : j + 1 < 8 := by omega
    simp only [h7, Nat.add_comm 1 j, h8, decide_False, decide_True, Bool.false_and,
      Bool.true_and, Bool.false_or, if_false]
    cases x.testBit j <;> cases x.testBit (j + 1) <;> rfl

theorem getD_replicate (N v j : Nat) (hj : j < N) : (List.replicate N v).getD j 0 = v := by
  simp [List.getD_eq_getElem?_getD, List.getElem?_replicate, hj]

theorem applyXor_lt (data : List Nat) (j : Nat) (hj : j < data.length) :
    (mdc1200ApplyXorModulation data data.length).getD j 0 < 256 := by
  rw [applyXor_getD data j hj]
  exact Nat.mod_lt _ (by decide)

theorem applyXor_bitMSB (data : List Nat) (n : Nat) (hn : n < 8 * data.length) :
    bitMSB (mdc1200ApplyXorModulation data data.length) n =
      !(xor (bitMSB data n) (if n = 0 then false else bitMSB data (n - 1))) := by
  have hq : n / 8 < data.length := by omega
  unfold bitMSB
  rw [applyXor_getD data _ hq,
    xorModByte_testBit _ _ _ (prevBitAt_lt data _) (by omega : 7 - n % 8 < 8)]
  by_cases h0 : n % 8 = 0
  · have h7 : 7 - n % 8 = 7 := by omega
    rw [h7, if_pos rfl]
    by_cases hz : n = 0
    · subst hz
      simp [prevBitAt]
    · have hd : (n - 1) / 8 = n / 8 - 1 := by omega
      have hm : 7 - (n - 1) % 8 = 0 := by omega
      have hq0 : n / 8 ≠ 0 := by omega
      rw [if_neg hz, hd, hm, Nat.testBit_zero]
      simp [prevBitAt, hq0]
  · have h7 : ¬ (7 - n % 8 = 7) := by omega
    have hz : n ≠ 0 := by
      intro h
      subst h
      simp at h0
    have hd : (n - 1) / 8 = n / 8 := by omega
    have hm : 7 - (n - 1) % 8 = 7 - n % 8 + 1 := by omega
    rw [if_neg h7, if_neg hz, hd, hm]

theorem byte_eq_zero_of_testBit (x : Nat) (hx : x < 256)
    (h : ∀ j, j < 8 → x.testBit j = false) : x = 0 := by
  apply Nat.eq_of_testBit_eq
  intro j
  rw [Nat.zero_testBit]
  by_cases hj : j < 8
  · exact h j hj
  · apply Nat.testBit_lt_two_pow
    calc x < 256 := hx
      _ = 2 ^ 8 := by decide
      _ ≤ 2 ^ j := Nat.pow_le_pow_right (by decide) (by omega)

theorem bitMSB_at (data : List Nat) (i j : Nat) (hj : j < 8) :
    bitMSB data (8 * i + (7 - j)) = (data.getD i 0).testBit j := by
  unfold bitMSB
  have h1 : (8 * i + (7 - j)) / 8 = i := by omega
  have h2 : 7 - (8 * i + (7 - j)) % 8 = j := by omega
  rw [h1, h2]

/-- A buffer in which every bit differs from the bit before it (the bit before the
first one being 0) is coded to zero bytes. -/
theorem applyXor_alternating (data : List Nat)
    (h : ∀ n, n < 8 * data.length →
      bitMSB data n = !(if n = 0 then false else bitMSB data (n - 1))) :
    mdc1200ApplyXorModulation data data.length = List.replicate data.length 0 := by
  apply ext_getD
  · rw [applyXor_length, List.length_replicate]
  · intro i hi
    rw [applyXor_length] at hi
    rw [getD_replicate _ 0 i hi]
    apply byte_eq_zero_of_testBit _ (applyXor_lt data i hi)
    intro j hj
    rw [← bitMSB_at _ i j hj, applyXor_bitMSB data _ (by omega), h _ (by omega)]
    cases (if 8 * i + (7 - j) = 0 then false else bitMSB data (8 * i + (7 - j) - 1)) <;> rfl

theorem applyXor_zeros (N : Nat) :
    mdc1200ApplyXorModulation (List.replicate N 0) N = List.replicate N 0xFF := by
  have hl : (List.replicate N 0).length = N := List.length_replicate _ _
  have key := fun j hj => applyXor_getD (List.replicate N 0) j hj
  rw [hl] at key
  apply ext_getD
  · have := applyXor_length (List.replicate N 0)
    rw [hl] at this
    rw [this, List.length_replicate]
  · intro j hj
    have hj2 : j < N := by
      have := applyXor_length (List.replicate N 0)
      rw [hl] at this
      omega
    rw [key j hj2, getD_replicate N 0 j hj2, getD_replicate N 255 j hj2]
    have hp : prevBitAt (List.replicate N 0) j = 0 := by
      unfold prevBitAt
      split
      · rfl
      · rw [getD_replicate N 0 (j - 1) (by omega)]
    rw [hp]
    decide

/-! ### The convolutional coder -/

theorem testBit_one (m : Nat) : Nat.testBit 1 m = decide (m = 0) := by
  have h : (1 : Nat) = 2 ^ 0 := rfl
  rw [h, Nat.testBit_two_pow]
  simp [eq_comm]

theorem convBit_fst_testBit (bi : Nat) (st : Nat × Nat) (bit m : Nat) :
    (convBit bi st bit).1.testBit m =
      (decide (m < 8) && (if m = 0 then bi.testBit bit else st.1.testBit (m - 1))) := by
  simp only [convBit, testBit_mod_256, Nat.testBit_or, Nat.testBit_shiftLeft, Nat.testBit_and,
    Nat.testBit_shiftRight, testBit_one]
  by_cases hm : m = 0
  · subst hm
    simp
  · have : m ≥ 1 := by omega
    simp [hm, this]

theorem convBit_snd_testBit (bi : Nat) (st : Nat × Nat) (bit t : Nat) :
    (convBit bi st bit).2.testBit t =
      (decide (t < 8) && (st.2.testBit t || (decide (t = bit) &&
        xor (xor (xor ((convBit bi st bit).1.testBit 6) ((convBit bi st bit).1.testBit 5))
          ((convBit bi st bit).1.testBit 2)) ((convBit bi st bit).1.testBit 0)))) := by
  simp only [convBit, testBit_mod_256, Nat.testBit_or, Nat.testBit_shiftLeft, Nat.testBit_and,
    Nat.testBit_shiftRight, testBit_one, Nat.testBit_xor]
  by_cases h8 : t < 8
  · by_cases hb : t = bit
    · subst hb
      simp [h8]
    · simp only [h8, hb, decide_True, decide_False, Bool.true_and, Bool.false_and,
        Bool.or_false]
      by_cases hge : t ≥ bit
      · have : ¬ (t - bit = 0) := by omega
        simp [this]
      · simp [hge]
  · simp [h8]

theorem testBit_of_lt_256 (x m : Nat) (hx : x < 256) (hm : ¬ m < 8) : x.testBit m = false := by
  apply Nat.testBit_lt_two_pow
  calc x < 256 := hx
    _ = 2 ^ 8 := by decide
    _ ≤ 2 ^ m := Nat.pow_le_pow_right (by decide) (by omega)

theorem convInner (bi sr0 : Nat) (hsr : sr0 < 256) (j : Nat) (hj : j ≤ 8) :
    (∀ m, ((List.range j).foldl (convBit bi) (sr0, 0)).1.testBit m =
      (decide (m < 8) && regBit sr0 bi j m)) ∧
    (∀ t, ((List.range j).foldl (convBit bi) (sr0, 0)).2.testBit t =
      (decide (t < j) && tapParity sr0 bi t)) := by
  induction j with
  | zero =>
    refine ⟨fun m => ?_, fun t => ?_⟩
    · simp only [List.range_zero, List.foldl_nil, regBit, Nat.not_lt_zero, if_false, Nat.sub_zero]
      by_cases hm : m < 8
      · simp [hm]
      · simp [hm, testBit_of_lt_256 sr0 m hsr hm]
    · simp
  | succ j ih =>
    obtain ⟨h1, h2⟩ := ih (by omega)
    rw [foldl_range_succ]
    generalize (List.range j).foldl (convBit bi) (sr0, 0) = st at h1 h2
    have hfst : ∀ m, (convBit bi st j).1.testBit m = (decide (m < 8) && regBit sr0 bi (j + 1) m) := by
      intro m
      rw [convBit_fst_testBit]
      by_cases hm : m = 0
      · subst hm
        simp [regBit]
      · rw [if_neg hm, h1]
        by_cases h8 : m < 8
        · have h8' : m - 1 < 8 := by omega
          simp only [h8, h8', decide_True, Bool.true_and, regBit]
          by_cases hlt : m - 1 < j
          · have hlt' : m < j + 1 := by omega
            have e : j - 1 - (m - 1) = j + 1 - 1 - m := by omega
            rw [if_pos hlt, if_pos hlt', e]
          · have hlt' : ¬ m < j + 1 := by omega
            have e : m - 1 - j = m - (j + 1) := by omega
            rw [if_neg hlt, if_neg hlt', e]
        · simp [h8]
    refine ⟨hfst, fun t => ?_⟩
    rw [convBit_snd_testBit, hfst 6, hfst 5, hfst 2, hfst 0, h2]
    by_cases ht : t = j
    · subst ht
      have h8 : t < 8 := by omega
      simp [h8, tapParity]
    · by_cases hlt : t < j
      · have h8 : t < 8 := by omega
        have hlt' : t < j + 1 := by omega
        simp [ht, hlt, h8, hlt']
      · have hlt' : ¬ t < j + 1 := by omega
        simp [ht, hlt, hlt']

theorem getD_drop (data : List Nat) (p k : Nat) : (data.drop p).getD k 0 = data.getD (p + k) 0 := by
  simp [List.getD_eq_getElem?_getD, List.getElem?_drop]

theorem regBit_eq_xBack (data : List Nat) (p i sr t d : Nat) (ht : t < 8) (hd : d < 8)
    (hsr : ∀ m, sr.testBit m =
      (decide (m < 8) && (decide (0 < i) && (data.getD (p + i - 1) 0).testBit (7 - m)))) :
    regBit sr (data.getD (p + i) 0) (t + 1) d = xBack (data.drop p) (8 * i + t) d := by
  unfold regBit xBack bitLSB
  rw [getD_drop]
  by_cases hdt : d < t + 1
  · have h1 : d ≤ 8 * i + t := by omega
    have h2 : (8 * i + t - d) / 8 = i := by omega
    have h3 : (8 * i + t - d) % 8 = t - d := by omega
    have h4 : t + 1 - 1 - d = t - d := by omega
    rw [if_pos hdt, if_pos h1, h2, h3, h4]
  · rw [if_neg hdt, hsr]
    have h8 : d - (t + 1) < 8 := by omega
    by_cases hi : 0 < i
    · have h1 : d ≤ 8 * i + t := by omega
      have h2 : (8 * i + t - d) / 8 = i - 1 := by omega
      have h3 : (8 * i + t - d) % 8 = 7 - (d - (t + 1)) := by omega
      have h4 : p + (i - 1) = p + i - 1 := by omega
      rw [if_pos h1, h2, h3, h4]
      simp [h8, hi]
    · have h1 : ¬ d ≤ 8 * i + t := by omega
      rw [if_neg h1]
      simp [hi]

theorem tapParity_eq (data : List Nat) (p i sr t : Nat) (ht : t < 8)
    (hsr : ∀ m, sr.testBit m =
      (decide (m < 8) && (decide (0 < i) && (data.getD (p + i - 1) 0).testBit (7 - m)))) :
    tapParity sr (data.getD (p + i) 0) t = parityAt (data.drop p) (8 * i + t) := by
  unfold tapParity parityAt
  rw [regBit_eq_xBack data p i sr t 6 ht (by decide) hsr,
    regBit_eq_xBack data p i sr t 5 ht (by decide) hsr,
    regBit_eq_xBack data p i sr t 2 ht (by decide) hsr,
    regBit_eq_xBack data p i sr t 0 ht (by decide) hsr]
  cases xBack (List.drop p data) (8 * i + t) 6 <;> cases xBack (List.drop p data) (8 * i + t) 5 <;>
    cases xBack (List.drop p data) (8 * i + t) 2 <;>
    cases xBack (List.drop p data) (8 * i + t) 0 <;> rfl

theorem lt_256_of_testBit (x : Nat) (h : ∀ m, ¬ m < 8 → x.testBit m = false) : x < 256 := by
  have := Nat.lt_pow_two_of_testBit x (n := 8) (fun i hi => h i (by omega))
  simpa using this

theorem conv_loop (data : List Nat) (p : Nat) (hp : p + 14 ≤ data.length) (i : Nat)
    (hi : i ≤ 7) :
    ((List.range i).foldl (convByte p) (data, 0)).1.length = data.length ∧
    ((List.range i).foldl (convByte p) (data, 0)).2 < 256 ∧
    (∀ m, ((List.range i).foldl (convByte p) (data, 0)).2.testBit m =
      (decide (m < 8) && (decide (0 < i) && (data.getD (p + i - 1) 0).testBit (7 - m)))) ∧
    (∀ k, ¬ (p + 7 ≤ k ∧ k < p + 7 + i) →
      ((List.range i).foldl (convByte p) (data, 0)).1.getD k 0 = data.getD k 0) ∧
    (∀ i', i' < i →
      ((List.range i).foldl (convByte p) (data, 0)).1.getD (p + 7 + i') 0 < 256 ∧
      ∀ t, (((List.range i).foldl (convByte p) (data, 0)).1.getD (p + 7 + i') 0).testBit t =
        (decide (t < 8) && parityAt (data.drop p) (8 * i' + t))) := by
  induction i with
  | zero =>
    refine ⟨rfl, by simp, fun m => by simp, fun k _ => rfl, fun i' h => absurd h (by omega)⟩
  | succ i ih =>
    obtain ⟨h1, h2, h3, h4, h5⟩ := ih (by omega)
    rw [foldl_range_succ]
    generalize (List.range i).foldl (convByte p) (data, 0) = st at h1 h2 h3 h4 h5
    have hbi : st.1.getD (p + i) 0 = data.getD (p + i) 0 := h4 _ (by omega)
    obtain ⟨g1, g2⟩ := convInner (data.getD (p + i) 0) st.2 h2 8 (Nat.le_refl _)
    have hpar : ∀ t, ((List.range 8).foldl (convBit (data.getD (p + i) 0)) (st.2, 0)).2.testBit t =
        (decide (t < 8) && parityAt (data.drop p) (8 * i + t)) := by
      intro t
      rw [g2]
      by_cases ht : t < 8
      · rw [tapParity_eq data p i st.2 t ht h3]
      · simp [ht]
    have hparlt : ((List.range 8).foldl (convBit (data.getD (p + i) 0)) (st.2, 0)).2 < 256 := by
      apply lt_256_of_testBit
      intro m hm
      rw [hpar]
      simp [hm]
    simp only [convByte, MDC1200_FEC_K, hbi]
    refine ⟨?_, ?_, ?_, ?_, ?_⟩
    · simp [h1]
    · apply lt_256_of_testBit
      intro m hm
      rw [g1]
      simp [hm]
    · intro m
      rw [g1]
      by_cases hm : m < 8
      · have e1 : p + (i + 1) - 1 = p + i := by omega
        have e2 : 8 - 1 - m = 7 - m := by omega
        simp [hm, regBit, e1, e2]
      · simp [hm]
    · intro k hk
      rw [getD_set]
      have : ¬ (p + 7 + i = k ∧ p + 7 + i < st.1.length) := by
        intro h
        omega
      rw [if_neg this]
      exact h4 k (by omega)
    · intro i' hi'
      rw [getD_set]
      by_cases he : i' = i
      · subst he
        have : p + 7 + i' = p + 7 + i' ∧ p + 7 + i' < st.1.length := ⟨rfl, by omega⟩
        rw [if_pos this]
        exact ⟨hparlt, hpar⟩
      · have : ¬ (p + 7 + i = p + 7 + i' ∧ p + 7 + i < st.1.length) := by
          intro h
          omega
        rw [if_neg this]
        exact h5 i' (by omega)

/-- What the convolutional stage leaves in the buffer. -/
theorem convStage_spec (data : List Nat) (p : Nat) (hp : p + 14 ≤ data.length) :
    (convStage data p).length = data.length ∧
    (∀ k, ¬ (p + 7 ≤ k ∧ k < p + 14) → (convStage data p).getD k 0 = data.getD k 0) ∧
    (∀ i, i < 7 → (convStage data p).getD (p + 7 + i) 0 < 256 ∧
      ∀ t, ((convStage data p).getD (p + 7 + i) 0).testBit t =
        (decide (t < 8) && parityAt (data.drop p) (8 * i + t))) := by
  obtain ⟨h1, _, _, h4, h5⟩ := conv_loop data p hp 7 (Nat.le_refl _)
  exact ⟨h1, fun k hk => h4 k (by omega), h5⟩

/-! ### The interleaver -/

theorem scatter_step (interleaved0 data : List Nat) (p i j : Nat) (st : List Nat × Nat)
    (hL : interleaved0.length = 112) (hi : i < 14) (hj : j < 8)
    (h : ScatterInv interleaved0 data p (8 * i + j) st) :
    ScatterInv interleaved0 data p (8 * i + j + 1) (scatterBit (data.getD (p + i) 0) st j) := by
  obtain ⟨h1, h2, h3⟩ := h
  unfold interleaveIndex at h2
  refine ⟨?_, ?_, ?_⟩
  · simp [scatterBit, h1]
  · simp only [scatterBit, MDC1200_ENCODED_PAYLOAD_BYTES, MDC1200_FEC_K, h2, interleaveIndex]
    split <;> omega
  · intro m
    simp only [scatterBit]
    rw [getD_set, h3 m, h1, hL, h2]
    have hb : bitVal data p (8 * i + j) = ((data.getD (p + i) 0 >>> j) &&& 1) % 256 := by
      unfold bitVal
      have e1 : (8 * i + j) / 8 = i := by omega
      have e2 : (8 * i + j) % 8 = j := by omega
      rw [e1, e2]
    by_cases hm : 16 * ((8 * i + j) % 7) + (8 * i + j) / 7 = m
    · have hs : interleaveSource m = 8 * i + j := by
        unfold interleaveSource
        omega
      have c1 : 16 * ((8 * i + j) % 7) + (8 * i + j) / 7 = m ∧
          16 * ((8 * i + j) % 7) + (8 * i + j) / 7 < 112 := ⟨hm, by omega⟩
      have c2 : m < 112 ∧ interleaveSource m < 8 * i + j + 1 := ⟨by omega, by omega⟩
      rw [if_pos c1, if_pos c2, hs, hb]
    · have c1 : ¬ (16 * ((8 * i + j) % 7) + (8 * i + j) / 7 = m ∧
          16 * ((8 * i + j) % 7) + (8 * i + j) / 7 < 112) := fun h => hm h.1
      rw [if_neg c1]
      by_cases hm2 : m < 112
      · have hs : interleaveSource m ≠ 8 * i + j := by
          unfold interleaveSource
          omega
        by_cases hlt : interleaveSource m < 8 * i + j
        · rw [if_pos ⟨hm2, hlt⟩, if_pos ⟨hm2, by omega⟩]
        · have c3 : ¬ (m < 112 ∧ interleaveSource m < 8 * i + j) := fun h => hlt h.2
          have c4 : ¬ (m < 112 ∧ interleaveSource m < 8 * i + j + 1) := fun h => by omega
          rw [if_neg c3, if_neg c4]
      · have c3 : ¬ (m < 112 ∧ interleaveSource m < 8 * i + j) := fun h => hm2 h.1
        have c4 : ¬ (m < 112 ∧ interleaveSource m < 8 * i + j + 1) := fun h => hm2 h.1
        rw [if_neg c3, if_neg c4]

theorem scatter_inner (interleaved0 data : List Nat) (p i : Nat) (st : List Nat × Nat)
    (hL : interleaved0.length = 112) (hi : i < 14)
    (h : ScatterInv interleaved0 data p (8 * i) st) (j : Nat) (hj : j ≤ 8) :
    ScatterInv interleaved0 data p (8 * i + j)
      ((List.range j).foldl (scatterBit (data.getD (p + i) 0)) st) := by
  induction j with
  | zero => exact h
  | succ j ih =>
    rw [foldl_range_succ]
    exact scatter_step interleaved0 data p i j _ hL hi (by omega) (ih (by omega))

theorem scatter_outer (interleaved0 data : List Nat) (p : Nat)
    (hL : interleaved0.length = 112) (i : Nat) (hi : i ≤ 14) :
    ScatterInv interleaved0 data p (8 * i)
      ((List.range i).foldl (scatterByte data p) (interleaved0, 0)) := by
  induction i with
  | zero =>
    refine ⟨rfl, rfl, fun m => ?_⟩
    have : ¬ (m < 112 ∧ interleaveSource m < 8 * 0) := fun h => by omega
    rw [if_neg this]
    rfl
  | succ i ih =>
    rw [foldl_range_succ]
    have := scatter_inner interleaved0 data p i _ hL (by omega) (ih (by omega)) 8 (Nat.le_refl _)
    have e : 8 * (i + 1) = 8 * i + 8 := by omega
    rw [e]
    exact this

/-- Every slot of the scratch array is written: slot `m` holds the bit whose number
is `interleaveSource m`, whatever the array held before. -/
theorem scatterStage_spec (interleaved0 data : List Nat) (p : Nat)
    (hL : interleaved0.length = 112) :
    (scatterStage interleaved0 data p).length = 112 ∧
    ∀ m, m < 112 → (scatterStage interleaved0 data p).getD m 0 =
      bitVal data p (interleaveSource m) := by
  obtain ⟨h1, _, h3⟩ := scatter_outer interleaved0 data p hL 14 (Nat.le_refl _)
  refine ⟨h1.trans hL, fun m hm => ?_⟩
  have := h3 m
  have c : m < 112 ∧ interleaveSource m < 8 * 14 := ⟨hm, by unfold interleaveSource; omega⟩
  rw [if_pos c] at this
  exact this

theorem testBit_condOr (b : Nat) (c : Prop) [Decidable c] (bit t : Nat) :
    (if c then (b ||| ((1 <<< bit) % 256)) % 256 else b).testBit t =
      if c then (decide (t < 8) && (b.testBit t || (decide (bit < 8) && decide (t = bit))))
      else b.testBit t := by
  split
  · simp only [testBit_mod_256, Nat.testBit_or, Nat.one_shiftLeft, Nat.testBit_two_pow]
    by_cases h8 : t < 8
    · by_cases hb : t = bit
      · subst hb
        simp [h8]
      · have : ¬ bit = t := fun h => hb h.symm
        simp [h8, hb, this]
    · simp [h8]
  · rfl

theorem gatherInner (interleaved : List Nat) (k : Nat) :
    (downFrom7.foldl (gatherBit interleaved) (0, k)).2 = k + 8 ∧
    ∀ t, (downFrom7.foldl (gatherBit interleaved) (0, k)).1.testBit t =
      (decide (t < 8) && decide (interleaved.getD (k + (7 - t)) 0 ≠ 0)) := by
  refine ⟨rfl, fun t => ?_⟩
  simp only [downFrom7, List.foldl, gatherBit, testBit_condOr, Nat.zero_testBit]
  by_cases h8 : t < 8
  · interval_cases t <;> simp
  · have e : ∀ b : Nat, b < 8 → decide (t = b) = false := fun b hb => by
      simp
      omega
    simp [h8, e]

theorem gather_loop (interleaved data : List Nat) (p : Nat) (i : Nat)
    (hp : p + i ≤ data.length) :
    ((List.range i).foldl (gatherByte interleaved p) (data, 0)).1.length = data.length ∧
    ((List.range i).foldl (gatherByte interleaved p) (data, 0)).2 = 8 * i ∧
    ∀ m, ((List.range i).foldl (gatherByte interleaved p) (data, 0)).1.getD m 0 =
      if p ≤ m ∧ m < p + i then (downFrom7.foldl (gatherBit interleaved) (0, 8 * (m - p))).1
      else data.getD m 0 := by
  induction i with
  | zero =>
    refine ⟨rfl, rfl, fun m => ?_⟩
    have : ¬ (p ≤ m ∧ m < p + 0) := fun h => by omega
    rw [if_neg this]
    rfl
  | succ i ih =>
    obtain ⟨h1, h2, h3⟩ := ih (by omega)
    rw [foldl_range_succ]
    generalize (List.range i).foldl (gatherByte interleaved p) (data, 0) = st at h1 h2 h3
    simp only [gatherByte]
    refine ⟨by simp [h1], ?_, fun m => ?_⟩
    · rw [(gatherInner interleaved st.2).1, h2]
      omega
    · rw [getD_set, h3 m, h1, h2]
      by_cases hm : p + i = m
      · have c1 : p + i = m ∧ p + i < data.length := ⟨hm, by omega⟩
        have c2 : p ≤ m ∧ m < p + (i + 1) := ⟨by omega, by omega⟩
        have e : m - p = i := by omega
        rw [if_pos c1, if_pos c2, e]
      · have c1 : ¬ (p + i = m ∧ p + i < data.length) := fun h => hm h.1
        rw [if_neg c1]
        by_cases hm2 : p ≤ m ∧ m < p + i
        · rw [if_pos hm2, if_pos ⟨hm2.1, by omega⟩]
        · have c2 : ¬ (p ≤ m ∧ m < p + (i + 1)) := fun h => by omega
          rw [if_neg hm2, if_neg c2]

theorem bitVal_ne_zero (data : List Nat) (p n : Nat) :
    decide (bitVal data p n ≠ 0) = bitLSB (data.drop p) n := by
  unfold bitVal bitLSB
  rw [shr_and_one, getD_drop]
  cases (data.getD (p + n / 8) 0).testBit (n % 8) <;> simp

/-- What the interleave block leaves in the buffer: bit `7 - t` counted from the top
of byte `i` of the payload, that is bit `8 * i + (7 - t)` in the order of the
output, is the input bit whose number is `interleaveSource (8 * i + (7 - t))`. -/
theorem interleaveStage_spec (interleaved0 data : List Nat) (p : Nat)
    (hL : interleaved0.length = 112) (hp : p + 14 ≤ data.length) :
    (interleaveStage interleaved0 data p).length = data.length ∧
    (∀ k, ¬ (p ≤ k ∧ k < p + 14) → (interleaveStage interleaved0 data p).getD k 0 =
      data.getD k 0) ∧
    (∀ i, i < 14 → (interleaveStage interleaved0 data p).getD (p + i) 0 < 256 ∧
      ∀ t, ((interleaveStage interleaved0 data p).getD (p + i) 0).testBit t =
        (decide (t < 8) && bitLSB (data.drop p) (interleaveSource (8 * i + (7 - t))))) := by
  obtain ⟨s1, s2⟩ := scatterStage_spec interleaved0 data p hL
  obtain ⟨h1, _, h3⟩ := gather_loop (scatterStage interleaved0 data p) data p 14 hp
  have hbits : ∀ i, i < 14 → ∀ t,
      ((interleaveStage interleaved0 data p).getD (p + i) 0).testBit t =
        (decide (t < 8) && bitLSB (data.drop p) (interleaveSource (8 * i + (7 - t)))) := by
    intro i hi t
    have := h3 (p + i)
    rw [if_pos ⟨by omega, by omega⟩] at this
    unfold interleaveStage gatherStage MDC1200_ENCODED_PAYLOAD_BYTES MDC1200_FEC_K
    rw [this, (gatherInner _ _).2 t]
    by_cases h8 : t < 8
    · have e : p + i - p = i := by omega
      rw [e, s2 _ (by omega), bitVal_ne_zero]
    · simp [h8]
  refine ⟨h1, fun k hk => ?_, fun i hi => ⟨?_, hbits i hi⟩⟩
  · have := h3 k
    rw [if_neg hk] at this
    exact this
  · apply lt_256_of_testBit
    intro m hm
    rw [hbits i hi]
    simp [hm]

theorem testBit_mod_128 (x j : Nat) : (x % 128).testBit j = (decide (j < 7) && x.testBit j) :=
  Nat.testBit_mod_two_pow x 7 j

theorem testBit_eq_of_mod_128 (x y m : Nat) (h : x % 128 = y % 128) (hm : m < 7) :
    x.testBit m = y.testBit m := by
  have h1 := testBit_mod_128 x m
  have h2 := testBit_mod_128 y m
  rw [h] at h1
  simp only [hm, decide_True, Bool.true_and] at h1 h2
  rw [← h1, ← h2]

theorem convBit_low_bits (bi : Nat) (st st' : Nat × Nat) (bit : Nat)
    (h1 : st.1 % 128 = st'.1 % 128) (h2 : st.2 = st'.2) :
    (convBit bi st bit).2 = (convBit bi st' bit).2 ∧
    (convBit bi st bit).1 % 128 = (convBit bi st' bit).1 % 128 := by
  have hb : ∀ m, m < 7 → (convBit bi st bit).1.testBit m = (convBit bi st' bit).1.testBit m := by
    intro m hm
    rw [convBit_fst_testBit, convBit_fst_testBit]
    by_cases h0 : m = 0
    · simp [h0]
    · rw [if_neg h0, if_neg h0, testBit_eq_of_mod_128 _ _ (m - 1) h1 (by omega)]
  refine ⟨?_, ?_⟩
  · apply Nat.eq_of_testBit_eq
    intro t
    rw [convBit_snd_testBit, convBit_snd_testBit bi st', hb 6 (by decide), hb 5 (by decide),
      hb 2 (by decide), hb 0 (by decide), h2]
  · apply Nat.eq_of_testBit_eq
    intro m
    rw [testBit_mod_128, testBit_mod_128]
    by_cases hm : m < 7
    · rw [hb m hm]
    · simp [hm]

/-- C5: the convolutional stage of `mdc1200EncodeData`, run on the 14 bytes at `data + p`,
leaves the seven frame bytes (and everything outside the seven parity bytes) unchanged
and sets bit `j` of parity byte `i` to `x_n XOR x_(n-2) XOR x_(n-5) XOR x_(n-6)` with
`n = 8 * i + j`, where `x_n` is bit `n mod 8` of frame byte `n div 8` and `x_n = 0` for
`n < 0`: the register is carried over the byte boundaries. The last part says that two
register values that agree in bits 0..6 give the same output byte and successors that
agree in bits 0..6 again, so bit 7 and the truncation to 8 bits affect no output. -/
theorem convStage_parity_bits (data : List Nat) (p : Nat) (hp : p + 14 ≤ data.length) :
    (∀ i, i < 7 → (convStage data p).getD (p + i) 0 = data.getD (p + i) 0) ∧
    (∀ i j, i < 7 → j < 8 →
      ((convStage data p).getD (p + 7 + i) 0).testBit j =
        xor (xor (xor (xBack (data.drop p) (8 * i + j) 0) (xBack (data.drop p) (8 * i + j) 2))
          (xBack (data.drop p) (8 * i + j) 5)) (xBack (data.drop p) (8 * i + j) 6)) ∧
    (∀ i, i < 7 → (convStage data p).getD (p + 7 + i) 0 < 256) ∧
    (convStage data p).length = data.length ∧
    (∀ k, k < p ∨ p + 14 ≤ k → (convStage data p).getD k 0 = data.getD k 0) ∧
    (∀ bi st st' bit, st.1 % 128 = st'.1 % 128 → st.2 = st'.2 →
      (convBit bi st bit).2 = (convBit bi st' bit).2 ∧
      (convBit bi st bit).1 % 128 = (convBit bi st' bit).1 % 128) := by
  obtain ⟨h1, h2, h3⟩ := convStage_spec data p hp
  refine ⟨fun i hi => h2 _ (by omega), fun i j hi hj => ?_, fun i hi => (h3 i hi).1, h1,
    fun k hk => h2 k (by omega), fun bi st st' bit => convBit_low_bits bi st st' bit⟩
  rw [(h3 i hi).2 j]
  simp [hj, parityAt]

/-- Witness of C5 at a frame of seven bytes followed by seven arbitrary bytes. -/
theorem convStage_parity_bits_witness :
    0 + 14 ≤ [0x01, 0x00, 0x12, 0x34, 0x72, 0x65, 0x00, 9, 9, 9, 9, 9, 9, 9].length ∧
    ((convStage [0x01, 0x00, 0x12, 0x34, 0x72, 0x65, 0x00, 9, 9, 9, 9, 9, 9, 9] 0).getD
      (0 + 7 + 2) 0).testBit 3 =
      xor (xor (xor
        (xBack ([0x01, 0x00, 0x12, 0x34, 0x72, 0x65, 0x00, 9, 9, 9, 9, 9, 9, 9].drop 0)
          (8 * 2 + 3) 0)
        (xBack ([0x01, 0x00, 0x12, 0x34, 0x72, 0x65, 0x00, 9, 9, 9, 9, 9, 9, 9].drop 0)
          (8 * 2 + 3) 2))
        (xBack ([0x01, 0x00, 0x12, 0x34, 0x72, 0x65, 0x00, 9, 9, 9, 9, 9, 9, 9].drop 0)
          (8 * 2 + 3) 5))
        (xBack ([0x01, 0x00, 0x12, 0x34, 0x72, 0x65, 0x00, 9, 9, 9, 9, 9, 9, 9].drop 0)
          (8 * 2 + 3) 6) :=
  ⟨by decide,
    (convStage_parity_bits [0x01, 0x00, 0x12, 0x34, 0x72, 0x65, 0x00, 9, 9, 9, 9, 9, 9, 9] 0
      (by decide)).2.1 2 3 (by decide) (by decide)⟩

set_option maxRecDepth 100000 in
theorem specIndex_eq : ∀ n, n < 113 → specIndex n = interleaveIndex n := by
  decide

theorem index_source (n : Nat) (hn : n < 112) :
    interleaveIndex n < 112 ∧ interleaveSource (interleaveIndex n) = n := by
  unfold interleaveSource interleaveIndex
  omega

theorem source_index (m : Nat) (hm : m < 112) :
    interleaveSource m < 112 ∧ interleaveIndex (interleaveSource m) = m := by
  unfold interleaveSource interleaveIndex
  omega

theorem interleave_bit (interleaved0 data : List Nat) (p : Nat)
    (hL : interleaved0.length = 112) (hp : p + 14 ≤ data.length) (n : Nat) (hn : n < 112) :
    bitMSB ((interleaveStage interleaved0 data p).drop p) (interleaveIndex n) =
      bitLSB (data.drop p) n := by
  obtain ⟨h1, h2⟩ := index_source n hn
  obtain ⟨_, _, g3⟩ := interleaveStage_spec interleaved0 data p hL hp
  unfold bitMSB
  rw [getD_drop, (g3 (interleaveIndex n / 8) (by omega)).2]
  have e : 8 * (interleaveIndex n / 8) + (7 - (7 - interleaveIndex n % 8)) = interleaveIndex n := by
    omega
  have l : 7 - interleaveIndex n % 8 < 8 := by omega
  rw [e, h2]
  simp [l]

/-- C6 (as amended): the interleave block of `mdc1200EncodeData` on the 14 bytes at
`data + p`: with the input bits taken from bit 0 up to bit 7 of each byte as `b_0..b_111`
and the output bits packed from bit 7 down to bit 0 of each byte as `o_0..o_111`,
`o_(p(n)) = b_n` for every `n`, where `p(0) = 0` and `p(n+1)` is `p(n) + 16` if that is
below 112 and `p(n) + 16 - 111` otherwise; the bytes outside the payload are kept. -/
theorem interleave_lsb_first_input (interleaved0 data : List Nat) (p : Nat)
    (hL : interleaved0.length = 112) (hp : p + 14 ≤ data.length) :
    (∀ n, n < 112 →
      bitMSB ((interleaveStage interleaved0 data p).drop p) (specIndex n) =
        bitLSB (data.drop p) n) ∧
    (∀ i, i < 14 → (interleaveStage interleaved0 data p).getD (p + i) 0 < 256) ∧
    (interleaveStage interleaved0 data p).length = data.length ∧
    (∀ k, k < p ∨ p + 14 ≤ k →
      (interleaveStage interleaved0 data p).getD k 0 = data.getD k 0) := by
  obtain ⟨g1, g2, g3⟩ := interleaveStage_spec interleaved0 data p hL hp
  refine ⟨fun n hn => ?_, fun i hi => (g3 i hi).1, g1, fun k hk => g2 k (by omega)⟩
  rw [specIndex_eq n (by omega)]
  exact interleave_bit interleaved0 data p hL hp n hn

/-- Witness of C6 (as amended) at the payload whose only set bit is bit 0 of byte 0. -/
theorem interleave_lsb_first_input_witness :
    (List.replicate 112 0).length = 112 ∧
    0 + 14 ≤ [0x01, 0, 0, 0, 0, 0, 0, 0, 0, 0, 0, 0, 0, 0].length ∧
    bitMSB ((interleaveStage (List.replicate 112 0)
        [0x01, 0, 0, 0, 0, 0, 0, 0, 0, 0, 0, 0, 0, 0] 0).drop 0) (specIndex 0) =
      bitLSB ([0x01, 0, 0, 0, 0, 0, 0, 0, 0, 0, 0, 0, 0, 0].drop 0) 0 :=
  ⟨by decide, by decide,
    (interleave_lsb_first_input (List.replicate 112 0)
      [0x01, 0, 0, 0, 0, 0, 0, 0, 0, 0, 0, 0, 0, 0] 0 (by decide) (by decide)).1 0
      (by decide)⟩

set_option maxRecDepth 100000 in
/-- C6, counterexample: with the input bits taken from bit 7 down to bit 0 of each
byte, as the claim reads them, `o_(p(n)) = b_n` fails for the payload whose only set
bit is bit 0 of byte 0: the code stores that bit as output bit 0 (byte 0 becomes
0x80), the claim puts it at `p(7) = 1`. -/
theorem interleave_msb_first_input_fails :
    (interleaveStage (List.replicate 112 0) [0x01, 0, 0, 0, 0, 0, 0, 0, 0, 0, 0, 0, 0, 0] 0 =
      [0x80, 0, 0, 0, 0, 0, 0, 0, 0, 0, 0, 0, 0, 0]) ∧
    ¬ (∀ n, n < 112 →
      bitMSB (interleaveStage (List.replicate 112 0)
        [0x01, 0, 0, 0, 0, 0, 0, 0, 0, 0, 0, 0, 0, 0] 0) (specIndex n) =
        bitMSB [0x01, 0, 0, 0, 0, 0, 0, 0, 0, 0, 0, 0, 0, 0] n) := by
  have h : interleaveStage (List.replicate 112 0) [0x01, 0, 0, 0, 0, 0, 0, 0, 0, 0, 0, 0, 0, 0] 0 =
      [0x80, 0, 0, 0, 0, 0, 0, 0, 0, 0, 0, 0, 0, 0] := by decide
  refine ⟨h, fun hall => ?_⟩
  have h7 := hall 7 (by decide)
  rw [h] at h7
  revert h7
  decide

theorem byteOfBits_testBit (f : Nat → Bool) (t : Nat) :
    (byteOfBits f).testBit t = (decide (t < 8) && f t) := by
  have hr : List.range 8 = [0, 1, 2, 3, 4, 5, 6, 7] := by decide
  simp only [byteOfBits, hr, List.foldl, Nat.testBit_or, Nat.testBit_shiftLeft,
    Nat.testBit_bool_to_nat, Nat.zero_testBit]
  by_cases h8 : t < 8
  · interval_cases t <;> simp
  · have e : ∀ b : Nat, b < 8 → decide (t - b = 0) = false := fun b hb => by
      simp
      omega
    have t0 : t ≠ 0 := by omega
    simp [h8, e, t0]

theorem deinterleave_getD (payload : List Nat) (i : Nat) (hi : i < 14) :
    (deinterleave payload).getD i 0 =
      byteOfBits (fun j => bitMSB payload (interleaveIndex (8 * i + j))) := by
  simp [deinterleave, List.getD_eq_getElem?_getD, List.getElem?_map, List.getElem?_range hi]

theorem deinterleave_interleave (interleaved0 payload : List Nat)
    (hL : interleaved0.length = 112) (hp : payload.length = 14)
    (hb : ∀ i, i < 14 → payload.getD i 0 < 256) :
    deinterleave (interleaveStage interleaved0 payload 0) = payload := by
  apply ext_getD
  · simp [deinterleave, hp]
  · intro i hi
    have hi : i < 14 := by simpa [deinterleave] using hi
    rw [deinterleave_getD _ i hi]
    apply Nat.eq_of_testBit_eq
    intro t
    rw [byteOfBits_testBit]
    by_cases h8 : t < 8
    · have := interleave_bit interleaved0 payload 0 hL (by omega) (8 * i + t) (by omega)
      simp only [List.drop_zero] at this
      rw [this]
      unfold bitLSB
      have e1 : (8 * i + t) / 8 = i := by omega
      have e2 : (8 * i + t) % 8 = t := by omega
      rw [e1, e2]
      simp [h8]
    · rw [testBit_of_lt_256 _ t (hb i hi) h8]
      simp [h8]

theorem interleaveStage_scratch (interleaved0 interleaved1 data : List Nat) (p : Nat)
    (hL0 : interleaved0.length = 112) (hL1 : interleaved1.length = 112) :
    interleaveStage interleaved0 data p = interleaveStage interleaved1 data p := by
  obtain ⟨a1, a2⟩ := scatterStage_spec interleaved0 data p hL0
  obtain ⟨b1, b2⟩ := scatterStage_spec interleaved1 data p hL1
  have : scatterStage interleaved0 data p = scatterStage interleaved1 data p := by
    apply ext_getD _ _ (a1.trans b1.symm)
    intro j hj
    rw [a2 j (by omega), b2 j (by omega)]
  unfold interleaveStage
  rw [this]

theorem scatter_index (interleaved0 data : List Nat) (p n : Nat)
    (hL : interleaved0.length = 112) (hn : n < 112) :
    ((List.range (n % 8)).foldl (scatterBit (data.getD (p + n / 8) 0))
      ((List.range (n / 8)).foldl (scatterByte data p) (interleaved0, 0))).2 =
      16 * (n % 7) + n / 7 := by
  have h1 := scatter_outer interleaved0 data p hL (n / 8) (by omega)
  have h2 := scatter_inner interleaved0 data p (n / 8) _ hL (by omega) h1 (n % 8) (by omega)
  have e : 8 * (n / 8) + n % 8 = n := by omega
  rw [e] at h2
  exact h2.2.1

set_option maxRecDepth 100000 in
theorem index_perm : List.Perm ((List.range 112).map interleaveIndex) (List.range 112) := by
  decide

/-- C7: the interleave block is a bijection on the 112 bits of a payload. When the
`n`-th bit is processed the write index `k` is `16 * (n mod 7) + n div 7`, which is
below 112; `interleaveSource` is the inverse of that map on `0..111`, so the indices
are a permutation of `0..111` and every slot of the scratch array is written before it
is read, whatever the array held on entry; and the inverse permutation applied to the
interleaved payload gives the payload back. -/
theorem interleave_bijective (interleaved0 interleaved1 payload : List Nat)
    (hL0 : interleaved0.length = 112) (hL1 : interleaved1.length = 112)
    (hp : payload.length = 14) (hb : ∀ i, i < 14 → payload.getD i 0 < 256) :
    (∀ n, n < 112 →
      ((List.range (n % 8)).foldl (scatterBit (payload.getD (0 + n / 8) 0))
        ((List.range (n / 8)).foldl (scatterByte payload 0) (interleaved0, 0))).2 =
        16 * (n % 7) + n / 7 ∧ 16 * (n % 7) + n / 7 < 112) ∧
    (∀ n, n < 112 → interleaveSource (16 * (n % 7) + n / 7) = n) ∧
    (∀ m, m < 112 → interleaveSource m < 112 ∧
      16 * (interleaveSource m % 7) + interleaveSource m / 7 = m) ∧
    List.Perm ((List.range 112).map (fun n => 16 * (n % 7) + n / 7)) (List.range 112) ∧
    (∀ m, m < 112 → (scatterStage interleaved0 payload 0).getD m 0 =
      bitVal payload 0 (interleaveSource m)) ∧
    interleaveStage interleaved0 payload 0 = interleaveStage interleaved1 payload 0 ∧
    deinterleave (interleaveStage interleaved0 payload 0) = payload := by
  refine ⟨fun n hn => ⟨scatter_index interleaved0 payload 0 n hL0 hn, by omega⟩,
    fun n hn => (index_source n hn).2, fun m hm => source_index m hm, index_perm,
    (scatterStage_spec interleaved0 payload 0 hL0).2,
    interleaveStage_scratch interleaved0 interleaved1 payload 0 hL0 hL1,
    deinterleave_interleave interleaved0 payload hL0 hp hb⟩

set_option maxRecDepth 100000 in
/-- Witness of C7 at a payload of 14 bytes and two different scratch arrays. -/
theorem interleave_bijective_witness :
    (List.replicate 112 0).length = 112 ∧ (List.replicate 112 1).length = 112 ∧
    [1, 2, 3, 4, 5, 6, 7, 8, 9, 10, 11, 12, 13, 255].length = 14 ∧
    (∀ i, i < 14 → [1, 2, 3, 4, 5, 6, 7, 8, 9, 10, 11, 12, 13, 255].getD i 0 < 256) ∧
    interleaveStage (List.replicate 112 0) [1, 2, 3, 4, 5, 6, 7, 8, 9, 10, 11, 12, 13, 255] 0 =
      interleaveStage (List.replicate 112 1) [1, 2, 3, 4, 5, 6, 7, 8, 9, 10, 11, 12, 13, 255] 0 ∧
    deinterleave (interleaveStage (List.replicate 112 0)
      [1, 2, 3, 4, 5, 6, 7, 8, 9, 10, 11, 12, 13, 255] 0) =
      [1, 2, 3, 4, 5, 6, 7, 8, 9, 10, 11, 12, 13, 255] :=
  ⟨by decide, by decide, by decide, by decide,
    (interleave_bijective (List.replicate 112 0) (List.replicate 112 1)
      [1, 2, 3, 4, 5, 6, 7, 8, 9, 10, 11, 12, 13, 255] (by decide) (by decide) (by decide)
      (by decide)).2.2.2.2.2⟩

/-- C9: the differential coder applied to `N` zero bytes gives `N` bytes 0xFF. -/
theorem applyXorModulation_zero_bytes (N : Nat) :
    mdc1200ApplyXorModulation (List.replicate N 0x00) N = List.replicate N 0xFF :=
  applyXor_zeros N

theorem alternating_AA (N : Nat) (n : Nat) (hn : n < 8 * (List.replicate N 0xAA).length) :
    bitMSB (List.replicate N 0xAA) n =
      !(if n = 0 then false else bitMSB (List.replicate N 0xAA) (n - 1)) := by
  rw [List.length_replicate] at hn
  unfold bitMSB
  by_cases h0 : n = 0
  · subst h0
    rw [if_pos rfl, getD_replicate N _ _ (by omega)]
    decide
  · rw [if_neg h0, getD_replicate N _ _ (by omega), getD_replicate N _ _ (by omega)]
    have h8 : n % 8 < 8 := Nat.mod_lt _ (by decide)
    have hc : n % 8 = 0 ∧ (n - 1) % 8 = 7 ∨ n % 8 = 1 ∧ (n - 1) % 8 = 0 ∨
        n % 8 = 2 ∧ (n - 1) % 8 = 1 ∨ n % 8 = 3 ∧ (n - 1) % 8 = 2 ∨
        n % 8 = 4 ∧ (n - 1) % 8 = 3 ∨ n % 8 = 5 ∧ (n - 1) % 8 = 4 ∨
        n % 8 = 6 ∧ (n - 1) % 8 = 5 ∨ n % 8 = 7 ∧ (n - 1) % 8 = 6 := by omega
    rcases hc with ⟨a, b⟩ | ⟨a, b⟩ | ⟨a, b⟩ | ⟨a, b⟩ | ⟨a, b⟩ | ⟨a, b⟩ | ⟨a, b⟩ | ⟨a, b⟩ <;>
      rw [a, b] <;> decide

theorem preComplement_of_zero (x : Nat) (hx : x < 256) (h : (x ^^^ 0xFF) % 256 = 0) :
    x = 0xFF := by
  apply Nat.eq_of_testBit_eq
  intro t
  have := congrArg (fun y => Nat.testBit y t) h
  simp only [testBit_mod_256, Nat.testBit_xor, testBit_255, Nat.zero_testBit] at this
  rw [testBit_255]
  by_cases h8 : t < 8
  · simp only [h8, decide_True, Bool.true_and, Bool.xor_true, Bool.not_eq_false'] at this
    simp [h8, this]
  · simp [h8, testBit_of_lt_256 x t hx h8]

theorem xorModByte_lt (prev x : Nat) (hp : prev < 2) : (xorModByte prev x).1 < 256 := by
  rw [(xorModByte_eq prev x hp).1]
  exact Nat.mod_lt _ (by decide)

/-- C10 (as amended): on a buffer in which every bit differs from the bit before it
(the bit before the first one counting as 0; for instance 0xAA repeated), the value of
`out` before the final complement is 0xFF for every byte, and the output of
`mdc1200ApplyXorModulation` is the all-zero byte sequence. -/
theorem applyXorModulation_alternating (data : List Nat)
    (h : ∀ n, n < 8 * data.length →
      bitMSB data n = !(if n = 0 then false else bitMSB data (n - 1))) :
    mdc1200ApplyXorModulation data data.length = List.replicate data.length 0x00 ∧
    (∀ k, k < data.length → (xorModByte (prevBitAt data k) (data.getD k 0)).1 = 0xFF) ∧
    (∀ N, mdc1200ApplyXorModulation (List.replicate N 0xAA) N = List.replicate N 0x00) := by
  have key := applyXor_alternating data h
  refine ⟨key, fun k hk => ?_, fun N => ?_⟩
  · apply preComplement_of_zero _ (xorModByte_lt _ _ (prevBitAt_lt data k))
    rw [← applyXor_getD data k hk, key, getD_replicate _ _ _ hk]
  · have := applyXor_alternating (List.replicate N 0xAA) (alternating_AA N)
    rw [List.length_replicate] at this
    exact this

/-- Witness of C10 (as amended) at three bytes 0xAA. -/
theorem applyXorModulation_alternating_witness :
    (∀ n, n < 8 * [0xAA, 0xAA, 0xAA].length →
      bitMSB [0xAA, 0xAA, 0xAA] n = !(if n = 0 then false else bitMSB [0xAA, 0xAA, 0xAA] (n - 1))) ∧
    mdc1200ApplyXorModulation [0xAA, 0xAA, 0xAA] [0xAA, 0xAA, 0xAA].length =
      List.replicate [0xAA, 0xAA, 0xAA].length 0x00 :=
  ⟨by decide, (applyXorModulation_alternating [0xAA, 0xAA, 0xAA] (by decide)).1⟩

/-- C10, counterexample: the byte 0xAA (bits 1,0,1,0,1,0,1,0: every bit differs from
the one before it) is coded to 0x00, not to 0xFF, and the value before the complement
is 0xFF, not 0x00. -/
theorem alternating_byte_gives_zero :
    mdc1200ApplyXorModulation (List.replicate 1 0xAA) 1 = [0x00] ∧
    (xorModByte 0 0xAA).1 = 0xFF ∧
    ¬ (mdc1200ApplyXorModulation (List.replicate 1 0xAA) 1 = List.replicate 1 0xFF) := by
  decide

theorem split_header (l : List Nat) (h : l.length = 26) :
    ∃ x0 x1 x2 x3 x4 x5 x6 x7 x8 x9 x10 x11 x12 x13 x14 x15 x16 x17 x18 rest,
      l = x0 :: x1 :: x2 :: x3 :: x4 :: x5 :: x6 :: x7 :: x8 :: x9 ::
        x10 :: x11 :: x12 :: x13 :: x14 :: x15 :: x16 :: x17 :: x18 :: rest ∧ rest.length = 7 := by
  rcases l with _ | ⟨x0, l⟩
  · simp at h
  rcases l with _ | ⟨x1, l⟩
  · simp at h
  rcases l with _ | ⟨x2, l⟩
  · simp at h
  rcases l with _ | ⟨x3, l⟩
  · simp at h
  rcases l with _ | ⟨x4, l⟩
  · simp at h
  rcases l with _ | ⟨x5, l⟩
  · simp at h
  rcases l with _ | ⟨x6, l⟩
  · simp at h
  rcases l with _ | ⟨x7, l⟩
  · simp at h
  rcases l with _ | ⟨x8, l⟩
  · simp at h
  rcases l with _ | ⟨x9, l⟩
  · simp at h
  rcases l with _ | ⟨x10, l⟩
  · simp at h
  rcases l with _ | ⟨x11, l⟩
  · simp at h
  rcases l with _ | ⟨x12, l⟩
  · simp at h
  rcases l with _ | ⟨x13, l⟩
  · simp at h
  rcases l with _ | ⟨x14, l⟩
  · simp at h
  rcases l with _ | ⟨x15, l⟩
  · simp at h
  rcases l with _ | ⟨x16, l⟩
  · simp at h
  rcases l with _ | ⟨x17, l⟩
  · simp at h
  rcases l with _ | ⟨x18, l⟩
  · simp at h
  refine ⟨x0, x1, x2, x3, x4, x5, x6, x7, x8, x9,
    x10, x11, x12, x13, x14, x15, x16, x17, x18, l, rfl, ?_⟩
  simp only [List.length_cons] at h
  omega

theorem crc_first_four (a b c d : Nat) (rest : List Nat) :
    mdc1200CRC16Xmodem (a :: b :: c :: d :: rest) 4 = mdc1200CRC16Xmodem [a, b, c, d] 4 := by
  have hr4 : List.range 4 = [0, 1, 2, 3] := by decide
  simp only [mdc1200CRC16Xmodem, hr4, List.foldl, crc16Byte, List.getD_cons_zero,
    List.getD_cons_succ]

theorem encodeBefore_eq (interleaved0 buf : List Nat) (op arg unitId : Nat)
    (h : buf.length = 26) :
    encodeBeforeModulation interleaved0 buf op arg unitId =
      (interleaveStage interleaved0
        (convStage (mdc1200Preamble ++ mdc1200Sync ++ codeFrame op arg unitId ++ buf.drop 19) 12)
        12, 26) := by
  obtain ⟨x0, x1, x2, x3, x4, x5, x6, x7, x8, x9, x10, x11, x12, x13, x14, x15, x16, x17, x18,
    rest, rfl, _⟩ := split_header buf h
  have hr7 : List.range 7 = [0, 1, 2, 3, 4, 5, 6] := by decide
  have hr5 : List.range 5 = [0, 1, 2, 3, 4] := by decide
  simp only [encodeBeforeModulation, memcpy, mdc1200Preamble, mdc1200Sync, List.length_cons,
    List.length_nil, hr7, hr5, List.foldl, Nat.zero_add, Nat.reduceAdd, List.set_cons_zero,
    List.set_cons_succ, List.getD_cons_zero, List.getD_cons_succ, List.drop_succ_cons,
    List.drop_zero, crc_first_four, mdc1200EncodeData, MDC1200_ENCODED_PAYLOAD_BYTES,
    MDC1200_FEC_K, Nat.reduceMul, Nat.sub_zero, codeFrame, List.cons_append, List.nil_append]

theorem take_eq_of_getD (l e : List Nat) (n : Nat) (hl : n ≤ l.length) (he : e.length = n)
    (h : ∀ j, j < n → l.getD j 0 = e.getD j 0) : l.take n = e := by
  apply ext_getD
  · rw [List.length_take, he]
    omega
  · intro j hj
    rw [List.length_take] at hj
    have hj' : j < n := by omega
    rw [← h j hj']
    simp [List.getD_eq_getElem?_getD, List.getElem?_take, hj']

theorem getD_take (l : List Nat) (n j : Nat) (hj : j < n) : (l.take n).getD j 0 = l.getD j 0 := by
  simp [List.getD_eq_getElem?_getD, List.getElem?_take, hj]

/-- The coder is causal: the first `n` output bytes depend on the first `n` input
bytes only. -/
theorem applyXor_take (data : List Nat) (n : Nat) (hn : n ≤ data.length) :
    (mdc1200ApplyXorModulation data data.length).take n =
      mdc1200ApplyXorModulation (data.take n) (data.take n).length := by
  have hlen : (data.take n).length = n := by
    rw [List.length_take]
    omega
  apply take_eq_of_getD
  · rw [applyXor_length]
    exact hn
  · rw [applyXor_length, hlen]
  · intro j hj
    rw [applyXor_getD data j (by omega), applyXor_getD (data.take n) j (by omega),
      getD_take data n j hj]
    have : prevBitAt (data.take n) j = prevBitAt data j := by
      unfold prevBitAt
      split
      · rfl
      · rw [getD_take data n (j - 1) (by omega)]
    rw [this]

theorem bitLSB_congr (F G : List Nat) (c : Nat) (h : ∀ k, k < c → F.getD k 0 = G.getD k 0)
    (m : Nat) (hm : m < 8 * c) : bitLSB F m = bitLSB G m := by
  unfold bitLSB
  rw [h (m / 8) (by omega)]

theorem parityAt_congr (F G : List Nat) (h : ∀ k, k < 7 → F.getD k 0 = G.getD k 0)
    (n : Nat) (hn : n < 56) : parityAt F n = parityAt G n := by
  have hx : ∀ d, xBack F n d = xBack G n d := by
    intro d
    unfold xBack
    split
    · exact bitLSB_congr F G 7 h _ (by omega)
    · rfl
  unfold parityAt
  rw [hx 0, hx 2, hx 5, hx 6]

theorem conv_congr (data data' : List Nat) (p p' : Nat) (hp : p + 14 ≤ data.length)
    (hp' : p' + 14 ≤ data'.length)
    (h : ∀ k, k < 7 → data.getD (p + k) 0 = data'.getD (p' + k) 0) (k : Nat) (hk : k < 14) :
    (convStage data p).getD (p + k) 0 = (convStage data' p').getD (p' + k) 0 := by
  obtain ⟨_, a2, a3⟩ := convStage_spec data p hp
  obtain ⟨_, b2, b3⟩ := convStage_spec data' p' hp'
  by_cases h7 : k < 7
  · rw [a2 _ (by omega), b2 _ (by omega), h k h7]
  · have e1 : p + k = p + 7 + (k - 7) := by omega
    have e2 : p' + k = p' + 7 + (k - 7) := by omega
    rw [e1, e2]
    apply Nat.eq_of_testBit_eq
    intro t
    rw [(a3 (k - 7) (by omega)).2 t, (b3 (k - 7) (by omega)).2 t]
    by_cases h8 : t < 8
    · rw [parityAt_congr (data.drop p) (data'.drop p') _ _ (by omega)]
      intro j hj
      rw [getD_drop, getD_drop, h j hj]
    · simp [h8]

theorem interleave_congr (interleaved0 interleaved1 data data' : List Nat) (p p' : Nat)
    (hL0 : interleaved0.length = 112) (hL1 : interleaved1.length = 112)
    (hp : p + 14 ≤ data.length) (hp' : p' + 14 ≤ data'.length)
    (h : ∀ k, k < 14 → data.getD (p + k) 0 = data'.getD (p' + k) 0) (k : Nat) (hk : k < 14) :
    (interleaveStage interleaved0 data p).getD (p + k) 0 =
      (interleaveStage interleaved1 data' p').getD (p' + k) 0 := by
  obtain ⟨_, _, a3⟩ := interleaveStage_spec interleaved0 data p hL0 hp
  obtain ⟨_, _, b3⟩ := interleaveStage_spec interleaved1 data' p' hL1 hp'
  apply Nat.eq_of_testBit_eq
  intro t
  rw [(a3 k hk).2 t, (b3 k hk).2 t]
  by_cases h8 : t < 8
  · have hs := (source_index (8 * k + (7 - t)) (by omega)).1
    rw [bitLSB_congr (data.drop p) (data'.drop p') 14 _ _ (by omega)]
    intro j hj
    rw [getD_drop, getD_drop, h j hj]
  · simp [h8]

theorem and_255 (x : Nat) : x &&& 255 = x % 256 := by
  apply Nat.eq_of_testBit_eq
  intro t
  rw [Nat.testBit_and, testBit_255, testBit_mod_256, Bool.and_comm]

theorem crc16Bit_lt (crc bit : Nat) : crc16Bit crc bit < 65536 := by
  unfold crc16Bit
  split <;> exact Nat.mod_lt _ (by decide)

theorem crc16Byte_lt (data : List Nat) (crc i : Nat) : crc16Byte data crc i < 65536 := by
  have hr8 : List.range 8 = [0, 1, 2, 3, 4, 5, 6, 7] := by decide
  simp only [crc16Byte, hr8, List.foldl]
  exact crc16Bit_lt _ _

theorem crc_lt (data : List Nat) (n : Nat) : mdc1200CRC16Xmodem data n < 65536 := by
  unfold mdc1200CRC16Xmodem
  cases n with
  | zero => simp
  | succ n =>
    rw [foldl_range_succ]
    exact crc16Byte_lt _ _ _

theorem codeFrame_eq_rawFrame (op arg unitId : Nat) (hu : unitId < 65536) :
    codeFrame op arg unitId = rawFrame op arg unitId := by
  have h1 : ((unitId >>> 8) &&& 0xFF) % 256 = unitId >>> 8 := by
    rw [and_255, Nat.shiftRight_eq_div_pow]
    omega
  have h2 : (unitId &&& 0xFF) % 256 = unitId &&& 0xFF := by
    rw [and_255]
    omega
  have hc := crc_lt [op, arg, unitId >>> 8, unitId &&& 0xFF] 4
  have h3 : (mdc1200CRC16Xmodem [op, arg, unitId >>> 8, unitId &&& 0xFF] 4 &&& 0xFF) % 256 =
      mdc1200CRC16Xmodem [op, arg, unitId >>> 8, unitId &&& 0xFF] 4 &&& 0xFF := by
    rw [and_255]
    omega
  have h4 : ((mdc1200CRC16Xmodem [op, arg, unitId >>> 8, unitId &&& 0xFF] 4 >>> 8) &&& 0xFF) %
      256 = mdc1200CRC16Xmodem [op, arg, unitId >>> 8, unitId &&& 0xFF] 4 >>> 8 := by
    rw [and_255, Nat.shiftRight_eq_div_pow]
    omega
  unfold codeFrame rawFrame
  rw [h1, h2, h3, h4]

theorem convStage_frame (F : List Nat) (hF : F.length = 7) :
    convStage (F ++ List.replicate MDC1200_FEC_K 0) 0 = F ++ convParityBytes F := by
  have hlen : (F ++ List.replicate MDC1200_FEC_K 0).length = 14 := by
    simp [hF, MDC1200_FEC_K]
  obtain ⟨a1, a2, _⟩ := convStage_spec (F ++ List.replicate MDC1200_FEC_K 0) 0 (by omega)
  have ht : (convStage (F ++ List.replicate MDC1200_FEC_K 0) 0).take 7 = F := by
    apply take_eq_of_getD _ _ _ (by omega) hF
    intro j hj
    rw [a2 j (by omega), List.getD_append _ _ _ _ (by omega)]
  unfold convParityBytes
  conv_lhs => rw [← List.take_append_drop 7 (convStage (F ++ List.replicate MDC1200_FEC_K 0) 0)]
  rw [ht]
  rfl

theorem rawFrame_length (op arg unitId : Nat) : (rawFrame op arg unitId).length = 7 := rfl

theorem convParityBytes_length (F : List Nat) (hF : F.length = 7) :
    (convParityBytes F).length = 7 := by
  have hlen : (F ++ List.replicate MDC1200_FEC_K 0).length = 14 := by
    simp [hF, MDC1200_FEC_K]
  obtain ⟨a1, _, _⟩ := convStage_spec (F ++ List.replicate MDC1200_FEC_K 0) 0 (by omega)
  unfold convParityBytes
  rw [List.length_drop, a1, hlen]
  rfl

theorem interleave_length (payload : List Nat) (h : payload.length = 14) :
    (interleave payload).length = 14 := by
  have hz : (List.replicate (MDC1200_ENCODED_PAYLOAD_BYTES * 8) 0).length = 112 := by
    simp [MDC1200_ENCODED_PAYLOAD_BYTES, MDC1200_FEC_K]
  obtain ⟨a1, _, _⟩ := interleaveStage_spec _ payload 0 hz (by omega)
  unfold interleave
  rw [a1, h]

theorem preModulation_eq (interleaved0 buf : List Nat) (op arg unitId : Nat)
    (hL : interleaved0.length = 112) (hbuf : buf.length = 26) (hu : unitId < 65536) :
    (encodeBeforeModulation interleaved0 buf op arg unitId).1 =
      mdc1200Preamble ++ mdc1200Sync ++
        interleave (rawFrame op arg unitId ++ convParityBytes (rawFrame op arg unitId)) := by
  rw [encodeBefore_eq interleaved0 buf op arg unitId hbuf, codeFrame_eq_rawFrame op arg unitId hu]
  dsimp only
  unfold interleave
  have hF := rawFrame_length op arg unitId
  generalize rawFrame op arg unitId = F at hF
  have hH : (mdc1200Preamble ++ mdc1200Sync).length = 12 := rfl
  generalize mdc1200Preamble ++ mdc1200Sync = H at hH
  have hR : (buf.drop 19).length = 7 := by
    rw [List.length_drop, hbuf]
  generalize buf.drop 19 = R at hR
  have hz : (List.replicate (MDC1200_ENCODED_PAYLOAD_BYTES * 8) 0).length = 112 :=
    List.length_replicate _ _
  generalize List.replicate (MDC1200_ENCODED_PAYLOAD_BYTES * 8) 0 = Z at hz
  have hd0 : (H ++ F ++ R).length = 26 := by
    rw [List.length_append, List.length_append, hH, hF, hR]
  have hpay : (F ++ convParityBytes F).length = 14 := by
    rw [List.length_append, hF, convParityBytes_length F hF]
  have hFz : (F ++ List.replicate MDC1200_FEC_K 0).length = 14 := by
    rw [List.length_append, hF, List.length_replicate]
    rfl
  have hI : (interleaveStage Z (F ++ convParityBytes F) 0).length = 14 := by
    rw [(interleaveStage_spec Z _ 0 hz (by omega)).1, hpay]
  obtain ⟨c1, c2, _⟩ := convStage_spec (H ++ F ++ R) 12 (by omega)
  obtain ⟨i1, i2, _⟩ := interleaveStage_spec interleaved0 (convStage (H ++ F ++ R) 12) 12 hL
    (by omega)
  apply ext_getD
  · rw [i1, c1, hd0, List.length_append, hH, hI]
  · intro j hj
    rw [i1, c1, hd0] at hj
    by_cases h12 : j < 12
    · rw [i2 j (by omega), c2 j (by omega),
        List.getD_append _ _ _ _ (by rw [List.length_append, hH, hF]; omega),
        List.getD_append _ _ _ _ (by omega),
        List.getD_append _ _ _ _ (by omega)]
    · rw [List.getD_append_right _ _ _ _ (by omega), hH]
      have e : 12 + (j - 12) = j := by omega
      have key := interleave_congr interleaved0 Z (convStage (H ++ F ++ R) 12)
        (F ++ convParityBytes F) 12 0 hL hz (by omega) (by omega) ?_ (j - 12) (by omega)
      · rw [e, Nat.zero_add] at key
        exact key
      · intro k hk
        rw [← convStage_frame F hF]
        apply conv_congr _ _ 12 0 (by omega) (by omega) _ k hk
        intro k' hk'
        rw [List.getD_append _ _ _ _ (by rw [List.length_append, hH, hF]; omega),
          List.getD_append_right _ _ _ _ (by omega), hH, Nat.zero_add,
          List.getD_append _ _ _ _ (by omega)]
        have : 12 + k' - 12 = k' := by omega
        rw [this]

theorem preModulation_head (interleaved0 buf : List Nat) (op arg unitId : Nat)
    (hL : interleaved0.length = 112) (hbuf : buf.length = 26) :
    (encodeBeforeModulation interleaved0 buf op arg unitId).1.length = 26 ∧
    (encodeBeforeModulation interleaved0 buf op arg unitId).1.take 12 =
      mdc1200Preamble ++ mdc1200Sync := by
  rw [encodeBefore_eq interleaved0 buf op arg unitId hbuf]
  dsimp only
  have hF : (codeFrame op arg unitId).length = 7 := rfl
  generalize codeFrame op arg unitId = F at hF
  have hH : (mdc1200Preamble ++ mdc1200Sync).length = 12 := rfl
  generalize mdc1200Preamble ++ mdc1200Sync = H at hH
  have hR : (buf.drop 19).length = 7 := by
    rw [List.length_drop, hbuf]
  generalize buf.drop 19 = R at hR
  have hd0 : (H ++ F ++ R).length = 26 := by
    rw [List.length_append, List.length_append, hH, hF, hR]
  obtain ⟨c1, c2, _⟩ := convStage_spec (H ++ F ++ R) 12 (by omega)
  obtain ⟨i1, i2, _⟩ := interleaveStage_spec interleaved0 (convStage (H ++ F ++ R) 12) 12 hL
    (by omega)
  refine ⟨by rw [i1, c1, hd0], ?_⟩
  apply take_eq_of_getD _ _ _ (by rw [i1, c1, hd0]; decide) hH
  intro j hj
  rw [i2 j (by omega), c2 j (by omega),
    List.getD_append _ _ _ _ (by rw [List.length_append, hH, hF]; omega),
    List.getD_append _ _ _ _ (by omega)]

theorem encodeSinglePacket_eq (interleaved0 buf : List Nat) (op arg unitId : Nat)
    (hL : interleaved0.length = 112) (hbuf : buf.length = 26) :
    mdc1200EncodeSinglePacket interleaved0 (some buf) op arg unitId =
      (some (differentialCode (encodeBeforeModulation interleaved0 buf op arg unitId).1), 26) := by
  have h2 : (encodeBeforeModulation interleaved0 buf op arg unitId).2 = 26 := rfl
  have h1 := (preModulation_head interleaved0 buf op arg unitId hL hbuf).1
  simp only [mdc1200EncodeSinglePacket, differentialCode, h1, h2]

set_option maxRecDepth 100000 in
theorem differentialCode_head :
    differentialCode (mdc1200Preamble ++ mdc1200Sync) =
      [0xFF, 0xFF, 0xFF, 0xFF, 0xFF, 0xFF, 0xFF, 0xFB, 0x72, 0x40, 0x99, 0xA7] := by
  decide

/-- C1: `mdc1200EncodeSinglePacket` returns 0 and has no buffer to write when the
pointer is null, and returns 26 = 7 + 5 + 2 * 7 = `MDC1200_PACKET_BYTES` for every
non-null buffer; no other value is returned. -/
theorem encodeSinglePacket_returns (interleaved0 : List Nat) (op arg unitId : Nat) :
    mdc1200EncodeSinglePacket interleaved0 none op arg unitId = (none, 0) ∧
    (∀ buf, (mdc1200EncodeSinglePacket interleaved0 (some buf) op arg unitId).2 = 26) ∧
    MDC1200_PREAMBLE_BYTES + MDC1200_SYNC_BYTES + 2 * MDC1200_FEC_K = 26 ∧
    MDC1200_PACKET_BYTES = 26 ∧
    (∀ data, (mdc1200EncodeSinglePacket interleaved0 data op arg unitId).2 = 0 ∨
      (mdc1200EncodeSinglePacket interleaved0 data op arg unitId).2 = 26) := by
  refine ⟨rfl, fun buf => rfl, rfl, rfl, fun data => ?_⟩
  cases data with
  | none => exact Or.inl rfl
  | some buf => exact Or.inr rfl

/-- C2 (as amended): for a buffer of 26 bytes, when the differential coder is about to
run bytes [0..6] hold the preamble and bytes [7..11] the sync pattern; when
`mdc1200EncodeSinglePacket` returns they hold the coded image of these twelve bytes:
bytes [0..6] are 0xFF and bytes [7..11] are 0xFB 0x72 0x40 0x99 0xA7. -/
theorem encodeSinglePacket_header (interleaved0 buf : List Nat) (op arg unitId : Nat)
    (hL : interleaved0.length = 112) (hbuf : buf.length = 26) :
    (encodeBeforeModulation interleaved0 buf op arg unitId).1.take 12 =
      mdc1200Preamble ++ mdc1200Sync ∧
    ∃ out, (mdc1200EncodeSinglePacket interleaved0 (some buf) op arg unitId).1 = some out ∧
      out.length = 26 ∧
      out.take 12 = differentialCode (mdc1200Preamble ++ mdc1200Sync) ∧
      out.take 7 = [0xFF, 0xFF, 0xFF, 0xFF, 0xFF, 0xFF, 0xFF] ∧
      (out.drop 7).take 5 = [0xFB, 0x72, 0x40, 0x99, 0xA7] := by
  obtain ⟨h1, h2⟩ := preModulation_head interleaved0 buf op arg unitId hL hbuf
  have h12 : (differentialCode (encodeBeforeModulation interleaved0 buf op arg unitId).1).take 12 =
      differentialCode (mdc1200Preamble ++ mdc1200Sync) := by
    unfold differentialCode
    rw [applyXor_take _ 12 (by omega), h2]
  refine ⟨h2, _, congrArg Prod.fst (encodeSinglePacket_eq interleaved0 buf op arg unitId hL hbuf),
    ?_, h12, ?_, ?_⟩
  · unfold differentialCode
    rw [applyXor_length, h1]
  · have : List.take 7 ((differentialCode
        (encodeBeforeModulation interleaved0 buf op arg unitId).1).take 12) =
        List.take 7 (differentialCode (mdc1200Preamble ++ mdc1200Sync)) := by rw [h12]
    rw [List.take_take, differentialCode_head] at this
    exact this
  · have : List.take 5 (List.drop 7 ((differentialCode
        (encodeBeforeModulation interleaved0 buf op arg unitId).1).take 12)) =
        List.take 5 (List.drop 7 (differentialCode (mdc1200Preamble ++ mdc1200Sync))) := by
      rw [h12]
    rw [List.drop_take, List.take_take, differentialCode_head] at this
    exact this

set_option maxRecDepth 100000 in
/-- Witness of C2 (as amended) at opcode 0x01, argument 0x00, unit id 0x1234. -/
theorem encodeSinglePacket_header_witness :
    (List.replicate 112 0).length = 112 ∧ (List.replicate 26 0).length = 26 ∧
    ∃ out, (mdc1200EncodeSinglePacket (List.replicate 112 0) (some (List.replicate 26 0))
        0x01 0x00 0x1234).1 = some out ∧
      out.length = 26 ∧
      out.take 12 = differentialCode (mdc1200Preamble ++ mdc1200Sync) ∧
      out.take 7 = [0xFF, 0xFF, 0xFF, 0xFF, 0xFF, 0xFF, 0xFF] ∧
      (out.drop 7).take 5 = [0xFB, 0x72, 0x40, 0x99, 0xA7] :=
  ⟨by decide, by decide,
    (encodeSinglePacket_header (List.replicate 112 0) (List.replicate 26 0) 0x01 0x00 0x1234
      (by decide) (by decide)).2⟩

set_option maxRecDepth 100000 in
/-- C2, counterexample: for opcode 0x01, argument 0x00, unit id 0x1234 and a zeroed
buffer, the returned buffer starts with seven bytes 0xFF and 0xFB 0x72 0x40 0x99 0xA7,
not with the preamble and the sync pattern. -/
theorem returned_header_is_coded :
    (mdc1200EncodeSinglePacket (List.replicate 112 0) (some (List.replicate 26 0))
        0x01 0x00 0x1234).1 =
      some [0xFF, 0xFF, 0xFF, 0xFF, 0xFF, 0xFF, 0xFF, 0xFB, 0x72, 0x40, 0x99, 0xA7, 0xB0, 0x3F,
        0xF5, 0xF4, 0x79, 0x2D, 0xCA, 0xC8, 0x7C, 0xEB, 0xED, 0x0F, 0xCF, 0x09] ∧
    ¬ (∃ out, (mdc1200EncodeSinglePacket (List.replicate 112 0) (some (List.replicate 26 0))
        0x01 0x00 0x1234).1 = some out ∧
      out.take 7 = mdc1200Preamble ∧ (out.drop 7).take 5 = mdc1200Sync) := by
  have h : (mdc1200EncodeSinglePacket (List.replicate 112 0) (some (List.replicate 26 0))
        0x01 0x00 0x1234).1 =
      some [0xFF, 0xFF, 0xFF, 0xFF, 0xFF, 0xFF, 0xFF, 0xFB, 0x72, 0x40, 0x99, 0xA7, 0xB0, 0x3F,
        0xF5, 0xF4, 0x79, 0x2D, 0xCA, 0xC8, 0x7C, 0xEB, 0xED, 0x0F, 0xCF, 0x09] := by
    decide
  refine ⟨h, ?_⟩
  rintro ⟨out, h1, h2, _⟩
  rw [h] at h1
  cases h1
  revert h2
  decide

/-- C3: for a buffer of 26 bytes with any prior content (and any prior content of the
scratch array), `mdc1200EncodeSinglePacket` returns 26 and leaves the buffer equal to
`D (preamble ++ sync ++ I (F ++ P F))` with `F = rawFrame op arg unitId`, that is
`[op, arg, unitId >> 8, unitId & 0xFF, crc & 0xFF, crc >> 8, 0x00]` where `crc` is
`mdc1200CRC16Xmodem` of the first four bytes; hence the result depends on
`(op, arg, unitId)` only. -/
theorem encodeSinglePacket_pipeline (interleaved0 buf : List Nat) (op arg unitId : Nat)
    (hL : interleaved0.length = 112) (hbuf : buf.length = 26) (hu : unitId < 65536) :
    mdc1200EncodeSinglePacket interleaved0 (some buf) op arg unitId =
      (some (differentialCode (mdc1200Preamble ++ mdc1200Sync ++
        interleave (rawFrame op arg unitId ++ convParityBytes (rawFrame op arg unitId)))), 26) ∧
    (∀ interleaved1 buf1 : List Nat, interleaved1.length = 112 → buf1.length = 26 →
      mdc1200EncodeSinglePacket interleaved1 (some buf1) op arg unitId =
        mdc1200EncodeSinglePacket interleaved0 (some buf) op arg unitId) := by
  have key : ∀ s b : List Nat, s.length = 112 → b.length = 26 →
      mdc1200EncodeSinglePacket s (some b) op arg unitId =
        (some (differentialCode (mdc1200Preamble ++ mdc1200Sync ++
          interleave (rawFrame op arg unitId ++ convParityBytes (rawFrame op arg unitId)))),
          26) := by
    intro s b hs hb
    rw [encodeSinglePacket_eq s b op arg unitId hs hb, preModulation_eq s b op arg unitId hs hb hu]
  refine ⟨key interleaved0 buf hL hbuf, fun s b hs hb => ?_⟩
  rw [key s b hs hb, key interleaved0 buf hL hbuf]

/-- Witness of C3 at opcode 0x01, argument 0x00, unit id 0x1234, a zeroed scratch
array and a buffer filled with 0x63. -/
theorem encodeSinglePacket_pipeline_witness :
    (List.replicate 112 0).length = 112 ∧ (List.replicate 26 0x63).length = 26 ∧
    0x1234 < 65536 ∧
    mdc1200EncodeSinglePacket (List.replicate 112 0) (some (List.replicate 26 0x63))
        0x01 0x00 0x1234 =
      (some (differentialCode (mdc1200Preamble ++ mdc1200Sync ++
        interleave (rawFrame 0x01 0x00 0x1234 ++ convParityBytes (rawFrame 0x01 0x00 0x1234)))),
        26) :=
  ⟨by decide, by decide, by decide,
    (encodeSinglePacket_pipeline (List.replicate 112 0) (List.replicate 26 0x63) 0x01 0x00 0x1234
      (by decide) (by decide) (by decide)).1⟩

/-- C8: with the bits of a buffer counted from bit 7 down to bit 0 of each byte as
`x_0, x_1, ...` and `x_(-1) = 0`, `mdc1200ApplyXorModulation` over the whole buffer
gives the buffer of the same length whose `n`-th bit is `NOT (x_n XOR x_(n-1))` (the
previous bit is the previous input bit and crosses byte boundaries), every byte below
256; and `mdc1200EncodeSinglePacket` applies it to all 26 bytes of the buffer, which
then starts with the preamble and the sync pattern. -/
theorem applyXorModulation_bits (data interleaved0 buf : List Nat) (op arg unitId : Nat)
    (hL : interleaved0.length = 112) (hbuf : buf.length = 26) :
    (mdc1200ApplyXorModulation data data.length).length = data.length ∧
    (∀ j, j < data.length → (mdc1200ApplyXorModulation data data.length).getD j 0 < 256) ∧
    (∀ n, n < 8 * data.length →
      bitMSB (mdc1200ApplyXorModulation data data.length) n =
        !(xor (bitMSB data n) (if n = 0 then false else bitMSB data (n - 1)))) ∧
    (encodeBeforeModulation interleaved0 buf op arg unitId).1.length = 26 ∧
    (encodeBeforeModulation interleaved0 buf op arg unitId).1.take 12 =
      mdc1200Preamble ++ mdc1200Sync ∧
    mdc1200EncodeSinglePacket interleaved0 (some buf) op arg unitId =
      (some (mdc1200ApplyXorModulation (encodeBeforeModulation interleaved0 buf op arg unitId).1
        26), 26) := by
  obtain ⟨h1, h2⟩ := preModulation_head interleaved0 buf op arg unitId hL hbuf
  refine ⟨applyXor_length data, applyXor_lt data, applyXor_bitMSB data, h1, h2, ?_⟩
  rw [encodeSinglePacket_eq interleaved0 buf op arg unitId hL hbuf]
  unfold differentialCode
  rw [h1]

/-- Witness of C8 at the buffer 0x07 0x09 0x2A and an encoder call with opcode 0x01,
argument 0x00, unit id 0x1234. -/
theorem applyXorModulation_bits_witness :
    (List.replicate 112 0).length = 112 ∧ (List.replicate 26 0).length = 26 ∧
    (∀ n, n < 8 * [0x07, 0x09, 0x2A].length →
      bitMSB (mdc1200ApplyXorModulation [0x07, 0x09, 0x2A] [0x07, 0x09, 0x2A].length) n =
        !(xor (bitMSB [0x07, 0x09, 0x2A] n)
          (if n = 0 then false else bitMSB [0x07, 0x09, 0x2A] (n - 1)))) :=
  ⟨by decide, by decide,
    (applyXorModulation_bits [0x07, 0x09, 0x2A] (List.replicate 112 0) (List.replicate 26 0)
      0x01 0x00 0x1234 (by decide) (by decide)).2.2.1⟩

/-! ### The CRC -/

theorem two_mul_xor (a b : Nat) : 2 * (a ^^^ b) = 2 * a ^^^ 2 * b := by
  have h : ∀ x : Nat, 2 * x = x <<< 1 := fun x => by
    rw [Nat.shiftLeft_eq]
    omega
  rw [h, h a, h b]
  apply Nat.eq_of_testBit_eq
  intro j
  simp only [Nat.testBit_shiftLeft, Nat.testBit_xor]
  cases decide (j ≥ 1) <;> simp

theorem polyMul_add (p q : List Bool) (g : Nat) :
    polyMul (polyAdd p q) g = polyMul p g ^^^ polyMul q g := by
  induction p generalizing q with
  | nil => simp [polyAdd, polyMul]
  | cons a p ih =>
    cases q with
    | nil => simp [polyAdd, polyMul]
    | cons b q =>
      simp only [polyAdd, polyMul, ih q, two_mul_xor]
      apply Nat.eq_of_testBit_eq
      intro j
      cases a <;> cases b <;> simp only [Nat.testBit_xor, Bool.xor_false, Bool.xor_true,
        Bool.not_false, Bool.not_true, if_true, if_false, Nat.zero_testBit, Bool.false_xor,
        Bool.false_eq_true] <;>
        cases g.testBit j <;> cases (2 * polyMul p g).testBit j <;>
        cases (2 * polyMul q g).testBit j <;> rfl

theorem testBit_two_mul (x j : Nat) : (2 * x).testBit j = (decide (j ≥ 1) && x.testBit (j - 1)) := by
  have h : 2 * x = x <<< 1 := by
    rw [Nat.shiftLeft_eq]
    omega
  rw [h, Nat.testBit_shiftLeft]

theorem testBit_crcPoly_high (j : Nat) (hj : 17 ≤ j) : crcPoly.testBit j = false := by
  apply Nat.testBit_lt_two_pow
  calc crcPoly < 2 ^ 17 := by decide
    _ ≤ 2 ^ j := Nat.pow_le_pow_right (by decide) hj

theorem testBit_of_lt_two_pow (x k j : Nat) (hx : x < 2 ^ k) (hj : k ≤ j) :
    x.testBit j = false := by
  apply Nat.testBit_lt_two_pow
  exact Nat.lt_of_lt_of_le hx (Nat.pow_le_pow_right (by decide) hj)

/-- A product by the generator that has degree below 16 is zero. -/
theorem polyMul_small (q : List Bool) (h : polyMul q crcPoly < 2 ^ 16) :
    polyMul q crcPoly = 0 := by
  induction q with
  | nil => rfl
  | cons t q ih =>
    simp only [polyMul] at h ⊢
    by_cases hP : polyMul q crcPoly < 2 ^ 16
    · rw [ih hP] at h ⊢
      cases t with
      | false => rfl
      | true =>
        exfalso
        revert h
        decide
    · exfalso
      have hge : 2 ^ 16 ≤ polyMul q crcPoly := by omega
      obtain ⟨j, hj1, hj2⟩ := Nat.ge_two_pow_implies_high_bit_true hge
      have hb : ((if t then crcPoly else 0) ^^^ 2 * polyMul q crcPoly).testBit (j + 1) = true := by
        rw [Nat.testBit_xor, testBit_two_mul]
        have : (if t then crcPoly else 0).testBit (j + 1) = false := by
          cases t with
          | false => simp
          | true => exact testBit_crcPoly_high _ (by omega)
        simp [this, hj2]
      have := testBit_of_lt_two_pow _ 16 (j + 1) h (by omega)
      rw [this] at hb
      exact Bool.noConfusion hb

theorem xor_lt_two_pow (a b k : Nat) (ha : a < 2 ^ k) (hb : b < 2 ^ k) : a ^^^ b < 2 ^ k := by
  apply Nat.lt_pow_two_of_testBit
  intro i hi
  rw [Nat.testBit_xor, testBit_of_lt_two_pow a k i ha hi, testBit_of_lt_two_pow b k i hb hi]
  rfl

/-- The remainder of a division by the generator is unique. -/
theorem remainder_unique (q q' : List Bool) (r r' : Nat) (hr : r < 2 ^ 16) (hr' : r' < 2 ^ 16)
    (h : polyMul q crcPoly ^^^ r = polyMul q' crcPoly ^^^ r') : r = r' := by
  have h1 : polyMul (polyAdd q q') crcPoly = r ^^^ r' := by
    rw [polyMul_add]
    have e : polyMul q crcPoly = (polyMul q' crcPoly ^^^ r') ^^^ r := by
      rw [← h, Nat.xor_cancel_right]
    rw [e]
    apply Nat.eq_of_testBit_eq
    intro j
    simp only [Nat.testBit_xor]
    cases (polyMul q' crcPoly).testBit j <;> cases r.testBit j <;> cases r'.testBit j <;> rfl
  have h2 := polyMul_small (polyAdd q q') (by rw [h1]; exact xor_lt_two_pow r r' 16 hr hr')
  rw [h1] at h2
  have : (r ^^^ r') ^^^ r' = 0 ^^^ r' := by rw [h2]
  rw [Nat.xor_cancel_right, Nat.zero_xor] at this
  exact this

theorem and_8000_ne_zero (c : Nat) : (c &&& 0x8000 ≠ 0) ↔ c.testBit 15 = true := by
  have h : (0x8000 : Nat) = 2 ^ 15 := by decide
  rw [h]
  constructor
  · intro hne
    by_contra hb
    apply hne
    apply Nat.eq_of_testBit_eq
    intro j
    rw [Nat.testBit_and, Nat.testBit_two_pow, Nat.zero_testBit]
    by_cases hj : 15 = j
    · subst hj
      simp [hb]
    · simp [hj]
  · intro hb hz
    have := congrArg (fun y => Nat.testBit y 15) hz
    simp only [Nat.testBit_and, Nat.testBit_two_pow, hb, Nat.zero_testBit] at this
    simp at this

theorem testBit_low_poly (j : Nat) (hj : j < 16) :
    Nat.testBit 0x1021 j = crcPoly.testBit j := by
  have h : (0x1021 : Nat) = crcPoly % 2 ^ 16 := by decide
  rw [h, Nat.testBit_mod_two_pow]
  simp [hj]

/-- One shift of the CRC register multiplies by `x` modulo the generator. -/
theorem crc16Bit_spec (c bit : Nat) (hc : c < 65536) :
    crc16Bit c bit ^^^ (if c.testBit 15 = true then crcPoly else 0) = 2 * c := by
  have h2 : c <<< 1 = 2 * c := by
    rw [Nat.shiftLeft_eq]
    omega
  unfold crc16Bit
  by_cases hb : c.testBit 15 = true
  · rw [if_pos ((and_8000_ne_zero c).2 hb), if_pos hb, h2]
    apply Nat.eq_of_testBit_eq
    intro j
    have h65 : (65536 : Nat) = 2 ^ 16 := by decide
    rw [Nat.testBit_xor, h65, Nat.testBit_mod_two_pow, Nat.testBit_xor]
    by_cases h16 : j < 16
    · rw [testBit_low_poly j h16]
      simp only [h16, decide_True, Bool.true_and]
      cases (2 * c).testBit j <;> cases crcPoly.testBit j <;> rfl
    · by_cases h17 : j = 16
      · subst h17
        have e1 : crcPoly.testBit 16 = true := by decide
        have e2 : (2 * c).testBit 16 = true := by
          rw [testBit_two_mul]
          simpa using hb
        rw [e1, e2]
        rfl
      · have e1 : crcPoly.testBit j = false := testBit_crcPoly_high j (by omega)
        have e2 : (2 * c).testBit j = false := by
          rw [testBit_two_mul, testBit_of_lt_two_pow c 16 (j - 1) (by omega) (by omega)]
          simp
        rw [e1, e2]
        simp [h16]
  · have hlt : c < 2 ^ 15 := by
      apply Nat.lt_pow_two_of_testBit
      intro i hi
      by_cases h15 : i = 15
      · subst h15
        simpa using hb
      · exact testBit_of_lt_two_pow c 16 i (by omega) (by omega)
    have hnz : ¬ (c &&& 0x8000 ≠ 0) := fun h => hb ((and_8000_ne_zero c).1 h)
    rw [if_neg hnz, if_neg hb, h2, Nat.xor_zero]
    have : 2 * c < 65536 := by
      have : (2 : Nat) ^ 15 = 32768 := by decide
      omega
    exact Nat.mod_eq_of_lt this

theorem crcInv_bit (c V bit : Nat) (h : CrcInv c V) : CrcInv (crc16Bit c bit) (2 * V) := by
  obtain ⟨hc, q, hq⟩ := h
  refine ⟨crc16Bit_lt c bit, c.testBit 15 :: q, ?_⟩
  have hs := crc16Bit_spec c bit hc
  rw [← hq, two_mul_xor, ← hs]
  simp only [polyMul]
  apply Nat.eq_of_testBit_eq
  intro j
  simp only [Nat.testBit_xor]
  cases (if c.testBit 15 = true then crcPoly else 0).testBit j <;>
    cases (2 * polyMul q crcPoly).testBit j <;> cases (crc16Bit c bit).testBit j <;> rfl

theorem mul_add_eq_xor (a x k : Nat) (hx : x < 2 ^ k) : 2 ^ k * a + x = 2 ^ k * a ^^^ x := by
  apply Nat.eq_of_testBit_eq
  intro j
  rw [Nat.testBit_xor, Nat.testBit_mul_pow_two_add a hx, Nat.testBit_mul_pow_two]
  by_cases hj : j < k
  · have : ¬ j ≥ k := by omega
    simp [hj, this]
  · have hge : j ≥ k := by omega
    simp [hj, hge, testBit_of_lt_two_pow x k j hx hge]

theorem crcInv_byte (data : List Nat) (crc M i : Nat) (hb : data.getD i 0 < 256)
    (h : CrcInv crc (M * 65536)) :
    CrcInv (crc16Byte data crc i) ((M * 256 + data.getD i 0) * 65536) := by
  obtain ⟨hc, q, hq⟩ := h
  have hr8 : List.range 8 = [0, 1, 2, 3, 4, 5, 6, 7] := by decide
  have hs : (data.getD i 0 % 65536) <<< 8 = data.getD i 0 * 256 := by
    rw [Nat.shiftLeft_eq, Nat.mod_eq_of_lt (by omega)]
  have hx : crc ^^^ data.getD i 0 * 256 < 65536 :=
    xor_lt_two_pow _ _ 16 hc (by
      have : (2 : Nat) ^ 16 = 65536 := by decide
      omega)
  have h0 : CrcInv ((crc ^^^ (data.getD i 0 % 65536) <<< 8) % 65536)
      (M * 65536 + data.getD i 0 * 256) := by
    rw [hs, Nat.mod_eq_of_lt hx]
    refine ⟨hx, q, ?_⟩
    have e : M * 65536 + data.getD i 0 * 256 = 2 ^ 16 * M ^^^ data.getD i 0 * 256 := by
      rw [← mul_add_eq_xor M _ 16 (by
        have : (2 : Nat) ^ 16 = 65536 := by decide
        omega)]
      have : (2 : Nat) ^ 16 = 65536 := by decide
      omega
    have e2 : M * 65536 = 2 ^ 16 * M := by
      have : (2 : Nat) ^ 16 = 65536 := by decide
      omega
    rw [e, ← e2, ← hq, Nat.xor_assoc]
  simp only [crc16Byte, hr8, List.foldl]
  have h8 := crcInv_bit _ _ 7 (crcInv_bit _ _ 6 (crcInv_bit _ _ 5 (crcInv_bit _ _ 4
    (crcInv_bit _ _ 3 (crcInv_bit _ _ 2 (crcInv_bit _ _ 1 (crcInv_bit _ _ 0 h0)))))))
  have e : 2 * (2 * (2 * (2 * (2 * (2 * (2 * (2 * (M * 65536 + data.getD i 0 * 256)))))))) =
      (M * 256 + data.getD i 0) * 65536 := by omega
  rw [e] at h8
  exact h8

theorem messagePoly_take_succ (data : List Nat) (n : Nat) (hn : n < data.length) :
    messagePoly (data.take (n + 1)) = messagePoly (data.take n) * 256 + data.getD n 0 := by
  unfold messagePoly
  rw [List.take_succ, List.foldl_append, List.getElem?_eq_getElem hn]
  simp [List.getD_eq_getElem?_getD, List.getElem?_eq_getElem hn]

theorem crcInv_loop (data : List Nat) (hb : ∀ i, i < data.length → data.getD i 0 < 256)
    (n : Nat) (hn : n ≤ data.length) :
    CrcInv ((List.range n).foldl (crc16Byte data) 0) (messagePoly (data.take n) * 65536) := by
  induction n with
  | zero =>
    have h0 : (List.range 0).foldl (crc16Byte data) 0 = 0 := rfl
    rw [h0]
    exact ⟨by omega, [], by simp [polyMul, messagePoly]⟩
  | succ n ih =>
    rw [foldl_range_succ, messagePoly_take_succ data n (by omega)]
    exact crcInv_byte data _ _ n (hb n (by omega)) (ih (by omega))

set_option maxRecDepth 100000 in
theorem crc_golden :
    mdc1200CRC16Xmodem [0x01, 0x00, 0x12, 0x34] 4 = 0x6572 ∧
    mdc1200CRC16Xmodem [0x31, 0x32, 0x33, 0x34, 0x35, 0x36, 0x37, 0x38, 0x39] 9 = 0x31C3 := by
  decide

/-- C4: on a sequence of bytes `mdc1200CRC16Xmodem` returns the remainder of
`data(x) * x^16` modulo `x^16 + x^12 + x^5 + 1` over GF(2) (initial value 0, the
highest bit of each byte first, no reflection, no final XOR): the result has degree
below 16, differs from `data(x) * x^16` by a multiple of the generator, and is the only
such value; every register value is below `2^16`. For the bytes 0x01 0x00 0x12 0x34 it
is 0x6572, and for the ASCII digits "123456789" it is 0x31C3, the check value of
CRC-16/XMODEM. -/
theorem crc16Xmodem_is_remainder (data : List Nat)
    (hb : ∀ i, i < data.length → data.getD i 0 < 256) :
    mdc1200CRC16Xmodem data data.length < 2 ^ 16 ∧
    (∃ q, polyMul q crcPoly ^^^ mdc1200CRC16Xmodem data data.length =
      messagePoly data * 2 ^ 16) ∧
    (∀ q r, r < 2 ^ 16 → polyMul q crcPoly ^^^ r = messagePoly data * 2 ^ 16 →
      r = mdc1200CRC16Xmodem data data.length) ∧
    crcPoly = 2 ^ 16 + 2 ^ 12 + 2 ^ 5 + 1 ∧
    (∀ crc bit, crc16Bit crc bit < 2 ^ 16) ∧
    mdc1200CRC16Xmodem [0x01, 0x00, 0x12, 0x34] 4 = 0x6572 ∧
    mdc1200CRC16Xmodem [0x31, 0x32, 0x33, 0x34, 0x35, 0x36, 0x37, 0x38, 0x39] 9 = 0x31C3 := by
  have h : CrcInv (mdc1200CRC16Xmodem data data.length)
      (messagePoly (data.take data.length) * 65536) :=
    crcInv_loop data hb data.length (Nat.le_refl _)
  rw [List.take_length] at h
  have e : (2 : Nat) ^ 16 = 65536 := by decide
  obtain ⟨h1, q, hq⟩ := h
  rw [e]
  refine ⟨h1, ⟨q, hq⟩, fun q' r hr hq' => ?_, by decide, crc16Bit_lt, crc_golden.1, crc_golden.2⟩
  exact remainder_unique q' q r _ (by omega) (by omega) (hq'.trans hq.symm)

/-- Witness of C4 at the bytes 0x01 0x00 0x12 0x34. -/
theorem crc16Xmodem_is_remainder_witness :
    (∀ i, i < [0x01, 0x00, 0x12, 0x34].length → [0x01, 0x00, 0x12, 0x34].getD i 0 < 256) ∧
    ∃ q, polyMul q crcPoly ^^^
        mdc1200CRC16Xmodem [0x01, 0x00, 0x12, 0x34] [0x01, 0x00, 0x12, 0x34].length =
      messagePoly [0x01, 0x00, 0x12, 0x34] * 2 ^ 16 :=
  ⟨by decide, (crc16Xmodem_is_remainder [0x01, 0x00, 0x12, 0x34] (by decide)).2.1⟩

/-! ### The busy-waits -/

theorem busyWait_of_reading (pit : Nat → Nat) (target : Nat) (j : Nat) :
    ∀ fuel k, j < fuel → waitCondition (pit (k + j) % 2 ^ 32) target = false →
      ∃ now reads, busyWait pit target fuel k = Except.ok (now, reads) ∧
        waitCondition now target = false := by
  induction j with
  | zero =>
    intro fuel k hf h
    cases fuel with
    | zero => omega
    | succ f =>
      rw [Nat.add_zero] at h
      exact ⟨pit k % 2 ^ 32, k + 1, by rw [busyWait, h]; rfl, h⟩
  | succ j ih =>
    intro fuel k hf h
    cases fuel with
    | zero => omega
    | succ f =>
      by_cases hc : waitCondition (pit k % 2 ^ 32) target = true
      · have e : k + (j + 1) = k + 1 + j := by omega
        rw [e] at h
        obtain ⟨now, reads, h1, h2⟩ := ih f (k + 1) (by omega) h
        exact ⟨now, reads, by rw [busyWait, hc, if_pos rfl, h1], h2⟩
      · have hc' : waitCondition (pit k % 2 ^ 32) target = false := by
          simpa using hc
        exact ⟨pit k % 2 ^ 32, k + 1, by rw [busyWait, hc']; rfl, hc'⟩

theorem busyWait_ok (pit : Nat → Nat) (fuel : Nat) (h : WaitsFinish pit fuel)
    (target k : Nat) :
    ∃ now reads, busyWait pit target fuel k = Except.ok (now, reads) ∧
      waitCondition now target = false := by
  obtain ⟨j, hj, hw⟩ := h k target
  exact busyWait_of_reading pit target j fuel k hj hw

theorem waitCondition_self (t : Nat) : waitCondition (t % 2 ^ 32) t = false := by
  have h : sub32 (t % 2 ^ 32) t = 0 := by
    unfold sub32
    omega
  unfold waitCondition
  rw [h]
  decide

/-- A counter that advances by one tick per read lets every wait finish within `2^32`
polls. -/
theorem waitsFinish_unit_steps : WaitsFinish (fun k => k) (2 ^ 32) := by
  intro k target
  refine ⟨sub32 target k, ?_, ?_⟩
  · unfold sub32
    omega
  · have e : (k + sub32 target k) % 2 ^ 32 = target % 2 ^ 32 := by
      unfold sub32
      omega
    show waitCondition ((k + sub32 target k) % 2 ^ 32) target = false
    rw [e]
    exact waitCondition_self target

/-! ### The bit stream -/

theorem foldlM_range_succ {σ : Type} (f : σ → Nat → Except Fault σ) (s : σ) (n : Nat) :
    (List.range (n + 1)).foldlM f s = (List.range n).foldlM f s >>= fun s' => f s' n := by
  rw [List.range_succ, List.foldlM_append]
  simp

theorem getD_set_bool (l : List Bool) (i j : Nat) (a : Bool) :
    (l.set i a).getD j false = if i = j ∧ i < l.length then a else l.getD j false := by
  simp only [List.getD_eq_getElem?_getD, List.getElem?_set]
  by_cases h : i = j
  · subst h
    by_cases h2 : i < l.length
    · simp [h2]
    · simp [h2]
      rw [List.getElem?_eq_none (by omega)]
      rfl
  · simp [h]

theorem bit_ne_zero (x b : Nat) : decide (((x >>> b) &&& 1) ≠ 0) = x.testBit b := by
  rw [shr_and_one]
  cases x.testBit b <;> rfl

theorem fillBit_ok (byte : Nat) (bs : List Bool) (s bit : Nat) (h : s < 208) :
    fillBit byte (bs, s) bit = Except.ok (bs.set s (byte.testBit bit), s + 1) := by
  have h' : s < MDC1200_PACKET_BYTES * 8 := h
  simp only [fillBit, h', if_true, bit_ne_zero]

theorem writeRun_length (vs : List Bool) : ∀ (bs : List Bool) (s : Nat),
    (writeRun bs s vs).length = bs.length := by
  induction vs with
  | nil => intro bs s; rfl
  | cons v vs ih =>
    intro bs s
    rw [writeRun, ih, List.length_set]

theorem writeRun_getD (vs : List Bool) : ∀ (bs : List Bool) (s : Nat),
    s + vs.length ≤ bs.length → ∀ j, (writeRun bs s vs).getD j false =
      if s ≤ j ∧ j < s + vs.length then vs.getD (j - s) false else bs.getD j false := by
  induction vs with
  | nil =>
    intro bs s _ j
    have : ¬ (s ≤ j ∧ j < s + ([] : List Bool).length) := by
      simp only [List.length_nil]
      omega
    rw [if_neg this]
    rfl
  | cons v vs ih =>
    intro bs s h j
    simp only [List.length_cons] at h
    rw [writeRun, ih (bs.set s v) (s + 1) (by rw [List.length_set]; omega) j, getD_set_bool]
    simp only [List.length_cons]
    by_cases h0 : s = j
    · subst h0
      have c1 : ¬ (s + 1 ≤ s ∧ s < s + 1 + vs.length) := by omega
      have c2 : s = s ∧ s < bs.length := ⟨rfl, by omega⟩
      have c3 : s ≤ s ∧ s < s + (vs.length + 1) := by omega
      rw [if_neg c1, if_pos c2, if_pos c3, Nat.sub_self]
      rfl
    · have c2 : ¬ (s = j ∧ s < bs.length) := fun hh => h0 hh.1
      rw [if_neg c2]
      by_cases h1 : s + 1 ≤ j ∧ j < s + 1 + vs.length
      · have c3 : s ≤ j ∧ j < s + (vs.length + 1) := by omega
        have e : j - s = (j - (s + 1)) + 1 := by omega
        rw [if_pos h1, if_pos c3, e, List.getD_cons_succ]
      · have c3 : ¬ (s ≤ j ∧ j < s + (vs.length + 1)) := by omega
        rw [if_neg h1, if_neg c3]

theorem byteBits_getD (byte k : Nat) (hk : k < 8) :
    (byteBits byte).getD k false = byte.testBit (7 - k) := by
  interval_cases k <;> rfl

theorem fillByte_eq (packet : List Nat) (bs : List Bool) (s i : Nat) (h : s + 8 ≤ 208) :
    fillByte packet (bs, s) i =
      Except.ok (writeRun bs s (byteBits (packet.getD i 0)), s + 8) := by
  simp only [fillByte, downFrom7, List.foldlM_cons, List.foldlM_nil]
  rw [fillBit_ok _ _ _ _ (by omega)]
  simp only [bind, Except.bind]
  rw [fillBit_ok _ _ _ _ (by omega)]
  simp only [bind, Except.bind]
  rw [fillBit_ok _ _ _ _ (by omega)]
  simp only [bind, Except.bind]
  rw [fillBit_ok _ _ _ _ (by omega)]
  simp only [bind, Except.bind]
  rw [fillBit_ok _ _ _ _ (by omega)]
  simp only [bind, Except.bind]
  rw [fillBit_ok _ _ _ _ (by omega)]
  simp only [bind, Except.bind]
  rw [fillBit_ok _ _ _ _ (by omega)]
  simp only [bind, Except.bind]
  rw [fillBit_ok _ _ _ _ (by omega)]
  rfl

theorem fill_loop (packet : List Nat) (bs0 : List Bool) (hl : bs0.length = 208) (n : Nat)
    (hn : n ≤ 26) :
    ∃ bs, (List.range n).foldlM (fillByte packet) (bs0, 0) = Except.ok (bs, 8 * n) ∧
      bs.length = 208 ∧
      ∀ j, bs.getD j false = if j < 8 * n then bitMSB packet j else bs0.getD j false := by
  induction n with
  | zero =>
    refine ⟨bs0, rfl, hl, fun j => ?_⟩
    have : ¬ j < 8 * 0 := by omega
    rw [if_neg this]
  | succ n ih =>
    obtain ⟨bs, h1, h2, h3⟩ := ih (by omega)
    refine ⟨writeRun bs (8 * n) (byteBits (packet.getD n 0)), ?_, ?_, fun j => ?_⟩
    · rw [foldlM_range_succ, h1]
      show fillByte packet (bs, 8 * n) n = _
      rw [fillByte_eq packet bs (8 * n) n (by omega)]
      rfl
    · rw [writeRun_length, h2]
    · rw [writeRun_getD _ bs (8 * n) (by rw [h2]; show 8 * n + 8 ≤ 208; omega) j, h3 j]
      have hlen : (byteBits (packet.getD n 0)).length = 8 := rfl
      rw [hlen]
      by_cases hj : 8 * n ≤ j ∧ j < 8 * n + 8
      · have c : j < 8 * (n + 1) := by omega
        rw [if_pos hj, if_pos c, byteBits_getD _ _ (by omega)]
        unfold bitMSB
        have e1 : j / 8 = n := by omega
        have e2 : j - 8 * n = j % 8 := by omega
        rw [e1, e2]
      · rw [if_neg hj]
        by_cases hlt : j < 8 * n
        · have c : j < 8 * (n + 1) := by omega
          rw [if_pos hlt, if_pos c]
        · have c : ¬ j < 8 * (n + 1) := by omega
          rw [if_neg hlt, if_neg c]

theorem fillBitStream_ok (packet : List Nat) (bs0 : List Bool) (hl : bs0.length = 208)
    (n : Nat) (hn : n ≤ 26) :
    ∃ bs, fillBitStream packet n bs0 = Except.ok (bs, 8 * n) ∧ bs.length = 208 ∧
      ∀ j, bs.getD j false = if j < 8 * n then bitMSB packet j else bs0.getD j false :=
  fill_loop packet bs0 hl n hn

theorem boundaryTick_succ (t0 i : Nat) :
    (boundaryTick t0 i + mdc1200SymbolTicks.getD ((i + 1) % 3) 0) % 2 ^ 32 =
      boundaryTick t0 (i + 1) := by
  unfold boundaryTick
  have h3 : (i + 1) % 3 = 0 ∨ (i + 1) % 3 = 1 ∨ (i + 1) % 3 = 2 := by omega
  rcases h3 with h | h | h
  · rw [h]
    show ((t0 + 8 * (i + 1) + (i + 1) / 3) % 2 ^ 32 + 8) % 2 ^ 32 = _
    omega
  · rw [h]
    show ((t0 + 8 * (i + 1) + (i + 1) / 3) % 2 ^ 32 + 8) % 2 ^ 32 = _
    omega
  · rw [h]
    show ((t0 + 8 * (i + 1) + (i + 1) / 3) % 2 ^ 32 + 9) % 2 ^ 32 = _
    omega

theorem loopSchedule_succ (bit : Nat → Bool) (N t0 n : Nat) :
    loopSchedule bit N t0 (n + 1) = loopSchedule bit N t0 n ++ symbolSchedule bit N t0 n := by
  unfold loopSchedule
  rw [List.range_succ, List.flatMap_append]
  simp [List.flatMap]

theorem waitsReached_append (a b : List Event) (ha : WaitsReached a) (hb : WaitsReached b) :
    WaitsReached (a ++ b) := by
  intro t n h
  rcases List.mem_append.1 h with h | h
  · exact ha t n h
  · exact hb t n h

theorem waitsReached_waited (t n : Nat) (h : waitCondition n t = false) :
    WaitsReached [Event.waited t n] := by
  intro t' n' hm
  simp only [List.mem_singleton] at hm
  cases hm
  exact h

theorem waitsReached_call (c : HwCall) : WaitsReached [Event.call c] := by
  intro t' n' hm
  simp only [List.mem_singleton] at hm
  cases hm

theorem waitsReached_nil : WaitsReached [] := by
  intro t n h
  cases h

theorem symbolStep_eq (pit : Nat → Nat) (fuel : Nat) (bs : List Bool) (N i : Nat)
    (st : LoopState) (now1 k1 now2 k2 : Nat)
    (hw1 : busyWait pit (sub32 st.nextSymbolTick mdc1200ToneWriteLeadTicks) fuel st.reads =
      Except.ok (now1, k1))
    (hw2 : busyWait pit st.nextSymbolTick fuel k1 = Except.ok (now2, k2)) :
    symbolStep pit fuel bs N st i = Except.ok (symbolStepResult bs N st i now1 now2 k2) := by
  simp only [symbolStep, hw1, hw2, bind, Except.bind, pure, Except.pure, symbolStepResult]

theorem symbolStep_ok (pit : Nat → Nat) (fuel : Nat) (hW : WaitsFinish pit fuel)
    (bs : List Bool) (N t0 i : Nat) (st : LoopState)
    (h1 : st.nextSymbolTick = boundaryTick t0 i) (h2 : st.currentBit = bs.getD i false)
    (h3 : WaitsReached st.trace) :
    ∃ st', symbolStep pit fuel bs N st i = Except.ok st' ∧
      st'.nextSymbolTick = boundaryTick t0 (if i + 1 < N then i + 1 else i) ∧
      st'.currentBit = bs.getD (if i + 1 < N then i + 1 else i) false ∧
      st'.trace.map eraseReading =
        st.trace.map eraseReading ++ symbolSchedule (fun n => bs.getD n false) N t0 i ∧
      WaitsReached st'.trace := by
  obtain ⟨now1, k1, hw1, hc1⟩ :=
    busyWait_ok pit fuel hW (sub32 st.nextSymbolTick mdc1200ToneWriteLeadTicks) st.reads
  obtain ⟨now2, k2, hw2, hc2⟩ := busyWait_ok pit fuel hW st.nextSymbolTick k1
  refine ⟨symbolStepResult bs N st i now1 now2 k2,
    symbolStep_eq pit fuel bs N i st now1 k1 now2 k2 hw1 hw2, ?_, ?_, ?_, ?_⟩
  · by_cases hn : i + 1 < N
    · simp only [symbolStepResult, hn, if_true, h1]
      exact boundaryTick_succ t0 i
    · simp only [symbolStepResult, hn, if_false, h1]
  · by_cases hn : i + 1 < N
    · simp only [symbolStepResult, hn, decide_True, Bool.true_and, if_true, h2]
      generalize bs.getD (i + 1) false = a
      generalize bs.getD i false = b
      cases a <;> cases b <;> simp
    · simp only [symbolStepResult, hn, decide_False, Bool.false_and, if_false, h2]
      simp
  · simp only [symbolStepResult, h1, h2, symbolSchedule, mdc1200ToneWriteLeadTicks]
    by_cases hn : i + 1 < N
    · simp only [hn, decide_True, Bool.true_and, true_and]
      generalize bs.getD (i + 1) false = a
      generalize bs.getD i false = b
      cases a <;> cases b <;> simp [eraseReading]
    · simp [hn, eraseReading]
  · have ha := waitsReached_append _ _ h3 (waitsReached_waited _ _ hc1)
    by_cases hs : (decide (i + 1 < N) && decide (bs.getD (i + 1) false ≠ st.currentBit)) = true
    · simp only [symbolStepResult, hs, if_true]
      exact waitsReached_append _ _ (waitsReached_append _ _ ha (waitsReached_call _))
        (waitsReached_waited _ _ hc2)
    · simp only [symbolStepResult, hs, if_false]
      exact waitsReached_append _ _ ha (waitsReached_waited _ _ hc2)

theorem symbolSchedule_congr (bit bit' : Nat → Bool) (N t0 i : Nat) (hi : i < N)
    (h : ∀ j, j < N → bit j = bit' j) :
    symbolSchedule bit N t0 i = symbolSchedule bit' N t0 i := by
  unfold symbolSchedule
  by_cases hn : i + 1 < N
  · rw [h (i + 1) hn, h i hi]
  · have c1 : ¬ (i + 1 < N ∧ bit (i + 1) ≠ bit i) := fun hh => hn hh.1
    have c2 : ¬ (i + 1 < N ∧ bit' (i + 1) ≠ bit' i) := fun hh => hn hh.1
    rw [if_neg c1, if_neg c2]

theorem loopSchedule_congr (bit bit' : Nat → Bool) (N t0 : Nat)
    (h : ∀ j, j < N → bit j = bit' j) (n : Nat) (hn : n ≤ N) :
    loopSchedule bit N t0 n = loopSchedule bit' N t0 n := by
  induction n with
  | zero => rfl
  | succ n ih =>
    rw [loopSchedule_succ, loopSchedule_succ, ih (by omega),
      symbolSchedule_congr bit bit' N t0 n (by omega) h]

theorem symbolLoop_ok (pit : Nat → Nat) (fuel : Nat) (hW : WaitsFinish pit fuel)
    (bs : List Bool) (N t0 : Nat) (hN : 1 ≤ N) (start : LoopState)
    (h1 : start.nextSymbolTick = boundaryTick t0 0) (h2 : start.currentBit = bs.getD 0 false)
    (h3 : start.trace = []) (n : Nat) (hn : n ≤ N) :
    ∃ st, (List.range n).foldlM (symbolStep pit fuel bs N) start = Except.ok st ∧
      st.nextSymbolTick = boundaryTick t0 (if n < N then n else N - 1) ∧
      st.currentBit = bs.getD (if n < N then n else N - 1) false ∧
      st.trace.map eraseReading = loopSchedule (fun j => bs.getD j false) N t0 n ∧
      WaitsReached st.trace := by
  induction n with
  | zero =>
    refine ⟨start, rfl, ?_, ?_, ?_, ?_⟩
    · rw [if_pos (by omega), h1]
    · rw [if_pos (by omega), h2]
    · rw [h3]
      rfl
    · rw [h3]
      exact waitsReached_nil
  | succ n ih =>
    obtain ⟨st, g0, g1, g2, g3, g4⟩ := ih (by omega)
    rw [if_pos (by omega)] at g1 g2
    obtain ⟨st', e0, e1, e2, e3, e4⟩ := symbolStep_ok pit fuel hW bs N t0 n st g1 g2 g4
    have hidx : (if n + 1 < N then n + 1 else n) = (if n + 1 < N then n + 1 else N - 1) := by
      by_cases hlt : n + 1 < N
      · rw [if_pos hlt, if_pos hlt]
      · rw [if_neg hlt, if_neg hlt]
        omega
    refine ⟨st', ?_, ?_, ?_, ?_, e4⟩
    · rw [foldlM_range_succ, g0]
      exact e0
    · rw [e1, hidx]
    · rw [e2, hidx]
    · rw [e3, g3, loopSchedule_succ]

theorem transmitTrace_erase (K : Constants) (radio : Radio) (b0 : Bool) (s0 now0 t0 : Nat)
    (loopTrace : List Event) :
    (transmitTrace K radio b0 s0 now0 t0 loopTrace).map eraseReading =
      armSchedule K b0 ++ [Event.sample s0, Event.waited ((s0 + 4) % 2 ^ 32) 0, Event.sample t0] ++
        loopTrace.map eraseReading ++ restoreSchedule K radio := by
  unfold transmitTrace armSchedule restoreSchedule mdc1200SetBitTone mdc1200ToneWriteLeadTicks
  cases h1 : radio.currentChannelData <;> cases h2 : radio.readReg0x58 <;>
    by_cases h3 : radio.getAudioAmpStatus &&& K.AUDIO_AMP_MODE_RF = 0 <;>
    simp [eraseReading, h3]

theorem transmitTrace_reached (K : Constants) (radio : Radio) (b0 : Bool) (s0 now0 t0 : Nat)
    (loopTrace : List Event)
    (h0 : waitCondition now0 ((s0 + mdc1200ToneWriteLeadTicks) % 2 ^ 32) = false)
    (hl : WaitsReached loopTrace) :
    WaitsReached (transmitTrace K radio b0 s0 now0 t0 loopTrace) := by
  intro t n hm
  unfold transmitTrace at hm
  simp only [List.mem_append, List.mem_cons, List.mem_singleton, List.not_mem_nil,
    or_false] at hm
  rcases hm with ((hm | hm) | hm) | hm
  · rcases hm with hm | hm | hm | hm | hm | hm <;> cases hm
  · rcases hm with hm | hm | hm
    · cases hm
    · cases hm
      exact h0
    · cases hm
  · exact hl t n hm
  · rcases hm with hm | hm
    · rcases hm with hm | hm | hm | hm
      · cases hm
      · cases hm
      · cases hm
      · revert hm
        cases radio.readReg0x58 <;> intro hm <;> cases hm
    · revert hm
      split
      · intro hm
        cases hm
      · intro hm
        simp only [List.mem_singleton] at hm
        cases hm

theorem transmitTrace_split (K : Constants) (radio : Radio) (b0 : Bool) (s0 now0 t0 : Nat)
    (loopTrace : List Event) :
    transmitTrace K radio b0 s0 now0 t0 loopTrace =
      (armSchedule K b0 ++
        [Event.sample s0, Event.waited ((s0 + 4) % 2 ^ 32) now0, Event.sample t0] ++
        loopTrace) ++ restoreSchedule K radio := by
  unfold transmitTrace armSchedule restoreSchedule mdc1200SetBitTone mdc1200ToneWriteLeadTicks
  cases h1 : radio.currentChannelData <;> cases h2 : radio.readReg0x58 <;>
    by_cases h3 : radio.getAudioAmpStatus &&& K.AUDIO_AMP_MODE_RF = 0 <;>
    simp [h3]

/-- A transmission whose checks pass and whose waits finish returns true; its trace is
`transmitTrace` over the events of the symbol loop, which follow the schedule of the
symbols. -/
theorem transmit_ok (K : Constants) (radio : Radio) (pit : Nat → Nat) (fuel : Nat)
    (bs0 : List Bool) (pkt : List Nat) (n : Nat)
    (hmode : radio.trxGetMode = K.RADIO_MODE_ANALOG)
    (hen : radio.trxTransmissionEnabled = true) (h1 : 1 ≤ n) (h26 : n ≤ 26)
    (hl : bs0.length = 208) (hW : WaitsFinish pit fuel) :
    ∃ bs now0 k loopTrace, mdc1200TransmitPacket K radio pit fuel bs0 (some pkt) n =
        Except.ok (true, bs, transmitTrace K radio (bitMSB pkt 0) (pit 0 % 2 ^ 32) now0
          (pit k % 2 ^ 32) loopTrace) ∧
      bs.length = 208 ∧
      (∀ j, bs.getD j false = if j < 8 * n then bitMSB pkt j else bs0.getD j false) ∧
      waitCondition now0 ((pit 0 % 2 ^ 32 + 4) % 2 ^ 32) = false ∧
      loopTrace.map eraseReading = loopSchedule (bitMSB pkt) (8 * n) (pit k % 2 ^ 32) (8 * n) ∧
      WaitsReached loopTrace := by
  obtain ⟨bs, hf, hbl, hbg⟩ := fillBitStream_ok pkt bs0 hl n h26
  obtain ⟨now0, k0, hw0, hc0⟩ := busyWait_ok pit fuel hW
    ((pit 0 % 2 ^ 32 + mdc1200ToneWriteLeadTicks) % 2 ^ 32) 1
  obtain ⟨st, g0, _, _, g3, g4⟩ := symbolLoop_ok pit fuel hW bs (8 * n) (pit k0 % 2 ^ 32)
    (by omega)
    { nextSymbolTick := (pit k0 % 2 ^ 32 + mdc1200SymbolTicks.getD 0 0) % 2 ^ 32,
      currentBit := bs.getD 0 false, reads := k0 + 1, trace := [] }
    (by
      show (pit k0 % 2 ^ 32 + 8) % 2 ^ 32 = boundaryTick (pit k0 % 2 ^ 32) 0
      unfold boundaryTick
      omega)
    rfl rfl (8 * n) (Nat.le_refl _)
  have hn0 : ¬ n = 0 := by omega
  have hpre : ¬ (radio.trxGetMode ≠ K.RADIO_MODE_ANALOG ∨
      radio.trxTransmissionEnabled = false) := by
    rw [hmode, hen]
    simp
  have htot : (n * 8) % 2 ^ 32 = 8 * n := by omega
  have hcap : ¬ (8 * n > MDC1200_PACKET_BYTES * 8) := by
    show ¬ (8 * n > 208)
    omega
  have hb0 : bs.getD 0 false = bitMSB pkt 0 := by
    rw [hbg 0, if_pos (by omega)]
  refine ⟨bs, now0, k0, st.trace, ?_, hbl, hbg, hc0, ?_, g4⟩
  · rw [← hb0]
    simp only [mdc1200TransmitPacket, hn0, hpre, htot, hcap, if_false, hf, hw0, bind,
      Except.bind, g0, pure, Except.pure, transmitTrace]
  · rw [g3, loopSchedule_congr (fun j => bs.getD j false) (bitMSB pkt) (8 * n) _ _ _
      (Nat.le_refl _)]
    intro j hj
    show bs.getD j false = bitMSB pkt j
    rw [hbg j, if_pos hj]

/-- The same with the readings of the waits erased: the trace follows
`transmitSchedule`, and every wait in it ended at a reading that had reached its tick. -/
theorem transmit_schedule (K : Constants) (radio : Radio) (pit : Nat → Nat) (fuel : Nat)
    (bs0 : List Bool) (pkt : List Nat) (n : Nat)
    (hmode : radio.trxGetMode = K.RADIO_MODE_ANALOG)
    (hen : radio.trxTransmissionEnabled = true) (h1 : 1 ≤ n) (h26 : n ≤ 26)
    (hl : bs0.length = 208) (hW : WaitsFinish pit fuel) :
    ∃ bs tr k, mdc1200TransmitPacket K radio pit fuel bs0 (some pkt) n =
        Except.ok (true, bs, tr) ∧
      tr.map eraseReading =
        transmitSchedule K radio (bitMSB pkt) (8 * n) (pit 0 % 2 ^ 32) (pit k % 2 ^ 32) ∧
      WaitsReached tr ∧
      ∃ pre, tr = pre ++ restoreSchedule K radio := by
  obtain ⟨bs, now0, k, lt, h0, _, _, hc, hs, hr⟩ :=
    transmit_ok K radio pit fuel bs0 pkt n hmode hen h1 h26 hl hW
  refine ⟨bs, _, k, h0, ?_, ?_, ?_⟩
  · rw [transmitTrace_erase, hs]
    rfl
  · exact transmitTrace_reached K radio _ _ _ _ _ hc hr
  · exact ⟨_, transmitTrace_split K radio _ _ _ _ _⟩

/-! ### Claims on the checks of the transmitter -/

theorem waitCondition_iff (c t : Nat) : waitCondition c t = true ↔ 2 ^ 31 ≤ sub32 c t := by
  have hlt : sub32 c t < 2 ^ 32 := Nat.mod_lt _ (by decide)
  unfold waitCondition toInt32
  rw [decide_eq_true_iff, Nat.mod_eq_of_lt hlt]
  split <;> omega

/-- C18: the wait condition `(int32_t)(PITCounter - target) < 0` is safe against the
wrap of the counter: for every start value `s`, with `target = (s + d) mod 2^32` and the
counter reading `(s + e) mod 2^32`, for a deadline offset `d ≤ 9` and an elapsed count
`e < 2^31`, the loop keeps waiting if and only if `e < d`; and this is the condition on
which `busyWait`, the model of every wait of `mdc1200TransmitPacket`, polls. -/
theorem waitCondition_wrap_safe (s d e : Nat) (hd : d ≤ 9) (he : e < 2 ^ 31) :
    (waitCondition ((s + e) % 2 ^ 32) ((s + d) % 2 ^ 32) = true ↔ e < d) ∧
    (∀ (pit : Nat → Nat) (target fuel k : Nat), busyWait pit target (fuel + 1) k =
      if waitCondition (pit k % 2 ^ 32) target = true then busyWait pit target fuel (k + 1)
      else Except.ok (pit k % 2 ^ 32, k + 1)) := by
  refine ⟨?_, fun pit target fuel k => by rw [busyWait]⟩
  rw [waitCondition_iff]
  unfold sub32
  constructor
  · intro h
    omega
  · intro h
    omega

/-- Witness of C18 at a start value five ticks before the wrap of the counter. -/
theorem waitCondition_wrap_safe_witness :
    9 ≤ 9 ∧ 7 < 2 ^ 31 ∧
    (waitCondition ((4294967291 + 7) % 2 ^ 32) ((4294967291 + 9) % 2 ^ 32) = true ↔ 7 < 9) :=
  ⟨by decide, by decide,
    (waitCondition_wrap_safe 4294967291 9 7 (by decide) (by decide)).1⟩

theorem transmit_rejects (K : Constants) (radio : Radio) (pit : Nat → Nat) (fuel : Nat)
    (bs0 : List Bool) (packet : Option (List Nat)) (packetSize : Nat)
    (h : packet = none ∨ packetSize = 0 ∨ radio.trxGetMode ≠ K.RADIO_MODE_ANALOG ∨
      radio.trxTransmissionEnabled = false) :
    mdc1200TransmitPacket K radio pit fuel bs0 packet packetSize =
      Except.ok (false, bs0, []) := by
  cases packet with
  | none => rfl
  | some pkt =>
    by_cases h0 : packetSize = 0
    · simp only [mdc1200TransmitPacket, h0, if_true]
      rfl
    · have hr : radio.trxGetMode ≠ K.RADIO_MODE_ANALOG ∨
          radio.trxTransmissionEnabled = false := by
        rcases h with h | h | h | h
        · cases h
        · exact absurd h h0
        · exact Or.inl h
        · exact Or.inr h
      simp only [mdc1200TransmitPacket, h0, if_false, hr, if_true]
      rfl

/-- C11: with a null packet, a packet size of 0, a radio mode other than
`RADIO_MODE_ANALOG` or `trxTransmissionEnabled` false, `mdc1200TransmitPacket` returns
false with an empty trace (no call that changes the hardware, no wait) and `bitStream`
untouched; and so does `mdc1200TransmitEOTPostId` when the radio mode is not analog or
transmission is not enabled. -/
theorem transmitPacket_precondition_rejects (K : Constants) (radio : Radio) (pit : Nat → Nat)
    (fuel : Nat) (bs0 : List Bool) (packet : Option (List Nat)) (packetSize : Nat)
    (interleaved0 packet0 : List Nat) (unitId : Nat)
    (h : packet = none ∨ packetSize = 0 ∨ radio.trxGetMode ≠ K.RADIO_MODE_ANALOG ∨
      radio.trxTransmissionEnabled = false) :
    mdc1200TransmitPacket K radio pit fuel bs0 packet packetSize =
      Except.ok (false, bs0, []) ∧
    (radio.trxGetMode ≠ K.RADIO_MODE_ANALOG ∨ radio.trxTransmissionEnabled = false →
      mdc1200TransmitEOTPostId K radio pit fuel interleaved0 packet0 bs0 unitId =
        Except.ok (false, bs0, [])) := by
  refine ⟨transmit_rejects K radio pit fuel bs0 packet packetSize h, fun hr => ?_⟩
  unfold mdc1200TransmitEOTPostId
  exact transmit_rejects K radio pit fuel bs0 _ _ (Or.inr (Or.inr hr))

/-- Witness of C11 at a radio in a mode other than analog (constants: analog mode 1). -/
theorem transmitPacket_precondition_rejects_witness :
    ((some [0xFF] : Option (List Nat)) = none ∨ 1 = 0 ∨
      (Radio.mk 0 true 0 none none).trxGetMode ≠ (Constants.mk 1 0xFFFF 2 1 0 3 4).RADIO_MODE_ANALOG ∨
      (Radio.mk 0 true 0 none none).trxTransmissionEnabled = false) ∧
    mdc1200TransmitPacket (Constants.mk 1 0xFFFF 2 1 0 3 4) (Radio.mk 0 true 0 none none)
        (fun k => k) 16 (List.replicate 208 false) (some [0xFF]) 1 =
      Except.ok (false, List.replicate 208 false, []) :=
  ⟨Or.inr (Or.inr (Or.inl (by decide))),
    (transmitPacket_precondition_rejects (Constants.mk 1 0xFFFF 2 1 0 3 4)
      (Radio.mk 0 true 0 none none) (fun k => k) 16 (List.replicate 208 false) (some [0xFF]) 1
      [] [] 0 (Or.inr (Or.inr (Or.inl (by decide))))).1⟩

/-! ### What a trace contains -/

theorem callOf_erase (e : Event) : callOf (eraseReading e) = callOf e := by
  cases e <;> rfl

theorem waitTargetOf_erase (e : Event) : waitTargetOf (eraseReading e) = waitTargetOf e := by
  cases e <;> rfl

theorem sampleOf_erase (e : Event) : sampleOf (eraseReading e) = sampleOf e := by
  cases e <;> rfl

theorem callsOf_erase (tr : List Event) : callsOf (tr.map eraseReading) = callsOf tr := by
  unfold callsOf
  rw [List.filterMap_map]
  congr 1
  funext e
  exact callOf_erase e

theorem waitTargetsOf_erase (tr : List Event) :
    waitTargetsOf (tr.map eraseReading) = waitTargetsOf tr := by
  unfold waitTargetsOf
  rw [List.filterMap_map]
  congr 1
  funext e
  exact waitTargetOf_erase e

theorem samplesOf_erase (tr : List Event) : samplesOf (tr.map eraseReading) = samplesOf tr := by
  unfold samplesOf
  rw [List.filterMap_map]
  congr 1
  funext e
  exact sampleOf_erase e

theorem callsOf_append (a b : List Event) : callsOf (a ++ b) = callsOf a ++ callsOf b :=
  List.filterMap_append a b callOf

theorem waitTargetsOf_append (a b : List Event) :
    waitTargetsOf (a ++ b) = waitTargetsOf a ++ waitTargetsOf b :=
  List.filterMap_append a b waitTargetOf

theorem samplesOf_append (a b : List Event) : samplesOf (a ++ b) = samplesOf a ++ samplesOf b :=
  List.filterMap_append a b sampleOf

theorem switchCalls_succ (bit : Nat → Bool) (N n : Nat) :
    switchCalls bit N (n + 1) = switchCalls bit N n ++
      (if n + 1 < N ∧ bit (n + 1) ≠ bit n then [mdc1200SetBitTone (bit (n + 1))] else []) := by
  unfold switchCalls
  rw [List.range_succ, List.flatMap_append]
  simp [List.flatMap]

theorem loopWaitTargets_succ (t0 n : Nat) :
    loopWaitTargets t0 (n + 1) = loopWaitTargets t0 n ++
      [sub32 (boundaryTick t0 n) 4, boundaryTick t0 n] := by
  unfold loopWaitTargets
  rw [List.range_succ, List.flatMap_append]
  simp [List.flatMap]

theorem callsOf_symbolSchedule (bit : Nat → Bool) (N t0 i : Nat) :
    callsOf (symbolSchedule bit N t0 i) =
      (if i + 1 < N ∧ bit (i + 1) ≠ bit i then [mdc1200SetBitTone (bit (i + 1))] else []) := by
  unfold symbolSchedule
  split <;> rfl

theorem waitTargetsOf_symbolSchedule (bit : Nat → Bool) (N t0 i : Nat) :
    waitTargetsOf (symbolSchedule bit N t0 i) =
      [sub32 (boundaryTick t0 i) 4, boundaryTick t0 i] := by
  unfold symbolSchedule
  split <;> rfl

theorem samplesOf_symbolSchedule (bit : Nat → Bool) (N t0 i : Nat) :
    samplesOf (symbolSchedule bit N t0 i) = [] := by
  unfold symbolSchedule
  split <;> rfl

theorem callsOf_loopSchedule (bit : Nat → Bool) (N t0 n : Nat) :
    callsOf (loopSchedule bit N t0 n) = switchCalls bit N n := by
  induction n with
  | zero => rfl
  | succ n ih =>
    rw [loopSchedule_succ, callsOf_append, ih, switchCalls_succ, callsOf_symbolSchedule]

theorem waitTargetsOf_loopSchedule (bit : Nat → Bool) (N t0 n : Nat) :
    waitTargetsOf (loopSchedule bit N t0 n) = loopWaitTargets t0 n := by
  induction n with
  | zero => rfl
  | succ n ih =>
    rw [loopSchedule_succ, waitTargetsOf_append, ih, loopWaitTargets_succ,
      waitTargetsOf_symbolSchedule]

theorem samplesOf_loopSchedule (bit : Nat → Bool) (N t0 n : Nat) :
    samplesOf (loopSchedule bit N t0 n) = [] := by
  induction n with
  | zero => rfl
  | succ n ih =>
    rw [loopSchedule_succ, samplesOf_append, ih, samplesOf_symbolSchedule]
    rfl

theorem waitTargetsOf_restore (K : Constants) (radio : Radio) :
    waitTargetsOf (restoreSchedule K radio) = [] := by
  unfold restoreSchedule
  split <;> rfl

theorem samplesOf_restore (K : Constants) (radio : Radio) :
    samplesOf (restoreSchedule K radio) = [] := by
  unfold restoreSchedule
  split <;> rfl

theorem filter_switchCalls (bit : Nat → Bool) (N n : Nat) :
    (switchCalls bit N n).filter isPinWrite = [] := by
  induction n with
  | zero => rfl
  | succ n ih =>
    rw [switchCalls_succ, List.filter_append, ih]
    split <;> rfl

theorem filter_restore (K : Constants) (radio : Radio) :
    (callsOf (restoreSchedule K radio)).filter isPinWrite = [] := by
  unfold restoreSchedule
  split <;> rfl

theorem pinAfter_append (port pin initial : Nat) (a b : List HwCall) :
    pinAfter port pin initial (a ++ b) = pinAfter port pin (pinAfter port pin initial a) b := by
  unfold pinAfter
  rw [List.foldl_append]

theorem pinAfter_no_write (port pin : Nat) (calls : List HwCall)
    (h : calls.filter isPinWrite = []) : ∀ initial, pinAfter port pin initial calls = initial := by
  induction calls with
  | nil => intro v; rfl
  | cons c cs ih =>
    intro v
    cases c with
    | GPIO_PinWrite p q x => simp [List.filter, isPinWrite] at h
    | trxSetTxCSS t =>
      have h' : cs.filter isPinWrite = [] := by simpa [List.filter, isPinWrite] using h
      exact ih h' v
    | AT1846SWriteReg2byte r a b =>
      have h' : cs.filter isPinWrite = [] := by simpa [List.filter, isPinWrite] using h
      exact ih h' v
    | trxSetTone1 f =>
      have h' : cs.filter isPinWrite = [] := by simpa [List.filter, isPinWrite] using h
      exact ih h' v
    | trxSelectVoiceChannel ch =>
      have h' : cs.filter isPinWrite = [] := by simpa [List.filter, isPinWrite] using h
      exact ih h' v
    | enableAudioAmp m =>
      have h' : cs.filter isPinWrite = [] := by simpa [List.filter, isPinWrite] using h
      exact ih h' v
    | disableAudioAmp m =>
      have h' : cs.filter isPinWrite = [] := by simpa [List.filter, isPinWrite] using h
      exact ih h' v

theorem callsOf_transmitSchedule (K : Constants) (radio : Radio) (bit : Nat → Bool)
    (N s0 t0 : Nat) :
    callsOf (transmitSchedule K radio bit N s0 t0) =
      callsOf (armSchedule K (bit 0)) ++ switchCalls bit N N ++
        callsOf (restoreSchedule K radio) := by
  unfold transmitSchedule
  rw [callsOf_append, callsOf_append, callsOf_append, callsOf_loopSchedule]
  rfl

theorem waitTargetsOf_transmitSchedule (K : Constants) (radio : Radio) (bit : Nat → Bool)
    (N s0 t0 : Nat) :
    waitTargetsOf (transmitSchedule K radio bit N s0 t0) =
      (s0 + 4) % 2 ^ 32 :: loopWaitTargets t0 N := by
  unfold transmitSchedule
  rw [waitTargetsOf_append, waitTargetsOf_append, waitTargetsOf_append,
    waitTargetsOf_loopSchedule, waitTargetsOf_restore]
  simp [waitTargetsOf, armSchedule, waitTargetOf]

theorem samplesOf_transmitSchedule (K : Constants) (radio : Radio) (bit : Nat → Bool)
    (N s0 t0 : Nat) :
    samplesOf (transmitSchedule K radio bit N s0 t0) = [s0, t0] := by
  unfold transmitSchedule
  rw [samplesOf_append, samplesOf_append, samplesOf_append, samplesOf_loopSchedule,
    samplesOf_restore]
  simp [samplesOf, armSchedule, sampleOf]

/-! ### Claims on a transmission that passes its checks -/

theorem boundary_step (t0 i : Nat) :
    sub32 (boundaryTick t0 (i + 1)) (boundaryTick t0 i) =
      mdc1200SymbolTicks.getD ((i + 1) % 3) 0 := by
  have h3 : (i + 1) % 3 = 0 ∨ (i + 1) % 3 = 1 ∨ (i + 1) % 3 = 2 := by omega
  unfold sub32 boundaryTick
  rcases h3 with h | h | h
  · rw [h]
    show _ = 8
    omega
  · rw [h]
    show _ = 8
    omega
  · rw [h]
    show _ = 9
    omega

theorem boundary_first (t0 : Nat) : sub32 (boundaryTick t0 0) t0 = 8 := by
  unfold sub32 boundaryTick
  omega

theorem boundary_three (t0 i : Nat) :
    sub32 (boundaryTick t0 (i + 3)) (boundaryTick t0 i) = 25 := by
  unfold sub32 boundaryTick
  omega

theorem boundary_total (t0 : Nat) : sub32 (boundaryTick t0 207) t0 = 1733 := by
  unfold sub32 boundaryTick
  omega

theorem tone_before_boundary (t0 i : Nat) :
    sub32 (boundaryTick t0 i) (sub32 (boundaryTick t0 i) 4) = 4 := by
  unfold sub32 boundaryTick
  omega

theorem tone_after_start (t0 : Nat) : sub32 (sub32 (boundaryTick t0 0) 4) t0 = 4 := by
  unfold sub32 boundaryTick
  omega

theorem tone_after_previous (t0 i : Nat) :
    sub32 (sub32 (boundaryTick t0 (i + 1)) 4) (boundaryTick t0 i) = 4 ∨
    sub32 (sub32 (boundaryTick t0 (i + 1)) 4) (boundaryTick t0 i) = 5 := by
  unfold sub32 boundaryTick
  omega

theorem loopSchedule_last (bit : Nat → Bool) (N t0 : Nat) (hN : 1 ≤ N) :
    (loopSchedule bit N t0 N).getLast? = some (Event.waited (boundaryTick t0 (N - 1)) 0) := by
  obtain ⟨m, rfl⟩ : ∃ m, N = m + 1 := ⟨N - 1, by omega⟩
  rw [loopSchedule_succ, Nat.add_sub_cancel]
  unfold symbolSchedule
  rw [← List.append_assoc, List.getLast?_concat]

/-- C13: on a call of `mdc1200TransmitPacket` that passes its checks (packet of 1 to 26
bytes, analog mode, transmission enabled) and whose waits finish, the trace is
`pre ++ restoreSchedule`: `pre` is the arming, the settle wait and the symbol loop, its
last event being the wait for the boundary of the last symbol, and the restore phase
is, in this order, tone 1 set to 0, the voice channel set to the microphone, TX CSS set
to `txTone` of the channel data read at the start (`CODEPLUG_CSS_NONE` without channel
data), register 0x58 written with the two bytes read at the start (0xBC, 0x05 if the
read failed), and `disableAudioAmp(AUDIO_AMP_MODE_RF)` if and only if the RF amplifier
bit was clear at the start. -/
theorem transmitPacket_restore_phase (K : Constants) (radio : Radio) (pit : Nat → Nat)
    (fuel : Nat) (bs0 : List Bool) (pkt : List Nat) (n : Nat)
    (hmode : radio.trxGetMode = K.RADIO_MODE_ANALOG)
    (hen : radio.trxTransmissionEnabled = true) (h1 : 1 ≤ n) (h26 : n ≤ 26)
    (hl : bs0.length = 208) (hW : WaitsFinish pit fuel) :
    ∃ bs pre k, mdc1200TransmitPacket K radio pit fuel bs0 (some pkt) n =
        Except.ok (true, bs, pre ++ restoreSchedule K radio) ∧
      pre.map eraseReading = armSchedule K (bitMSB pkt 0) ++
        [Event.sample (pit 0 % 2 ^ 32), Event.waited ((pit 0 % 2 ^ 32 + 4) % 2 ^ 32) 0,
          Event.sample (pit k % 2 ^ 32)] ++
        loopSchedule (bitMSB pkt) (8 * n) (pit k % 2 ^ 32) (8 * n) ∧
      (pre.map eraseReading).getLast? =
        some (Event.waited (boundaryTick (pit k % 2 ^ 32) (8 * n - 1)) 0) ∧
      restoreSchedule K radio =
        [Event.call (HwCall.trxSetTone1 0),
          Event.call (HwCall.trxSelectVoiceChannel K.AT1846_VOICE_CHANNEL_MIC),
          Event.call (HwCall.trxSetTxCSS (radio.currentChannelData.getD K.CODEPLUG_CSS_NONE)),
          Event.call (HwCall.AT1846SWriteReg2byte 0x58 (radio.readReg0x58.getD (0xBC, 0x05)).1
            (radio.readReg0x58.getD (0xBC, 0x05)).2)] ++
        (if radio.getAudioAmpStatus &&& K.AUDIO_AMP_MODE_RF = 0 then
          [Event.call (HwCall.disableAudioAmp K.AUDIO_AMP_MODE_RF)] else []) := by
  obtain ⟨bs, now0, k, lt, h0, _, _, _, hs, _⟩ :=
    transmit_ok K radio pit fuel bs0 pkt n hmode hen h1 h26 hl hW
  rw [transmitTrace_split] at h0
  have hpre : (armSchedule K (bitMSB pkt 0) ++
      [Event.sample (pit 0 % 2 ^ 32), Event.waited ((pit 0 % 2 ^ 32 + 4) % 2 ^ 32) now0,
        Event.sample (pit k % 2 ^ 32)] ++ lt).map eraseReading =
      armSchedule K (bitMSB pkt 0) ++
        [Event.sample (pit 0 % 2 ^ 32), Event.waited ((pit 0 % 2 ^ 32 + 4) % 2 ^ 32) 0,
          Event.sample (pit k % 2 ^ 32)] ++
        loopSchedule (bitMSB pkt) (8 * n) (pit k % 2 ^ 32) (8 * n) := by
    rw [List.map_append, hs]
    rfl
  refine ⟨bs, _, k, h0, hpre, ?_, rfl⟩
  rw [hpre, List.getLast?_append, loopSchedule_last _ _ _ (by omega)]
  rfl

/-- Witness of C13 at a packet of one byte and a counter that advances by one tick per
read. -/
theorem transmitPacket_restore_phase_witness :
    exampleRadio.trxGetMode = exampleConstants.RADIO_MODE_ANALOG ∧
    exampleRadio.trxTransmissionEnabled = true ∧ 1 ≤ 1 ∧ 1 ≤ 26 ∧
    (List.replicate 208 false).length = 208 ∧ WaitsFinish (fun k => k) (2 ^ 32) ∧
    ∃ bs pre, mdc1200TransmitPacket exampleConstants exampleRadio (fun k => k) (2 ^ 32)
        (List.replicate 208 false) (some [0xA5]) 1 =
      Except.ok (true, bs, pre ++ restoreSchedule exampleConstants exampleRadio) :=
  ⟨rfl, rfl, by decide, by decide, List.length_replicate 208 false, waitsFinish_unit_steps,
    (transmitPacket_restore_phase exampleConstants exampleRadio (fun k => k) (2 ^ 32)
      (List.replicate 208 false) [0xA5] 1 rfl rfl (by decide) (by decide)
      (List.length_replicate 208 false) waitsFinish_unit_steps).elim
      (fun bs h => h.elim (fun pre h2 => h2.elim (fun _ h3 => ⟨bs, pre, h3.1⟩)))⟩

/-! ### The readings at which the waits end when the counter advances slowly -/

theorem busyWait_within (pit : Nat → Nat) (c : Nat) (hc : c ≤ 4) (hstep : StepsAtMost pit c)
    (target : Nat) (ht : target < 2 ^ 32) :
    ∀ fuel k d now reads, 1 ≤ d → d ≤ 9 → target = (pit k + d) % 2 ^ 32 →
      busyWait pit target fuel (k + 1) = Except.ok (now, reads) →
      ∃ r, reads = r + 1 ∧ now = pit r % 2 ^ 32 ∧ sub32 now target + 1 ≤ c := by
  intro fuel
  induction fuel with
  | zero =>
    intro k d now reads _ _ _ h
    rw [busyWait] at h
    cases h
  | succ f ih =>
    intro k d now reads hd1 hd9 htg h
    rw [busyWait] at h
    have hs := hstep k
    by_cases hw : waitCondition (pit (k + 1) % 2 ^ 32) target = true
    · rw [if_pos hw] at h
      have hw2 := (waitCondition_iff _ _).1 hw
      refine ih (k + 1) (d - sub32 (pit (k + 1)) (pit k)) now reads ?_ ?_ ?_ h
      · unfold sub32 at hs hw2 ⊢
        omega
      · omega
      · unfold sub32 at hs hw2 ⊢
        omega
    · rw [if_neg hw] at h
      have hw2 : ¬ 2 ^ 31 ≤ sub32 (pit (k + 1) % 2 ^ 32) target :=
        fun hh => hw ((waitCondition_iff _ _).2 hh)
      have e := Except.ok.inj h
      have e1 : pit (k + 1) % 2 ^ 32 = now := congrArg Prod.fst e
      have e2 : k + 1 + 1 = reads := congrArg Prod.snd e
      refine ⟨k + 1, e2.symm, e1.symm, ?_⟩
      rw [← e1]
      unfold sub32 at hs hw2 ⊢
      omega

theorem waitsWithin_append (c : Nat) (a b : List Event) (ha : WaitsWithin c a)
    (hb : WaitsWithin c b) : WaitsWithin c (a ++ b) := by
  intro t n h
  rcases List.mem_append.1 h with h | h
  · exact ha t n h
  · exact hb t n h

theorem waitsWithin_waited (c t n : Nat) (h : sub32 n t + 1 ≤ c) :
    WaitsWithin c [Event.waited t n] := by
  intro t' n' hm
  simp only [List.mem_singleton] at hm
  cases hm
  exact h

theorem waitsWithin_call (c : Nat) (x : HwCall) : WaitsWithin c [Event.call x] := by
  intro t' n' hm
  simp only [List.mem_singleton] at hm
  cases hm

theorem waitsWithin_nil (c : Nat) : WaitsWithin c [] := by
  intro t n h
  cases h

theorem boundaryTick_lt (t0 i : Nat) : boundaryTick t0 i < 2 ^ 32 :=
  Nat.mod_lt _ (by decide)

theorem sub32_lt (a b : Nat) : sub32 a b < 2 ^ 32 := Nat.mod_lt _ (by decide)

theorem symbolStep_within (pit : Nat → Nat) (fuel : Nat) (hW : WaitsFinish pit fuel)
    (c : Nat) (hc : c ≤ 4) (hstep : StepsAtMost pit c) (bs : List Bool) (N t0 i : Nat)
    (st : LoopState) (r d : Nat) (h1 : st.nextSymbolTick = boundaryTick t0 i)
    (hr : st.reads = r + 1) (hd1 : 1 ≤ d) (hd9 : d ≤ 9)
    (hd : sub32 (boundaryTick t0 i) 4 = (pit r + d) % 2 ^ 32)
    (h3 : WaitsWithin c st.trace) :
    ∃ st', symbolStep pit fuel bs N st i = Except.ok st' ∧ WaitsWithin c st'.trace ∧
      (i + 1 < N → st'.nextSymbolTick = boundaryTick t0 (i + 1)) ∧
      ∃ r' d', st'.reads = r' + 1 ∧ 1 ≤ d' ∧ d' ≤ 9 ∧
        sub32 (boundaryTick t0 (i + 1)) 4 = (pit r' + d') % 2 ^ 32 := by
  obtain ⟨now1, k1, hw1, _⟩ :=
    busyWait_ok pit fuel hW (sub32 st.nextSymbolTick mdc1200ToneWriteLeadTicks) st.reads
  obtain ⟨now2, k2, hw2, _⟩ := busyWait_ok pit fuel hW st.nextSymbolTick k1
  have hT : sub32 st.nextSymbolTick mdc1200ToneWriteLeadTicks = sub32 (boundaryTick t0 i) 4 := by
    rw [h1]
    rfl
  have hw1' := hw1
  rw [hT, hr] at hw1'
  obtain ⟨r1, hk1, hn1, he1⟩ := busyWait_within pit c hc hstep (sub32 (boundaryTick t0 i) 4)
    (sub32_lt _ _) fuel r d now1 k1 hd1 hd9 hd hw1'
  have hB := boundaryTick_lt t0 i
  have hB' := boundaryTick_lt t0 (i + 1)
  have hD := tone_after_previous t0 i
  have hd2 : boundaryTick t0 i =
      (pit r1 + (4 - sub32 now1 (sub32 (boundaryTick t0 i) 4))) % 2 ^ 32 := by
    rw [hn1] at he1 ⊢
    generalize boundaryTick t0 i = B at hB he1 ⊢
    unfold sub32 at he1 ⊢
    omega
  have hw2' := hw2
  rw [h1, hk1] at hw2'
  obtain ⟨r2, hk2, hn2, he2⟩ := busyWait_within pit c hc hstep (boundaryTick t0 i) hB fuel r1
    (4 - sub32 now1 (sub32 (boundaryTick t0 i) 4)) now2 k2 (by omega) (by omega) hd2 hw2'
  refine ⟨symbolStepResult bs N st i now1 now2 k2,
    symbolStep_eq pit fuel bs N i st now1 k1 now2 k2 hw1 hw2, ?_, ?_, ?_⟩
  · have ha := waitsWithin_append c _ _ h3
      (waitsWithin_waited c (sub32 st.nextSymbolTick mdc1200ToneWriteLeadTicks) now1
        (by rw [hT]; exact he1))
    have hb := waitsWithin_waited c st.nextSymbolTick now2 (by rw [h1]; exact he2)
    by_cases hs : (decide (i + 1 < N) && decide (bs.getD (i + 1) false ≠ st.currentBit)) = true
    · simp only [symbolStepResult, hs, if_true]
      exact waitsWithin_append c _ _
        (waitsWithin_append c _ _ ha (waitsWithin_call c _)) hb
    · simp only [symbolStepResult, hs, if_false]
      exact waitsWithin_append c _ _ ha hb
  · intro hn
    simp only [symbolStepResult, hn, if_true, h1]
    exact boundaryTick_succ t0 i
  · refine ⟨r2, (sub32 (sub32 (boundaryTick t0 (i + 1)) 4) (boundaryTick t0 i)) -
      sub32 now2 (boundaryTick t0 i), hk2, by omega, by omega, ?_⟩
    rw [hn2] at he2 ⊢
    generalize boundaryTick t0 i = B at hB he2 hD ⊢
    generalize boundaryTick t0 (i + 1) = B' at hB' hD ⊢
    unfold sub32 at he2 hD ⊢
    omega

theorem symbolLoop_within (pit : Nat → Nat) (fuel : Nat) (hW : WaitsFinish pit fuel)
    (c : Nat) (hc : c ≤ 4) (hstep : StepsAtMost pit c) (bs : List Bool) (N t0 : Nat)
    (start : LoopState) (r d : Nat) (h1 : start.nextSymbolTick = boundaryTick t0 0)
    (hr : start.reads = r + 1) (hd1 : 1 ≤ d) (hd9 : d ≤ 9)
    (hd : sub32 (boundaryTick t0 0) 4 = (pit r + d) % 2 ^ 32) (h3 : start.trace = [])
    (n : Nat) (hn : n ≤ N) :
    ∃ st, (List.range n).foldlM (symbolStep pit fuel bs N) start = Except.ok st ∧
      WaitsWithin c st.trace ∧ (n < N → st.nextSymbolTick = boundaryTick t0 n) ∧
      ∃ r' d', st.reads = r' + 1 ∧ 1 ≤ d' ∧ d' ≤ 9 ∧
        sub32 (boundaryTick t0 n) 4 = (pit r' + d') % 2 ^ 32 := by
  induction n with
  | zero =>
    refine ⟨start, rfl, ?_, fun _ => h1, r, d, hr, hd1, hd9, hd⟩
    rw [h3]
    exact waitsWithin_nil c
  | succ n ih =>
    obtain ⟨st, g0, g1, g2, r', d', g3, g4, g5, g6⟩ := ih (by omega)
    obtain ⟨st', e0, e1, e2, e3⟩ := symbolStep_within pit fuel hW c hc hstep bs N t0 n st r' d'
      (g2 (by omega)) g3 g4 g5 g6 g1
    refine ⟨st', ?_, e1, e2, e3⟩
    rw [foldlM_range_succ, g0]
    exact e0

theorem transmitTrace_within (K : Constants) (radio : Radio) (b0 : Bool) (s0 now0 t0 c : Nat)
    (loopTrace : List Event)
    (h0 : sub32 now0 ((s0 + mdc1200ToneWriteLeadTicks) % 2 ^ 32) + 1 ≤ c)
    (hl : WaitsWithin c loopTrace) :
    WaitsWithin c (transmitTrace K radio b0 s0 now0 t0 loopTrace) := by
  intro t n hm
  unfold transmitTrace at hm
  simp only [List.mem_append, List.mem_cons, List.mem_singleton, List.not_mem_nil,
    or_false] at hm
  rcases hm with ((hm | hm) | hm) | hm
  · rcases hm with hm | hm | hm | hm | hm | hm <;> cases hm
  · rcases hm with hm | hm | hm
    · cases hm
    · cases hm
      exact h0
    · cases hm
  · exact hl t n hm
  · rcases hm with hm | hm
    · rcases hm with hm | hm | hm | hm
      · cases hm
      · cases hm
      · cases hm
      · revert hm
        cases radio.readReg0x58 <;> intro hm <;> cases hm
    · revert hm
      split
      · intro hm
        cases hm
      · intro hm
        simp only [List.mem_singleton] at hm
        cases hm

/-- When the counter advances by at most `c ≤ 4` ticks between two reads, every wait of
a transmission that passes its checks ends less than `c` ticks after its tick. -/
theorem transmit_within (K : Constants) (radio : Radio) (pit : Nat → Nat) (fuel : Nat)
    (bs0 : List Bool) (pkt : List Nat) (n : Nat)
    (hmode : radio.trxGetMode = K.RADIO_MODE_ANALOG)
    (hen : radio.trxTransmissionEnabled = true) (h1 : 1 ≤ n) (h26 : n ≤ 26)
    (hl : bs0.length = 208) (hW : WaitsFinish pit fuel) (c : Nat) (hc : c ≤ 4)
    (hstep : StepsAtMost pit c) :
    ∃ bs tr, mdc1200TransmitPacket K radio pit fuel bs0 (some pkt) n =
        Except.ok (true, bs, tr) ∧ WaitsWithin c tr := by
  obtain ⟨bs, hf, _, _⟩ := fillBitStream_ok pkt bs0 hl n h26
  obtain ⟨now0, k0, hw0, _⟩ := busyWait_ok pit fuel hW
    ((pit 0 % 2 ^ 32 + mdc1200ToneWriteLeadTicks) % 2 ^ 32) 1
  obtain ⟨r0, hk0, _, he0⟩ := busyWait_within pit c hc hstep
    ((pit 0 % 2 ^ 32 + mdc1200ToneWriteLeadTicks) % 2 ^ 32) (Nat.mod_lt _ (by decide)) fuel 0 4
    now0 k0 (by decide) (by decide)
    (by
      show (pit 0 % 2 ^ 32 + 4) % 2 ^ 32 = (pit 0 + 4) % 2 ^ 32
      omega)
    hw0
  obtain ⟨st, g0, g1, _, _⟩ := symbolLoop_within pit fuel hW c hc hstep bs (8 * n)
    (pit k0 % 2 ^ 32)
    { nextSymbolTick := (pit k0 % 2 ^ 32 + mdc1200SymbolTicks.getD 0 0) % 2 ^ 32,
      currentBit := bs.getD 0 false, reads := k0 + 1, trace := [] }
    k0 4
    (by
      show (pit k0 % 2 ^ 32 + 8) % 2 ^ 32 = boundaryTick (pit k0 % 2 ^ 32) 0
      unfold boundaryTick
      omega)
    rfl (by decide) (by decide)
    (by
      unfold sub32 boundaryTick
      omega)
    rfl (8 * n) (Nat.le_refl _)
  have hn0 : ¬ n = 0 := by omega
  have hpre : ¬ (radio.trxGetMode ≠ K.RADIO_MODE_ANALOG ∨
      radio.trxTransmissionEnabled = false) := by
    rw [hmode, hen]
    simp
  have htot : (n * 8) % 2 ^ 32 = 8 * n := by omega
  have hcap : ¬ (8 * n > MDC1200_PACKET_BYTES * 8) := by
    show ¬ (8 * n > 208)
    omega
  refine ⟨bs, transmitTrace K radio (bs.getD 0 false) (pit 0 % 2 ^ 32) now0 (pit k0 % 2 ^ 32)
    st.trace, ?_, transmitTrace_within K radio _ _ _ _ c _ he0 g1⟩
  simp only [mdc1200TransmitPacket, hn0, hpre, htot, hcap, if_false, hf, hw0, bind,
    Except.bind, g0, pure, Except.pure, transmitTrace]

/-- A counter that advances by one tick per read advances by at most one tick between
two reads. -/
theorem stepsAtMost_unit_steps : StepsAtMost (fun k => k) 1 := by
  intro k
  show sub32 (k + 1) k ≤ 1
  unfold sub32
  omega

/-- C14: on a transmission of a packet of 1 to 26 bytes that passes its checks, with
`b_0 .. b_(N-1)` the bits of the packet from bit 7 down to bit 0 of each byte and
`N = 8 * packetSize`, the calls of the trace are the six arming calls, of which the
third is `mdc1200SetBitTone b_0`, then for `i = 0 .. N-1` in order one call
`mdc1200SetBitTone b_(i+1)` if and only if `i + 1 < N` and `b_(i+1)` differs from `b_i`,
then the restore calls; in the trace the call of symbol `i` stands between the two
waits of that symbol; the last symbol has no call; `mdc1200SetBitTone` sets 1200 Hz for
a 1 bit and 1800 Hz for a 0 bit. -/
theorem transmitPacket_tone_calls (K : Constants) (radio : Radio) (pit : Nat → Nat)
    (fuel : Nat) (bs0 : List Bool) (pkt : List Nat) (n : Nat)
    (hmode : radio.trxGetMode = K.RADIO_MODE_ANALOG)
    (hen : radio.trxTransmissionEnabled = true) (h1 : 1 ≤ n) (h26 : n ≤ 26)
    (hl : bs0.length = 208) (hW : WaitsFinish pit fuel) :
    ∃ bs tr k, mdc1200TransmitPacket K radio pit fuel bs0 (some pkt) n =
        Except.ok (true, bs, tr) ∧
      callsOf tr =
        [HwCall.trxSetTxCSS K.CODEPLUG_CSS_NONE, HwCall.AT1846SWriteReg2byte 0x58 0xBC 0xFD,
          mdc1200SetBitTone (bitMSB pkt 0),
          HwCall.trxSelectVoiceChannel K.AT1846_VOICE_CHANNEL_TONE1,
          HwCall.enableAudioAmp K.AUDIO_AMP_MODE_RF,
          HwCall.GPIO_PinWrite K.GPIO_RX_audio_mux K.Pin_RX_audio_mux 1] ++
        (List.range (8 * n)).flatMap (fun i =>
          if i + 1 < 8 * n ∧ bitMSB pkt (i + 1) ≠ bitMSB pkt i then
            [mdc1200SetBitTone (bitMSB pkt (i + 1))] else []) ++
        callsOf (restoreSchedule K radio) ∧
      tr.map eraseReading =
        transmitSchedule K radio (bitMSB pkt) (8 * n) (pit 0 % 2 ^ 32) (pit k % 2 ^ 32) ∧
      (∀ i, symbolSchedule (bitMSB pkt) (8 * n) (pit k % 2 ^ 32) i =
        [Event.waited (sub32 (boundaryTick (pit k % 2 ^ 32) i) 4) 0] ++
          (if i + 1 < 8 * n ∧ bitMSB pkt (i + 1) ≠ bitMSB pkt i then
            [Event.call (mdc1200SetBitTone (bitMSB pkt (i + 1)))] else []) ++
          [Event.waited (boundaryTick (pit k % 2 ^ 32) i) 0]) ∧
      symbolSchedule (bitMSB pkt) (8 * n) (pit k % 2 ^ 32) (8 * n - 1) =
        [Event.waited (sub32 (boundaryTick (pit k % 2 ^ 32) (8 * n - 1)) 4) 0,
          Event.waited (boundaryTick (pit k % 2 ^ 32) (8 * n - 1)) 0] ∧
      (∀ b, mdc1200SetBitTone b = HwCall.trxSetTone1 (if b then 1200 else 1800)) := by
  obtain ⟨bs, tr, k, h0, hs, _, _⟩ :=
    transmit_schedule K radio pit fuel bs0 pkt n hmode hen h1 h26 hl hW
  refine ⟨bs, tr, k, h0, ?_, hs, fun i => rfl, ?_, fun b => rfl⟩
  · rw [← callsOf_erase, hs, callsOf_transmitSchedule]
    rfl
  · unfold symbolSchedule
    have c : ¬ (8 * n - 1 + 1 < 8 * n ∧
        bitMSB pkt (8 * n - 1 + 1) ≠ bitMSB pkt (8 * n - 1)) := fun h => by omega
    rw [if_neg c]
    rfl

/-- Witness of C14 at the one-byte packet 0xA5. -/
theorem transmitPacket_tone_calls_witness :
    exampleRadio.trxGetMode = exampleConstants.RADIO_MODE_ANALOG ∧
    exampleRadio.trxTransmissionEnabled = true ∧ 1 ≤ 1 ∧ 1 ≤ 26 ∧
    (List.replicate 208 false).length = 208 ∧ WaitsFinish (fun k => k) (2 ^ 32) ∧
    ∃ bs tr, mdc1200TransmitPacket exampleConstants exampleRadio (fun k => k) (2 ^ 32)
        (List.replicate 208 false) (some [0xA5]) 1 = Except.ok (true, bs, tr) ∧
      callsOf tr =
        [HwCall.trxSetTxCSS exampleConstants.CODEPLUG_CSS_NONE,
          HwCall.AT1846SWriteReg2byte 0x58 0xBC 0xFD,
          mdc1200SetBitTone (bitMSB [0xA5] 0),
          HwCall.trxSelectVoiceChannel exampleConstants.AT1846_VOICE_CHANNEL_TONE1,
          HwCall.enableAudioAmp exampleConstants.AUDIO_AMP_MODE_RF,
          HwCall.GPIO_PinWrite exampleConstants.GPIO_RX_audio_mux
            exampleConstants.Pin_RX_audio_mux 1] ++
        (List.range (8 * 1)).flatMap (fun i =>
          if i + 1 < 8 * 1 ∧ bitMSB [0xA5] (i + 1) ≠ bitMSB [0xA5] i then
            [mdc1200SetBitTone (bitMSB [0xA5] (i + 1))] else []) ++
        callsOf (restoreSchedule exampleConstants exampleRadio) :=
  ⟨rfl, rfl, by decide, by decide, List.length_replicate 208 false, waitsFinish_unit_steps,
    (transmitPacket_tone_calls exampleConstants exampleRadio (fun k => k) (2 ^ 32)
      (List.replicate 208 false) [0xA5] 1 rfl rfl (by decide) (by decide)
      (List.length_replicate 208 false) waitsFinish_unit_steps).elim
      (fun bs h => h.elim (fun tr h2 => h2.elim (fun _ h3 => ⟨bs, tr, h3.1, h3.2.1⟩)))⟩

/-- C15: on a transmission that passes its checks, with `t0` the reading of the counter
when symbol timing starts, the ticks waited for are the settle tick and then, for each
symbol `i`, the tone-update tick and the boundary tick
`(t0 + 8 * (i + 1) + (i + 1) div 3) mod 2^32`; the counter is read outside the waits
only twice (before the settle wait and at `t0`), so every boundary comes from the
boundary before it; the durations cycle through 8, 8, 9, three symbols in a row span 25
ticks, and the last of 208 boundaries is 1733 ticks after `t0`. -/
theorem transmitPacket_boundary_ticks (K : Constants) (radio : Radio) (pit : Nat → Nat)
    (fuel : Nat) (bs0 : List Bool) (pkt : List Nat) (n : Nat)
    (hmode : radio.trxGetMode = K.RADIO_MODE_ANALOG)
    (hen : radio.trxTransmissionEnabled = true) (h1 : 1 ≤ n) (h26 : n ≤ 26)
    (hl : bs0.length = 208) (hW : WaitsFinish pit fuel) :
    ∃ bs tr k, mdc1200TransmitPacket K radio pit fuel bs0 (some pkt) n =
        Except.ok (true, bs, tr) ∧
      waitTargetsOf tr = (pit 0 % 2 ^ 32 + 4) % 2 ^ 32 ::
        (List.range (8 * n)).flatMap (fun i =>
          [sub32 ((pit k % 2 ^ 32 + 8 * (i + 1) + (i + 1) / 3) % 2 ^ 32) 4,
            (pit k % 2 ^ 32 + 8 * (i + 1) + (i + 1) / 3) % 2 ^ 32]) ∧
      samplesOf tr = [pit 0 % 2 ^ 32, pit k % 2 ^ 32] ∧
      sub32 (boundaryTick (pit k % 2 ^ 32) 0) (pit k % 2 ^ 32) = 8 ∧
      (∀ i, sub32 (boundaryTick (pit k % 2 ^ 32) (i + 1)) (boundaryTick (pit k % 2 ^ 32) i) =
        mdc1200SymbolTicks.getD ((i + 1) % 3) 0) ∧
      (∀ i, sub32 (boundaryTick (pit k % 2 ^ 32) (i + 3)) (boundaryTick (pit k % 2 ^ 32) i) =
        25) ∧
      sub32 (boundaryTick (pit k % 2 ^ 32) 207) (pit k % 2 ^ 32) = 1733 := by
  obtain ⟨bs, tr, k, h0, hs, _, _⟩ :=
    transmit_schedule K radio pit fuel bs0 pkt n hmode hen h1 h26 hl hW
  refine ⟨bs, tr, k, h0, ?_, ?_, boundary_first _, boundary_step _, boundary_three _,
    boundary_total _⟩
  · rw [← waitTargetsOf_erase, hs, waitTargetsOf_transmitSchedule]
    rfl
  · rw [← samplesOf_erase, hs, samplesOf_transmitSchedule]

/-- Witness of C15 at the one-byte packet 0xA5. -/
theorem transmitPacket_boundary_ticks_witness :
    exampleRadio.trxGetMode = exampleConstants.RADIO_MODE_ANALOG ∧
    exampleRadio.trxTransmissionEnabled = true ∧ 1 ≤ 1 ∧ 1 ≤ 26 ∧
    (List.replicate 208 false).length = 208 ∧ WaitsFinish (fun k => k) (2 ^ 32) ∧
    ∃ bs tr k, mdc1200TransmitPacket exampleConstants exampleRadio (fun k => k) (2 ^ 32)
        (List.replicate 208 false) (some [0xA5]) 1 = Except.ok (true, bs, tr) ∧
      samplesOf tr = [(fun k => k) 0 % 2 ^ 32, (fun k => k) k % 2 ^ 32] :=
  ⟨rfl, rfl, by decide, by decide, List.length_replicate 208 false, waitsFinish_unit_steps,
    (transmitPacket_boundary_ticks exampleConstants exampleRadio (fun k => k) (2 ^ 32)
      (List.replicate 208 false) [0xA5] 1 rfl rfl (by decide) (by decide)
      (List.length_replicate 208 false) waitsFinish_unit_steps).elim
      (fun bs h => h.elim (fun tr h2 => h2.elim (fun k h3 => ⟨bs, tr, k, h3.1, h3.2.2.1⟩)))⟩

/-- C16: on a transmission that passes its checks, the trace without the readings is the
schedule: for every symbol `i` the wait for the tone-update tick, then the tone call if
there is one, then the wait for the boundary tick `B_i`. The tone-update tick is
`B_i - 4`: 4 ticks before `B_i`, and 4 or 5 ticks after `B_(i-1)` (4 ticks after the
start `t0` of symbol timing for `i = 0`). Every wait of the trace ended at a reading that
had reached its tick, so the tone call is made only after the counter has reached
`B_i - 4`, and before the wait for `B_i` begins. When the counter advances by at most
`c ≤ 4` ticks between two reads (the busy-poll of the specification), every wait ends
less than `c` ticks after its tick; so the reading after which the tone call is made is
from 1 to 4 ticks before `B_i`: strictly before `B_i` and strictly after `B_(i-1)`. -/
theorem transmitPacket_tone_timing (K : Constants) (radio : Radio) (pit : Nat → Nat)
    (fuel : Nat) (bs0 : List Bool) (pkt : List Nat) (n : Nat)
    (hmode : radio.trxGetMode = K.RADIO_MODE_ANALOG)
    (hen : radio.trxTransmissionEnabled = true) (h1 : 1 ≤ n) (h26 : n ≤ 26)
    (hl : bs0.length = 208) (hW : WaitsFinish pit fuel) :
    ∃ bs tr k, mdc1200TransmitPacket K radio pit fuel bs0 (some pkt) n =
        Except.ok (true, bs, tr) ∧
      tr.map eraseReading =
        armSchedule K (bitMSB pkt 0) ++
          [Event.sample (pit 0 % 2 ^ 32), Event.waited ((pit 0 % 2 ^ 32 + 4) % 2 ^ 32) 0,
            Event.sample (pit k % 2 ^ 32)] ++
          (List.range (8 * n)).flatMap (fun i =>
            [Event.waited (sub32 (boundaryTick (pit k % 2 ^ 32) i) 4) 0] ++
              (if i + 1 < 8 * n ∧ bitMSB pkt (i + 1) ≠ bitMSB pkt i then
                [Event.call (mdc1200SetBitTone (bitMSB pkt (i + 1)))] else []) ++
              [Event.waited (boundaryTick (pit k % 2 ^ 32) i) 0]) ++
          restoreSchedule K radio ∧
      (∀ target now, Event.waited target now ∈ tr → waitCondition now target = false) ∧
      (∀ i, sub32 (boundaryTick (pit k % 2 ^ 32) i)
        (sub32 (boundaryTick (pit k % 2 ^ 32) i) 4) = 4) ∧
      sub32 (sub32 (boundaryTick (pit k % 2 ^ 32) 0) 4) (pit k % 2 ^ 32) = 4 ∧
      (∀ i, sub32 (sub32 (boundaryTick (pit k % 2 ^ 32) (i + 1)) 4)
          (boundaryTick (pit k % 2 ^ 32) i) = 4 ∨
        sub32 (sub32 (boundaryTick (pit k % 2 ^ 32) (i + 1)) 4)
          (boundaryTick (pit k % 2 ^ 32) i) = 5) ∧
      (∀ c, c ≤ 4 → StepsAtMost pit c →
        ∀ target now, Event.waited target now ∈ tr → sub32 now target + 1 ≤ c) ∧
      (StepsAtMost pit 4 →
        ∀ i now, Event.waited (sub32 (boundaryTick (pit k % 2 ^ 32) i) 4) now ∈ tr →
          1 ≤ sub32 (boundaryTick (pit k % 2 ^ 32) i) now ∧
          sub32 (boundaryTick (pit k % 2 ^ 32) i) now ≤ 4) := by
  obtain ⟨bs, tr, k, h0, hs, hr, _⟩ :=
    transmit_schedule K radio pit fuel bs0 pkt n hmode hen h1 h26 hl hW
  have hwithin : ∀ c, c ≤ 4 → StepsAtMost pit c → WaitsWithin c tr := by
    intro c hc hstep
    obtain ⟨bs', tr', h0', hw⟩ :=
      transmit_within K radio pit fuel bs0 pkt n hmode hen h1 h26 hl hW c hc hstep
    rw [h0] at h0'
    have e : tr = tr' := congrArg (fun p => p.2.2) (Except.ok.inj h0')
    rw [e]
    exact hw
  refine ⟨bs, tr, k, h0, hs, hr, tone_before_boundary _, tone_after_start _,
    tone_after_previous _, hwithin, fun hstep i now hm => ?_⟩
  have hb := hwithin 4 (Nat.le_refl 4) hstep _ _ hm
  have hB := boundaryTick_lt (pit k % 2 ^ 32) i
  generalize boundaryTick (pit k % 2 ^ 32) i = B at hB hb ⊢
  unfold sub32 at hb ⊢
  omega

/-- Witness of C16 at the one-byte packet 0xA5 and a counter that advances by one tick
per read: every wait ends on its tick. -/
theorem transmitPacket_tone_timing_witness :
    exampleRadio.trxGetMode = exampleConstants.RADIO_MODE_ANALOG ∧
    exampleRadio.trxTransmissionEnabled = true ∧ 1 ≤ 1 ∧ 1 ≤ 26 ∧
    (List.replicate 208 false).length = 208 ∧ WaitsFinish (fun k => k) (2 ^ 32) ∧
    ∃ bs tr, mdc1200TransmitPacket exampleConstants exampleRadio (fun k => k) (2 ^ 32)
        (List.replicate 208 false) (some [0xA5]) 1 = Except.ok (true, bs, tr) ∧
      (∀ target now, Event.waited target now ∈ tr → waitCondition now target = false) ∧
      (∀ target now, Event.waited target now ∈ tr → sub32 now target + 1 ≤ 1) :=
  ⟨rfl, rfl, by decide, by decide, List.length_replicate 208 false, waitsFinish_unit_steps,
    (transmitPacket_tone_timing exampleConstants exampleRadio (fun k => k) (2 ^ 32)
      (List.replicate 208 false) [0xA5] 1 rfl rfl (by decide) (by decide)
      (List.length_replicate 208 false) waitsFinish_unit_steps).elim
      (fun bs h => h.elim (fun tr h2 => h2.elim (fun _ h3 => ⟨bs, tr, h3.1, h3.2.2.1,
        h3.2.2.2.2.2.2.1 1 (by decide) stepsAtMost_unit_steps⟩)))⟩

theorem filter_arm (K : Constants) (b0 : Bool) :
    (callsOf (armSchedule K b0)).filter isPinWrite =
      [HwCall.GPIO_PinWrite K.GPIO_RX_audio_mux K.Pin_RX_audio_mux 1] := rfl

theorem pinAfter_arm (K : Constants) (b0 : Bool) (initial : Nat) :
    pinAfter K.GPIO_RX_audio_mux K.Pin_RX_audio_mux initial (callsOf (armSchedule K b0)) = 1 := by
  simp [pinAfter, callsOf, armSchedule, callOf]

/-- C20: on a transmission that passes its checks, the calls are the arming calls, the
tone switches and the restore calls; the only write of a GPIO pin among them is the
write of 1 to the receive-audio mux line in the arming calls; the restore calls write no
pin; the level of the line after the calls of the trace is 1 whatever it was before. -/
theorem transmitPacket_audio_mux_left_set (K : Constants) (radio : Radio) (pit : Nat → Nat)
    (fuel : Nat) (bs0 : List Bool) (pkt : List Nat) (n : Nat)
    (hmode : radio.trxGetMode = K.RADIO_MODE_ANALOG)
    (hen : radio.trxTransmissionEnabled = true) (h1 : 1 ≤ n) (h26 : n ≤ 26)
    (hl : bs0.length = 208) (hW : WaitsFinish pit fuel) :
    ∃ bs tr switches, mdc1200TransmitPacket K radio pit fuel bs0 (some pkt) n =
        Except.ok (true, bs, tr) ∧
      callsOf tr = callsOf (armSchedule K (bitMSB pkt 0)) ++ switches ++
        callsOf (restoreSchedule K radio) ∧
      (callsOf (armSchedule K (bitMSB pkt 0))).filter isPinWrite =
        [HwCall.GPIO_PinWrite K.GPIO_RX_audio_mux K.Pin_RX_audio_mux 1] ∧
      switches.filter isPinWrite = [] ∧
      (callsOf (restoreSchedule K radio)).filter isPinWrite = [] ∧
      (callsOf tr).filter isPinWrite =
        [HwCall.GPIO_PinWrite K.GPIO_RX_audio_mux K.Pin_RX_audio_mux 1] ∧
      (∀ initial,
        pinAfter K.GPIO_RX_audio_mux K.Pin_RX_audio_mux initial (callsOf tr) = 1) := by
  obtain ⟨bs, tr, k, h0, hs, _, _⟩ :=
    transmit_schedule K radio pit fuel bs0 pkt n hmode hen h1 h26 hl hW
  have hc : callsOf tr = callsOf (armSchedule K (bitMSB pkt 0)) ++
      switchCalls (bitMSB pkt) (8 * n) (8 * n) ++ callsOf (restoreSchedule K radio) := by
    rw [← callsOf_erase, hs, callsOf_transmitSchedule]
  refine ⟨bs, tr, switchCalls (bitMSB pkt) (8 * n) (8 * n), h0, hc, filter_arm K _,
    filter_switchCalls _ _ _, filter_restore K radio, ?_, ?_⟩
  · rw [hc, List.filter_append, List.filter_append, filter_arm, filter_switchCalls,
      filter_restore]
    rfl
  · intro initial
    rw [hc, pinAfter_append, pinAfter_append, pinAfter_arm,
      pinAfter_no_write _ _ _ (filter_switchCalls _ _ _),
      pinAfter_no_write _ _ _ (filter_restore K radio)]

/-- Witness of C20 at the one-byte packet 0xA5. -/
theorem transmitPacket_audio_mux_left_set_witness :
    exampleRadio.trxGetMode = exampleConstants.RADIO_MODE_ANALOG ∧
    exampleRadio.trxTransmissionEnabled = true ∧ 1 ≤ 1 ∧ 1 ≤ 26 ∧
    (List.replicate 208 false).length = 208 ∧ WaitsFinish (fun k => k) (2 ^ 32) ∧
    ∃ bs tr, mdc1200TransmitPacket exampleConstants exampleRadio (fun k => k) (2 ^ 32)
        (List.replicate 208 false) (some [0xA5]) 1 = Except.ok (true, bs, tr) ∧
      (∀ initial, pinAfter exampleConstants.GPIO_RX_audio_mux
        exampleConstants.Pin_RX_audio_mux initial (callsOf tr) = 1) :=
  ⟨rfl, rfl, by decide, by decide, List.length_replicate 208 false, waitsFinish_unit_steps,
    (transmitPacket_audio_mux_left_set exampleConstants exampleRadio (fun k => k) (2 ^ 32)
      (List.replicate 208 false) [0xA5] 1 rfl rfl (by decide) (by decide)
      (List.length_replicate 208 false) waitsFinish_unit_steps).elim
      (fun bs h => h.elim (fun tr h2 => h2.elim
        (fun _ h3 => ⟨bs, tr, h3.1, h3.2.2.2.2.2.2⟩)))⟩

/-- C12: `mdc1200TransmitEOTPostId` encodes with opcode `MDC1200_OP_CODE_POST_ID = 0x01`
and argument 0x00 into its array of 26 bytes, gets a packet of 26 bytes and the size 26,
and passes them to `mdc1200TransmitPacket`; the 208 symbols pass the capacity check;
when the counter advances so that the waits finish, the call returns, and it returns true
if and only if the radio mode is analog and `trxTransmissionEnabled` is true. -/
theorem transmitEOTPostId_returns (K : Constants) (radio : Radio) (pit : Nat → Nat)
    (fuel : Nat) (interleaved0 packet0 : List Nat) (bs0 : List Bool) (unitId : Nat)
    (hi : interleaved0.length = 112) (hp : packet0.length = 26) (hl : bs0.length = 208)
    (hW : WaitsFinish pit fuel) :
    MDC1200_OP_CODE_POST_ID = 0x01 ∧
    (∃ p, mdc1200EncodeSinglePacket interleaved0 (some packet0) 0x01 0x00 unitId =
        (some p, 26) ∧ p.length = 26 ∧
      mdc1200TransmitEOTPostId K radio pit fuel interleaved0 packet0 bs0 unitId =
        mdc1200TransmitPacket K radio pit fuel bs0 (some p) 26) ∧
    ¬ ((26 * 8) % 2 ^ 32 > MDC1200_PACKET_BYTES * 8) ∧
    ∃ ret bs tr, mdc1200TransmitEOTPostId K radio pit fuel interleaved0 packet0 bs0 unitId =
        Except.ok (ret, bs, tr) ∧
      (ret = true ↔ radio.trxGetMode = K.RADIO_MODE_ANALOG ∧
        radio.trxTransmissionEnabled = true) := by
  have he := encodeSinglePacket_eq interleaved0 packet0 0x01 0x00 unitId hi hp
  have hlen : (differentialCode
      (encodeBeforeModulation interleaved0 packet0 0x01 0x00 unitId).1).length = 26 := by
    unfold differentialCode
    rw [applyXor_length]
    exact (preModulation_head interleaved0 packet0 0x01 0x00 unitId hi hp).1
  have ht : mdc1200TransmitEOTPostId K radio pit fuel interleaved0 packet0 bs0 unitId =
      mdc1200TransmitPacket K radio pit fuel bs0
        (some (differentialCode
          (encodeBeforeModulation interleaved0 packet0 0x01 0x00 unitId).1)) 26 := by
    unfold mdc1200TransmitEOTPostId MDC1200_OP_CODE_POST_ID
    rw [he]
  refine ⟨rfl, ⟨_, he, hlen, ht⟩, by decide, ?_⟩
  rw [ht]
  by_cases hc : radio.trxGetMode = K.RADIO_MODE_ANALOG ∧ radio.trxTransmissionEnabled = true
  · obtain ⟨bs, tr, k, h0, _⟩ := transmit_schedule K radio pit fuel bs0 _ 26 hc.1 hc.2
      (by decide) (by decide) hl hW
    exact ⟨true, bs, tr, h0, fun _ => hc, fun _ => rfl⟩
  · refine ⟨false, bs0, [], transmit_rejects K radio pit fuel bs0 _ 26 ?_, ?_⟩
    · right; right
      by_cases hm : radio.trxGetMode = K.RADIO_MODE_ANALOG
      · right
        cases hb : radio.trxTransmissionEnabled with
        | false => rfl
        | true => exact absurd ⟨hm, hb⟩ hc
      · exact Or.inl hm
    · constructor
      · intro h; cases h
      · intro h; exact absurd h hc

/-- Witness of C12 at unit id 0x1234. -/
theorem transmitEOTPostId_returns_witness :
    (List.replicate 112 0).length = 112 ∧ (List.replicate 26 0).length = 26 ∧
    (List.replicate 208 false).length = 208 ∧ WaitsFinish (fun k => k) (2 ^ 32) ∧
    ∃ ret bs tr, mdc1200TransmitEOTPostId exampleConstants exampleRadio (fun k => k) (2 ^ 32)
        (List.replicate 112 0) (List.replicate 26 0) (List.replicate 208 false) 0x1234 =
        Except.ok (ret, bs, tr) ∧
      (ret = true ↔ exampleRadio.trxGetMode = exampleConstants.RADIO_MODE_ANALOG ∧
        exampleRadio.trxTransmissionEnabled = true) :=
  ⟨List.length_replicate 112 0, List.length_replicate 26 0, List.length_replicate 208 false,
    waitsFinish_unit_steps,
    (transmitEOTPostId_returns exampleConstants exampleRadio (fun k => k) (2 ^ 32)
      (List.replicate 112 0) (List.replicate 26 0) (List.replicate 208 false) 0x1234
      (List.length_replicate 112 0) (List.length_replicate 26 0)
      (List.length_replicate 208 false) waitsFinish_unit_steps).2.2.2⟩

/-! ### A decoder for the packets of `mdc1200EncodeSinglePacket` -/

set_option maxRecDepth 100000 in
theorem undoByte_small : ∀ x < 256, ∀ prev < 2,
    undoByte prev (((xorModByte prev x).1 ^^^ 0xFF) % 256) = (x, x % 2) := by
  decide

theorem undoFrom_coded (data : List Nat) :
    ∀ (coded : List Nat) (p : Nat), p < 2 → coded.length = data.length →
      (∀ j, j < data.length → data.getD j 0 < 256) →
      (∀ j, j < data.length → coded.getD j 0 =
        ((xorModByte (if j = 0 then p else data.getD (j - 1) 0 % 2) (data.getD j 0)).1
          ^^^ 0xFF) % 256) →
      undoFrom p coded = data := by
  induction data with
  | nil =>
    intro coded p _ hl _ _
    have : coded = [] := List.length_eq_zero.mp hl
    rw [this]
    rfl
  | cons x xs ih =>
    intro coded p hp hl hb hc
    cases coded with
    | nil => simp at hl
    | cons y ys =>
      have hx : x < 256 := hb 0 (by simp)
      have hy : y = ((xorModByte p x).1 ^^^ 0xFF) % 256 := hc 0 (by simp)
      have hu := undoByte_small x hx p hp
      rw [← hy] at hu
      have hl2 : ys.length = xs.length := by simpa using hl
      have hb2 : ∀ j, j < xs.length → xs.getD j 0 < 256 := by
        intro j hj
        have := hb (j + 1) (by simp; omega)
        simpa using this
      have hc2 : ∀ j, j < xs.length → ys.getD j 0 =
          ((xorModByte (if j = 0 then x % 2 else xs.getD (j - 1) 0 % 2) (xs.getD j 0)).1
            ^^^ 0xFF) % 256 := by
        intro j hj
        have h := hc (j + 1) (by simp; omega)
        rw [List.getD_cons_succ, List.getD_cons_succ, if_neg (Nat.succ_ne_zero j)] at h
        rw [h]
        cases j with
        | zero => rfl
        | succ j => rfl
      show (undoByte p y).1 :: undoFrom (undoByte p y).2 ys = x :: xs
      rw [hu]
      dsimp only
      rw [ih ys (x % 2) (by omega) hl2 hb2 hc2]

theorem differentialDecode_code (data : List Nat)
    (hb : ∀ j, j < data.length → data.getD j 0 < 256) :
    differentialDecode (differentialCode data) = data := by
  unfold differentialDecode differentialCode
  apply undoFrom_coded data _ 0 (by decide) (applyXor_length data) hb
  intro j hj
  rw [applyXor_getD data j hj]
  rfl

theorem rawFrame_lt (op arg unitId : Nat) (hop : op < 256) (harg : arg < 256)
    (hu : unitId < 65536) : ∀ i, (rawFrame op arg unitId).getD i 0 < 256 := by
  have hc := crc_lt [op, arg, unitId >>> 8, unitId &&& 0xFF] 4
  have h1 : unitId >>> 8 < 256 := by
    rw [Nat.shiftRight_eq_div_pow]
    omega
  have h2 : unitId &&& 0xFF < 256 := by
    rw [and_255]
    omega
  have h3 : mdc1200CRC16Xmodem [op, arg, unitId >>> 8, unitId &&& 0xFF] 4 &&& 0xFF < 256 := by
    rw [and_255]
    omega
  have h4 : mdc1200CRC16Xmodem [op, arg, unitId >>> 8, unitId &&& 0xFF] 4 >>> 8 < 256 := by
    rw [Nat.shiftRight_eq_div_pow]
    omega
  intro i
  unfold rawFrame
  match i with
  | 0 => exact hop
  | 1 => exact harg
  | 2 => exact h1
  | 3 => exact h2
  | 4 => exact h3
  | 5 => exact h4
  | 6 => exact (by decide : (0 : Nat) < 256)
  | _ + 7 => exact (by decide : (0 : Nat) < 256)

theorem convParityBytes_lt (F : List Nat) (hF : F.length = 7) (i : Nat) :
    (convParityBytes F).getD i 0 < 256 := by
  have hlen : (F ++ List.replicate MDC1200_FEC_K 0).length = 14 := by
    simp [hF, MDC1200_FEC_K]
  obtain ⟨a1, _, a3⟩ := convStage_spec (F ++ List.replicate MDC1200_FEC_K 0) 0 (by omega)
  unfold convParityBytes
  rw [getD_drop]
  by_cases hi : i < 7
  · have := (a3 i hi).1
    have e : MDC1200_FEC_K + i = 0 + 7 + i := by
      unfold MDC1200_FEC_K
      omega
    rw [e]
    exact this
  · rw [List.getD_eq_default _ _ (by rw [a1, hlen]; unfold MDC1200_FEC_K; omega)]
    decide

theorem payload_lt (op arg unitId : Nat) (hop : op < 256) (harg : arg < 256)
    (hu : unitId < 65536) (i : Nat) :
    (rawFrame op arg unitId ++ convParityBytes (rawFrame op arg unitId)).getD i 0 < 256 := by
  by_cases hi : i < 7
  · rw [List.getD_append _ _ _ _ (by rw [rawFrame_length]; exact hi)]
    exact rawFrame_lt op arg unitId hop harg hu i
  · rw [List.getD_append_right _ _ _ _ (by rw [rawFrame_length]; omega)]
    exact convParityBytes_lt _ (rawFrame_length op arg unitId) _

theorem payload_length (op arg unitId : Nat) :
    (rawFrame op arg unitId ++ convParityBytes (rawFrame op arg unitId)).length = 14 := by
  rw [List.length_append, rawFrame_length, convParityBytes_length _ (rawFrame_length op arg unitId)]

theorem interleave_lt (payload : List Nat) (h : payload.length = 14) (i : Nat) :
    (interleave payload).getD i 0 < 256 := by
  have hz : (List.replicate (MDC1200_ENCODED_PAYLOAD_BYTES * 8) 0).length = 112 := by
    simp [MDC1200_ENCODED_PAYLOAD_BYTES, MDC1200_FEC_K]
  obtain ⟨a1, _, a3⟩ := interleaveStage_spec _ payload 0 hz (by omega)
  unfold interleave
  by_cases hi : i < 14
  · have := (a3 i hi).1
    rw [Nat.zero_add] at this
    exact this
  · rw [List.getD_eq_default _ _ (by rw [a1, h]; omega)]
    decide

theorem header_lt : ∀ j, (mdc1200Preamble ++ mdc1200Sync).getD j 0 < 256 := by
  intro j
  match j with
  | 0 | 1 | 2 | 3 | 4 | 5 | 6 | 7 | 8 | 9 | 10 | 11 => decide
  | n + 12 =>
    rw [List.getD_eq_default _ _ (Nat.le_add_left 12 n)]
    decide

theorem unitId_bytes (unitId : Nat) :
    (unitId >>> 8) * 256 + (unitId &&& 0xFF) = unitId := by
  rw [and_255, Nat.shiftRight_eq_div_pow]
  omega

theorem decodeFields_encoded (interleaved0 buf : List Nat) (op arg unitId : Nat)
    (hL : interleaved0.length = 112) (hbuf : buf.length = 26) (hop : op < 256)
    (harg : arg < 256) (hu : unitId < 65536) :
    decodeFields (differentialCode (encodeBeforeModulation interleaved0 buf op arg unitId).1) =
      (op, arg, unitId) := by
  rw [preModulation_eq interleaved0 buf op arg unitId hL hbuf hu]
  have hpl := payload_length op arg unitId
  have hplt := payload_lt op arg unitId hop harg hu
  have hX : ∀ j, j < (mdc1200Preamble ++ mdc1200Sync ++
      interleave (rawFrame op arg unitId ++ convParityBytes (rawFrame op arg unitId))).length →
      (mdc1200Preamble ++ mdc1200Sync ++
        interleave (rawFrame op arg unitId ++ convParityBytes (rawFrame op arg unitId))).getD j 0
        < 256 := by
    intro j _
    have hH : (mdc1200Preamble ++ mdc1200Sync).length = 12 := rfl
    by_cases hj : j < 12
    · rw [List.getD_append _ _ _ _ (by rw [hH]; exact hj)]
      exact header_lt j
    · rw [List.getD_append_right _ _ _ _ (by rw [hH]; omega)]
      exact interleave_lt _ hpl _
  have hz : (List.replicate (MDC1200_ENCODED_PAYLOAD_BYTES * 8) 0).length = 112 := by
    simp [MDC1200_ENCODED_PAYLOAD_BYTES, MDC1200_FEC_K]
  have hd : deinterleave (interleave
      (rawFrame op arg unitId ++ convParityBytes (rawFrame op arg unitId))) =
      rawFrame op arg unitId ++ convParityBytes (rawFrame op arg unitId) :=
    deinterleave_interleave _ _ hz hpl (fun i _ => hplt i)
  have hdrop : (mdc1200Preamble ++ mdc1200Sync ++
      interleave (rawFrame op arg unitId ++ convParityBytes (rawFrame op arg unitId))).drop 12 =
      interleave (rawFrame op arg unitId ++ convParityBytes (rawFrame op arg unitId)) :=
    List.drop_left' rfl
  unfold decodeFields
  rw [differentialDecode_code _ hX, hdrop, hd]
  show (op, arg, (unitId >>> 8) * 256 + (unitId &&& 0xFF)) = (op, arg, unitId)
  rw [unitId_bytes unitId]

/-- C19: for opcodes and arguments of 8 bits and unit ids of 16 bits, the decoder
`decodeFields` (undo the complement and the differential coding by a running XOR, skip
preamble and sync, invert the interleave permutation, read the four systematic bytes)
recovers `(op, arg, unitId)` from the 26-byte packet of `mdc1200EncodeSinglePacket`;
hence two calls whose arguments differ in any component give different packets. -/
theorem encodeSinglePacket_injective (interleaved0 buf interleaved1 buf1 : List Nat)
    (op arg unitId op1 arg1 unitId1 : Nat)
    (hL : interleaved0.length = 112) (hbuf : buf.length = 26)
    (hL1 : interleaved1.length = 112) (hbuf1 : buf1.length = 26)
    (hop : op < 256) (harg : arg < 256) (hu : unitId < 65536)
    (hop1 : op1 < 256) (harg1 : arg1 < 256) (hu1 : unitId1 < 65536) :
    (∃ p, mdc1200EncodeSinglePacket interleaved0 (some buf) op arg unitId = (some p, 26) ∧
      p.length = 26 ∧ decodeFields p = (op, arg, unitId)) ∧
    ((op, arg, unitId) ≠ (op1, arg1, unitId1) →
      (mdc1200EncodeSinglePacket interleaved0 (some buf) op arg unitId).1 ≠
        (mdc1200EncodeSinglePacket interleaved1 (some buf1) op1 arg1 unitId1).1) ∧
    ((mdc1200EncodeSinglePacket interleaved0 (some buf) op arg unitId).1 =
        (mdc1200EncodeSinglePacket interleaved1 (some buf1) op1 arg1 unitId1).1 →
      op = op1 ∧ arg = arg1 ∧ unitId = unitId1) := by
  have he := encodeSinglePacket_eq interleaved0 buf op arg unitId hL hbuf
  have he1 := encodeSinglePacket_eq interleaved1 buf1 op1 arg1 unitId1 hL1 hbuf1
  have hd := decodeFields_encoded interleaved0 buf op arg unitId hL hbuf hop harg hu
  have hd1 := decodeFields_encoded interleaved1 buf1 op1 arg1 unitId1 hL1 hbuf1 hop1 harg1 hu1
  have hlen : (differentialCode
      (encodeBeforeModulation interleaved0 buf op arg unitId).1).length = 26 := by
    unfold differentialCode
    rw [applyXor_length]
    exact (preModulation_head interleaved0 buf op arg unitId hL hbuf).1
  have key : (mdc1200EncodeSinglePacket interleaved0 (some buf) op arg unitId).1 =
      (mdc1200EncodeSinglePacket interleaved1 (some buf1) op1 arg1 unitId1).1 →
      (op, arg, unitId) = (op1, arg1, unitId1) := by
    intro h
    rw [he, he1] at h
    have h2 := Option.some.inj h
    rw [← hd, ← hd1, h2]
  refine ⟨⟨_, he, hlen, hd⟩, fun hne h => hne (key h), fun h => ?_⟩
  have := key h
  simp only [Prod.mk.injEq] at this
  exact this

/-- Witness of C19 at the unit ids 0x1234 and 0x1235. -/
theorem encodeSinglePacket_injective_witness :
    (List.replicate 112 0).length = 112 ∧ (List.replicate 26 0).length = 26 ∧
    (1 : Nat) < 256 ∧ (0 : Nat) < 256 ∧ 0x1234 < 65536 ∧ 0x1235 < 65536 ∧
    (mdc1200EncodeSinglePacket (List.replicate 112 0) (some (List.replicate 26 0))
        1 0 0x1234).1 ≠
      (mdc1200EncodeSinglePacket (List.replicate 112 0) (some (List.replicate 26 0))
        1 0 0x1235).1 :=
  ⟨List.length_replicate 112 0, List.length_replicate 26 0, by decide, by decide, by decide,
    by decide,
    (encodeSinglePacket_injective (List.replicate 112 0) (List.replicate 26 0)
      (List.replicate 112 0) (List.replicate 26 0) 1 0 0x1234 1 0 0x1235
      (List.length_replicate 112 0) (List.length_replicate 26 0)
      (List.length_replicate 112 0) (List.length_replicate 26 0)
      (by decide) (by decide) (by decide) (by decide) (by decide) (by decide)).2.1
      (by decide)⟩

end MDC1200
